import Mathlib

/-!
# Verification of the `Set` (AVL tree, `src/set.h`) and `HashMap` (`src/hashmap.h`)

Shallow embedding of the two containers of the repository.  The element /
key / value types are instantiated at `Int` (the C++ code is a template over
any type with `<`; all claims are about order behaviour, so a concrete
linearly ordered type is used).

The C++ `Set` is a pointer structure.  We embed it as a functional binary
tree in which every node additionally carries the *identity* of the C++
node (`id : Nat`, abstracting its address; the allocator hands out fresh
addresses and never reuses them).  The `parent` pointers of the source are
the inverse of the child pointers and are represented implicitly: an
upward parent-walk of the source corresponds to walking the unique
root-to-node path (`List Dir`) backwards.  Cached `height` and `size`
fields are stored in every node exactly as in the source; "real" height
and size are recomputed recursively for the invariant statements.
-/

namespace AvlSet

/-- One C++ `Set<int>::Node`: value, left/right subtrees, cached height and
cached subtree size, plus the node identity (the address `new` returned). -/
inductive Tree where
  | nil : Tree
  | node (l : Tree) (id : Nat) (val : Int) (r : Tree) (hgt : Int) (sz : Nat) : Tree
deriving DecidableEq, Repr

open Tree

/-- `get_h`: cached height, 0 for an absent subtree (source lines 48-53). -/
def get_h : Tree → Int
  | nil => 0
  | node _ _ _ _ hgt _ => hgt

/-- `get_sz`: cached subtree size, 0 for an absent subtree (source lines 55-60). -/
def get_sz : Tree → Nat
  | nil => 0
  | node _ _ _ _ _ sz => sz

/-- `v->left` (nil when the child is absent or `v` is null). -/
def left : Tree → Tree
  | nil => nil
  | node l _ _ _ _ _ => l

/-- `v->right`. -/
def right : Tree → Tree
  | nil => nil
  | node _ _ _ r _ _ => r

/-- `get_diff`: balance factor from the *cached* child heights
(source lines 41-46); 0 for null. -/
def get_diff : Tree → Int
  | nil => 0
  | node l _ _ r _ _ => get_h l - get_h r

/-- `recalc`: rewrite the cached height/size of the top node from the
cached values of its children (source lines 88-94). -/
def recalcT : Tree → Tree
  | nil => nil
  | node l id v r _ _ => node l id v r (max (get_h l) (get_h r) + 1) (get_sz l + get_sz r + 1)

/-- `small_left_rotation` (source lines 96-133).  The child rewiring and the
bottom-up `recalc(v); recalc(u)`; `recalc(p)` of the source is re-done by the
caller at the parent's own level in every continuation, so it is not needed
here.  When `v->right` is null the source would dereference a null pointer
(it is never called in that situation); the embedding returns the tree
unchanged there. -/
def small_left_rotation : Tree → Tree
  | node l id v (node rl uid uv rr uh usz) h sz =>
      recalcT (node (recalcT (node l id v rl h sz)) uid uv rr uh usz)
  | t => t

/-- `small_right_rotation` (source lines 135-172). -/
def small_right_rotation : Tree → Tree
  | node (node ll uid uv lr uh usz) id v r h sz =>
      recalcT (node ll uid uv (recalcT (node lr id v r h sz)) uh usz)
  | t => t

/-- `big_left_rotation` (source lines 174-223): promotes `w = v->right->left`. -/
def big_left_rotation : Tree → Tree
  | node l id v (node (node wl wid wv wr wh wsz) uid uv ur uh usz) h sz =>
      recalcT (node (recalcT (node l id v wl h sz))
                    wid wv
                    (recalcT (node wr uid uv ur uh usz)) wh wsz)
  | t => t

/-- `big_right_rotation` (source lines 225-275): promotes `w = v->left->right`. -/
def big_right_rotation : Tree → Tree
  | node (node ul uid uv (node wl wid wv wr wh wsz) uh usz) id v r h sz =>
      recalcT (node (recalcT (node ul uid uv wl uh usz))
                    wid wv
                    (recalcT (node wr id v r h sz)) wh wsz)
  | t => t

/-- `rebalance` (source lines 277-313): pick the rotation from the cached
balance factors.  The source's special-casing of `v == root` only re-seats
the root pointer, which the functional embedding does implicitly. -/
def rebalance (t : Tree) : Tree :=
  if get_diff t = -2 then
    if get_diff (right t) = -1 ∨ get_diff (right t) = 0 then small_left_rotation t
    else big_left_rotation t
  else
    if get_diff (left t) = 1 ∨ get_diff (left t) = 0 then small_right_rotation t
    else big_right_rotation t

/-- Real (recursively recomputed) height, independent of the caches. -/
def realH : Tree → Int
  | nil => 0
  | node l _ _ r _ _ => max (realH l) (realH r) + 1

/-- Real (recursively recomputed) subtree size, independent of the caches. -/
def realSz : Tree → Nat
  | nil => 0
  | node l _ _ r _ _ => realSz l + realSz r + 1

/-- In-order sequence of (node identity, value) pairs. -/
def inorderP : Tree → List (Nat × Int)
  | nil => []
  | node l id v r _ _ => inorderP l ++ (id, v) :: inorderP r

/-- In-order sequence of values (what iterating from `begin()` to `end()` yields). -/
def inorder (t : Tree) : List Int := (inorderP t).map Prod.snd

/-- Node identities present in the tree, in in-order. -/
def idsOf (t : Tree) : List Nat := (inorderP t).map Prod.fst

/-- The value stored in the node with identity `i`, if that node is in the tree. -/
def valueAtId : Tree → Nat → Option Int
  | nil, _ => none
  | node l id v r _ _, i =>
      if id = i then some v else
        match valueAtId l i with
        | some w => some w
        | none => valueAtId r i

/-! ## Insertion (source lines 431-482)

The source attaches the new node below the failed-search parent and then
walks the parent chain upward:

* `diff == 0`  : break; afterwards a second loop `recalc`s every node from
  the break point up to the root;
* `diff == ±1`: `recalc(v); v = v->parent` — continue rebalancing;
* otherwise   : `v = rebalance(v)` and the loop re-examines the subtree
  root the rotation returned (same tree position).

In the functional embedding the upward parent-walk is the return path of
the structural recursion `insDown`; the boolean `stop` records that the
first loop has ended (above that point only `recalc` happens).  The
re-examination loop at one position is `rebalanceLoopIns`, fuelled; the
fuel passed (`get_sz + 1 ≥ 2`) covers the at most one rotation plus one
re-check that ever happen at a position. -/

/-- The `else { v = rebalance(v); }` re-examination loop of `insert` at one
tree position.  Returns the new subtree and whether rebalancing is finished
(`true` = the `diff == 0` break was taken). -/
def rebalanceLoopIns : Nat → Tree → Tree × Bool
  | 0, t => (recalcT t, true)
  | fuel + 1, t =>
      if get_diff t = 0 then (recalcT t, true)
      else if get_diff t = 1 ∨ get_diff t = -1 then (recalcT t, false)
      else rebalanceLoopIns fuel (rebalance t)

/-- The descent of `find_` merged with the attach-and-ascend of `insert`:
`none` = an equal element is present (the source frees the fresh node and
leaves the tree untouched); `some (t, stop)` = new tree plus the
stopped-rebalancing flag of the upward loop. -/
def insDown (x : Int) (nid : Nat) : Tree → Option (Tree × Bool)
  | nil => some (node nil nid x nil 1 1, false)
  | node l id v r h sz =>
      if ¬ v < x ∧ ¬ x < v then none
      else if v < x then
        (insDown x nid r).map fun p =>
          let t := node l id v p.1 h sz
          if p.2 then (recalcT t, true) else rebalanceLoopIns (get_sz t + 1) t
      else
        (insDown x nid l).map fun p =>
          let t := node p.1 id v r h sz
          if p.2 then (recalcT t, true) else rebalanceLoopIns (get_sz t + 1) t

/-- The whole `Set` object: root pointer, `most_left` cache (as a node
identity; `none` = null), and the next fresh node identity the allocator
will hand out. -/
structure SetS where
  root : Tree
  most_left : Option Nat
  fresh : Nat
deriving DecidableEq, Repr

/-- `Set::insert` (source lines 431-482).  The source allocates the node
first, updates `most_left` *before* the duplicate check, and frees the node
on a duplicate.  When `most_left` is null or dangling while the tree is
non-empty the source dereferences invalid memory (`most_left->value`);
the embedding leaves the cache unchanged in that (undefined) situation. -/
def insertS (x : Int) (s : SetS) : SetS :=
  match s.root with
  | nil => ⟨node nil s.fresh x nil 1 1, some s.fresh, s.fresh + 1⟩
  | t =>
      let ml : Option Nat :=
        match s.most_left.bind (valueAtId t) with
        | some m => if x < m then some s.fresh else s.most_left
        | none => s.most_left
      match insDown x s.fresh t with
      | none => ⟨t, ml, s.fresh + 1⟩
      | some p => ⟨p.1, ml, s.fresh + 1⟩

/-! ## Paths

A node of the pointer structure is addressed by the unique left/right path
from the root; the source's `parent` pointers walk this path backwards. -/

/-- A direction taken at one node. -/
inductive Dir where
  | L : Dir
  | R : Dir
deriving DecidableEq, Repr

/-- The subtree rooted at the node the path leads to. -/
def subAt : Tree → List Dir → Option Tree
  | t, [] => some t
  | nil, _ :: _ => none
  | node l _ _ _ _ _, Dir.L :: p => subAt l p
  | node _ _ _ r _ _, Dir.R :: p => subAt r p

/-- Identity of the node at a path. -/
def idAtPath (t : Tree) (p : List Dir) : Option Nat :=
  match subAt t p with
  | some (node _ id _ _ _ _) => some id
  | _ => none

/-- Value of the node at a path. -/
def valueAtPath (t : Tree) (p : List Dir) : Option Int :=
  match subAt t p with
  | some (node _ _ v _ _ _) => some v
  | _ => none

/-- Overwrite the value of the node at a path (used for the value swap of
`erase_`; heights, sizes, identities and shape are untouched, exactly like
`std::swap(u->value, v->value)`). -/
def setValAt : Tree → List Dir → Int → Tree
  | nil, _, _ => nil
  | node l id _ r h sz, [], x => node l id x r h sz
  | node l id v r h sz, Dir.L :: p, x => node (setValAt l p x) id v r h sz
  | node l id v r h sz, Dir.R :: p, x => node l id v (setValAt r p x) h sz

/-- `while (v->left != nullptr) v = v->left;` as a path. -/
def leftSpine : Tree → List Dir
  | node (node a b c d e f) _ _ _ _ _ => Dir.L :: leftSpine (node a b c d e f)
  | _ => []

/-- `while (v->right != nullptr) v = v->right;` as a path. -/
def rightSpine : Tree → List Dir
  | node _ _ _ (node a b c d e f) _ _ => Dir.R :: rightSpine (node a b c d e f)
  | _ => []

/-- `while (v->parent != nullptr && v->parent->right == v) v = v->parent;
return v->parent;` — drop the trailing `R` steps of the path, then the
final `L` step leads to the answer (`none` when the whole path was `R`s,
i.e. the walk reached the root coming from the right). -/
def upFromRight (p : List Dir) : Option (List Dir) :=
  match p.reverse.dropWhile (fun d => d = Dir.R) with
  | [] => none
  | _ :: rest => some rest.reverse

/-- Mirror of `upFromRight` for `get_prev`. -/
def upFromLeft (p : List Dir) : Option (List Dir) :=
  match p.reverse.dropWhile (fun d => d = Dir.L) with
  | [] => none
  | _ :: rest => some rest.reverse

/-- `get_next` (source lines 340-355) on the node at path `p`:
the in-order successor node (as a path), `none` for null. -/
def succPath (t : Tree) (p : List Dir) : Option (List Dir) :=
  match subAt t p with
  | some (node _ _ _ (node a b c d e f) _ _) =>
      some (p ++ Dir.R :: leftSpine (node a b c d e f))
  | some (node _ _ _ nil _ _) => upFromRight p
  | _ => none

/-- `get_prev` (source lines 357-373). -/
def predPath (t : Tree) (p : List Dir) : Option (List Dir) :=
  match subAt t p with
  | some (node (node a b c d e f) _ _ _ _ _) =>
      some (p ++ Dir.L :: rightSpine (node a b c d e f))
  | some (node nil _ _ _ _ _) => upFromLeft p
  | _ => none

/-- `find_` (source lines 68-86): returns the path of the node holding an
equal value (first component) and the path of the last visited node — the
prospective parent on a failed search (second component). -/
def findP (x : Int) : Tree → Option (List Dir) × Option (List Dir)
  | nil => (none, none)
  | node l _ v r _ _ =>
      if ¬ v < x ∧ ¬ x < v then (some [], none)
      else if v < x then
        let q := findP x r
        (q.1.map (Dir.R :: ·),
         some (match q.2 with | some w => Dir.R :: w | none => []))
      else
        let q := findP x l
        (q.1.map (Dir.L :: ·),
         some (match q.2 with | some w => Dir.L :: w | none => []))

/-! ## Deletion (source lines 484-556)

`erase_` on a leaf detaches it and walks the parent chain with the
mirrored rules (`±1` break, `0` recalc-and-ascend, otherwise rotate and
re-examine), then `recalc`s the remaining chain to the root; on an inner
node it swaps values with `get_prev`/`get_next` (chosen by the sign of the
cached balance factor) and recurses onto that node.  The recursion is
fuelled (the source recursion depth is bounded by the tree height). -/

/-- The re-examination loop of the leaf-deletion branch at one position. -/
def balanceLoopDel : Nat → Tree → Tree × Bool
  | 0, t => (recalcT t, true)
  | fuel + 1, t =>
      if get_diff t = 1 ∨ get_diff t = -1 then (recalcT t, true)
      else if get_diff t = 0 then (recalcT t, false)
      else balanceLoopDel fuel (rebalance t)

/-- Detach the leaf at the path and rebalance along the way back up
(the `p->left = nullptr; ...; while` part of `erase_`, lines 496-536).
Only ever called with a path leading to a leaf. -/
def eraseLeafAt : Tree → List Dir → Tree × Bool
  | node _ _ _ _ _ _, [] => (nil, false)
  | node l id v r h sz, Dir.L :: p =>
      let q := eraseLeafAt l p
      let t := node q.1 id v r h sz
      if q.2 then (recalcT t, true) else balanceLoopDel (get_sz t + 1) t
  | node l id v r h sz, Dir.R :: p =>
      let q := eraseLeafAt r p
      let t := node l id v q.1 h sz
      if q.2 then (recalcT t, true) else balanceLoopDel (get_sz t + 1) t
  | nil, _ => (nil, true)

/-- `erase_` (source lines 484-547) on the node at path `p`.  Each call
first re-seats `most_left` when the node being erased *is* `most_left`
(this happens before any structural change, on the current tree).  The
`none` fall-throughs mark situations where the source would dereference a
null pointer; they are unreachable from well-formed states. -/
def eraseGo : Nat → SetS → List Dir → SetS
  | 0, s, _ => s
  | fuel + 1, s, p =>
      match subAt s.root p with
      | some (node l vid vv r h sz) =>
          let ml : Option Nat :=
            if s.most_left = some vid then (succPath s.root p).bind (idAtPath s.root)
            else s.most_left
          match l, r with
          | nil, nil =>
              match p with
              | [] => ⟨nil, none, s.fresh⟩
              | _ :: _ => ⟨(eraseLeafAt s.root p).1, ml, s.fresh⟩
          | _, _ =>
              let q := if get_diff (node l vid vv r h sz) ≥ 0
                       then predPath s.root p else succPath s.root p
              match q with
              | none => ⟨s.root, ml, s.fresh⟩
              | some q =>
                  match valueAtPath s.root p, valueAtPath s.root q with
                  | some a, some b =>
                      eraseGo fuel ⟨setValAt (setValAt s.root p b) q a, ml, s.fresh⟩ q
                  | _, _ => ⟨s.root, ml, s.fresh⟩
      | _ => s

/-- `Set::erase` (source lines 549-556): locate the value, no-op when
absent, else run `erase_` from the found node. -/
def eraseS (x : Int) (s : SetS) : SetS :=
  match (findP x s.root).1 with
  | none => s
  | some p => eraseGo (get_sz s.root + 1) s p

/-! ## The remaining public surface (source lines 558-598) -/

/-- `size()`: the *cached* size of the root. -/
def sizeS (s : SetS) : Nat := get_sz s.root

/-- `empty()`. -/
def emptyS (s : SetS) : Bool := get_sz s.root = 0

/-- `begin()`: an iterator is the identity of the node it points at
(`none` = the end iterator); `begin()` carries `most_left`. -/
def beginS (s : SetS) : Option Nat := s.most_left

/-- `end()`. -/
def endS (_ : SetS) : Option Nat := none

/-- `find(value)`: iterator to the node holding an equal value, else end. -/
def findS (x : Int) (s : SetS) : Option Nat :=
  match (findP x s.root).1 with
  | none => none
  | some p => idAtPath s.root p

/-- `lower_bound(value)` (source lines 581-598). -/
def lowerBoundS (x : Int) (s : SetS) : Option Nat :=
  match (findP x s.root).1 with
  | some p => idAtPath s.root p
  | none =>
      match (findP x s.root).2 with
      | none => none
      | some p =>
          match valueAtPath s.root p with
          | none => none
          | some pv =>
              if x < pv then idAtPath s.root p
              else
                match succPath s.root p with
                | none => none
                | some q => idAtPath s.root q

/-! ## Reachable states -/

/-- One public mutating operation. -/
inductive Op where
  | ins (x : Int) : Op
  | del (x : Int) : Op
deriving DecidableEq, Repr

/-- Apply one operation. -/
def applyOp (s : SetS) : Op → SetS
  | Op.ins x => insertS x s
  | Op.del x => eraseS x s

/-- The freshly constructed empty set. -/
def emptySet : SetS := ⟨nil, none, 0⟩

/-- The state after a sequence of operations on a fresh set. -/
def runOps (ops : List Op) : SetS := ops.foldl applyOp emptySet

/-- A `Set` state reachable by some sequence of inserts and erases. -/
def ReachableS (s : SetS) : Prop := ∃ ops : List Op, runOps ops = s

/-- Building a set by inserting a list of values in order (the
initializer-list and iterator-range constructors, source lines 392-408). -/
def insertList (xs : List Int) : SetS := runOps (xs.map Op.ins)

/-! ## Invariant checkers (recursive, independent of the cached fields) -/

/-- All values of the tree satisfy a predicate. -/
def allB (f : Int → Bool) : Tree → Bool
  | nil => true
  | node l _ v r _ _ => allB f l && f v && allB f r

/-- Binary-search-tree order: every value in the left subtree is smaller,
every value in the right subtree larger, recursively. -/
def bstB : Tree → Bool
  | nil => true
  | node l _ v r _ _ =>
      bstB l && bstB r && allB (fun a => decide (a < v)) l && allB (fun a => decide (v < a)) r

/-- AVL balance from the *recomputed* heights: `|height(left)-height(right)| ≤ 1`
at every node. -/
def avlB : Tree → Bool
  | nil => true
  | node l _ _ r _ _ => avlB l && avlB r && decide ((realH l - realH r).natAbs ≤ 1)

/-- Every cached height and size field agrees with the recursively
recomputed value. -/
def cacheB : Tree → Bool
  | nil => true
  | node l _ _ r h sz =>
      cacheB l && cacheB r &&
        decide (h = max (realH l) (realH r) + 1) && decide (sz = realSz l + realSz r + 1)

/-- Every cached size field agrees with the recomputed subtree size
(the size half of `cacheB`, which claim C6 talks about). -/
def sizeCacheB : Tree → Bool
  | nil => true
  | node l _ _ r _ sz => sizeCacheB l && sizeCacheB r && decide (sz = realSz l + realSz r + 1)

/-- Well-formedness of a whole `Set` state (everything the tree-level
claims need): BST order, correct caches, AVL balance, distinct node
identities all below the allocation counter. -/
def InvS (s : SetS) : Prop :=
  bstB s.root = true ∧ cacheB s.root = true ∧ avlB s.root = true ∧
    (idsOf s.root).Nodup ∧ ∀ i ∈ idsOf s.root, i < s.fresh

/-! ## Basic lemmas -/

theorem realH_nonneg : ∀ t : Tree, 0 ≤ realH t
  | nil => le_refl 0
  | node l _ _ r _ _ => by
      have hl := realH_nonneg l
      have hr := realH_nonneg r
      simp only [realH]
      omega

theorem realH_pos {l : Tree} {id v r h sz} : 1 ≤ realH (node l id v r h sz) := by
  have hl := realH_nonneg l
  have hr := realH_nonneg r
  simp only [realH]; omega

theorem realH_pos_node {t : Tree} (h : 1 ≤ realH t) :
    ∃ l id v r hh sz, t = node l id v r hh sz := by
  cases t with
  | nil => simp [realH] at h
  | node l id v r hh sz => exact ⟨l, id, v, r, hh, sz, rfl⟩

theorem length_inorderP : ∀ t : Tree, (inorderP t).length = realSz t
  | nil => rfl
  | node l _ _ r _ _ => by
      simp [inorderP, realSz, length_inorderP l, length_inorderP r]
      omega

theorem realH_le_realSz : ∀ t : Tree, realH t ≤ (realSz t : Int)
  | nil => le_refl 0
  | node l _ _ r _ _ => by
      have hl := realH_le_realSz l
      have hr := realH_le_realSz r
      have hl0 := realH_nonneg l
      have hr0 := realH_nonneg r
      simp only [realH, realSz]
      push_cast
      omega

@[simp] theorem allB_node {f : Int → Bool} {l id v r h sz} :
    allB f (node l id v r h sz) = true ↔
      allB f l = true ∧ f v = true ∧ allB f r = true := by
  simp [allB, Bool.and_eq_true, and_assoc]

@[simp] theorem bstB_node {l : Tree} {id v r h sz} :
    bstB (node l id v r h sz) = true ↔
      bstB l = true ∧ bstB r = true ∧
        allB (fun a => decide (a < v)) l = true ∧
        allB (fun a => decide (v < a)) r = true := by
  simp [bstB, Bool.and_eq_true, and_assoc]

@[simp] theorem avlB_node {l : Tree} {id v r h sz} :
    avlB (node l id v r h sz) = true ↔
      avlB l = true ∧ avlB r = true ∧ (realH l - realH r).natAbs ≤ 1 := by
  simp [avlB, Bool.and_eq_true, and_assoc]

@[simp] theorem cacheB_node {l : Tree} {id v r h sz} :
    cacheB (node l id v r h sz) = true ↔
      cacheB l = true ∧ cacheB r = true ∧
        h = max (realH l) (realH r) + 1 ∧ sz = realSz l + realSz r + 1 := by
  simp [cacheB, Bool.and_eq_true, and_assoc]

@[simp] theorem sizeCacheB_node {l : Tree} {id v r h sz} :
    sizeCacheB (node l id v r h sz) = true ↔
      sizeCacheB l = true ∧ sizeCacheB r = true ∧ sz = realSz l + realSz r + 1 := by
  simp [sizeCacheB, Bool.and_eq_true, and_assoc]

theorem cacheB_sizeCacheB : ∀ {t : Tree}, cacheB t = true → sizeCacheB t = true := by
  intro t
  induction t with
  | nil => intro; rfl
  | node l id v r h sz ihl ihr =>
      intro hc
      rcases cacheB_node.mp hc with ⟨hl, hr, _, hsz⟩
      exact sizeCacheB_node.mpr ⟨ihl hl, ihr hr, hsz⟩

/-- The cached height is the real height once the caches are correct. -/
theorem get_h_eq {t : Tree} (hc : cacheB t = true) : get_h t = realH t := by
  cases t with
  | nil => rfl
  | node l id v r h sz =>
      rcases cacheB_node.mp hc with ⟨_, _, hh, _⟩
      simp [get_h, realH, hh]

/-- The cached size is the real size once the caches are correct. -/
theorem get_sz_eq {t : Tree} (hc : cacheB t = true) : get_sz t = realSz t := by
  cases t with
  | nil => rfl
  | node l id v r h sz =>
      rcases cacheB_node.mp hc with ⟨_, _, _, hs⟩
      simp [get_sz, realSz, hs]

@[simp] theorem get_h_node {l : Tree} {id v r h sz} : get_h (node l id v r h sz) = h := rfl

@[simp] theorem get_sz_node {l : Tree} {id v r h sz} : get_sz (node l id v r h sz) = sz := rfl

@[simp] theorem left_node {l : Tree} {id v r h sz} : left (node l id v r h sz) = l := rfl

@[simp] theorem right_node {l : Tree} {id v r h sz} : right (node l id v r h sz) = r := rfl

theorem realH_recalcT : ∀ t : Tree, realH (recalcT t) = realH t
  | nil => rfl
  | node _ _ _ _ _ _ => rfl

theorem realSz_recalcT : ∀ t : Tree, realSz (recalcT t) = realSz t
  | nil => rfl
  | node _ _ _ _ _ _ => rfl

theorem inorderP_recalcT : ∀ t : Tree, inorderP (recalcT t) = inorderP t
  | nil => rfl
  | node _ _ _ _ _ _ => rfl

theorem cacheB_recalcT {l : Tree} {id v r h sz}
    (hl : cacheB l = true) (hr : cacheB r = true) :
    cacheB (recalcT (node l id v r h sz)) = true := by
  simp [recalcT, cacheB_node, hl, hr, get_h_eq hl, get_h_eq hr, get_sz_eq hl, get_sz_eq hr,
    realH, realSz]

theorem recalcT_eq_self {t : Tree} (hc : cacheB t = true) : recalcT t = t := by
  cases t with
  | nil => rfl
  | node l id v r h sz =>
      rcases cacheB_node.mp hc with ⟨hl, hr, hh, hs⟩
      simp [recalcT, get_h_eq hl, get_h_eq hr, get_sz_eq hl, get_sz_eq hr, hh, hs]

theorem avlB_recalcT {t : Tree} (h : avlB t = true) : avlB (recalcT t) = true := by
  cases t with
  | nil => rfl
  | node l id v r hh sz => simpa [recalcT, avlB_node] using h

theorem get_diff_recalcT : ∀ t : Tree, get_diff (recalcT t) = get_diff t
  | nil => rfl
  | node _ _ _ _ _ _ => rfl

/-- `get_diff` is the real balance factor once the children's caches are correct. -/
theorem get_diff_real {l : Tree} {id v r h sz}
    (hl : cacheB l = true) (hr : cacheB r = true) :
    get_diff (node l id v r h sz) = realH l - realH r := by
  simp [get_diff, get_h_eq hl, get_h_eq hr]

@[simp] theorem inorder_nil : inorder nil = [] := rfl

@[simp] theorem inorder_node {l : Tree} {id v r h sz} :
    inorder (node l id v r h sz) = inorder l ++ v :: inorder r := by
  simp [inorder, inorderP]

theorem allB_iff_forall {f : Int → Bool} : ∀ {t : Tree},
    allB f t = true ↔ ∀ a ∈ inorder t, f a = true := by
  intro t
  induction t with
  | nil => simp [allB]
  | node l id v r h sz ihl ihr =>
      simp only [allB_node, inorder_node, List.mem_append, List.mem_cons, ihl, ihr]
      constructor
      · rintro ⟨h1, h2, h3⟩ a ha
        rcases ha with ha | rfl | ha
        · exact h1 a ha
        · exact h2
        · exact h3 a ha
      · intro hh
        exact ⟨fun a ha => hh a (Or.inl ha), hh v (Or.inr (Or.inl rfl)),
          fun a ha => hh a (Or.inr (Or.inr ha))⟩

theorem mem_inorder_node {a : Int} {l : Tree} {id v r h sz} :
    a ∈ inorder (node l id v r h sz) ↔ a ∈ inorder l ∨ a = v ∨ a ∈ inorder r := by
  simp

/-- BST order at every node is exactly sortedness of the in-order value
sequence. -/
theorem bstB_iff_pairwise : ∀ {t : Tree},
    bstB t = true ↔ (inorder t).Pairwise (· < ·) := by
  intro t
  induction t with
  | nil => simp [bstB, inorder, inorderP]
  | node l id v r h sz ihl ihr =>
      rw [bstB_node, ihl, ihr, inorder_node, List.pairwise_append, List.pairwise_cons]
      simp only [allB_iff_forall, List.mem_cons, decide_eq_true_eq]
      constructor
      · rintro ⟨h1, h2, h3, h4⟩
        refine ⟨h1, ⟨fun b hb => h4 b hb, h2⟩, ?_⟩
        intro a ha b hb
        rcases hb with rfl | hb
        · exact h3 a ha
        · exact lt_trans (h3 a ha) (h4 b hb)
      · rintro ⟨h1, ⟨h2, h3⟩, h4⟩
        exact ⟨h1, h3, fun a ha => h4 a ha v (Or.inl rfl), fun b hb => h2 b hb⟩

/-! ## Rotations preserve the in-order sequence -/

theorem inorderP_small_left : ∀ t : Tree, inorderP (small_left_rotation t) = inorderP t := by
  intro t
  cases t with
  | nil => rfl
  | node l id v r h sz =>
      cases r with
      | nil => rfl
      | node rl uid uv rr uh usz => simp [small_left_rotation, inorderP_recalcT, inorderP]

theorem inorderP_small_right : ∀ t : Tree, inorderP (small_right_rotation t) = inorderP t := by
  intro t
  cases t with
  | nil => rfl
  | node l id v r h sz =>
      cases l with
      | nil => rfl
      | node ll uid uv lr uh usz => simp [small_right_rotation, inorderP_recalcT, inorderP]

theorem inorderP_big_left : ∀ t : Tree, inorderP (big_left_rotation t) = inorderP t := by
  intro t
  cases t with
  | nil => rfl
  | node l id v r h sz =>
      cases r with
      | nil => rfl
      | node rl uid uv rr uh usz =>
          cases rl with
          | nil => rfl
          | node wl wid wv wr wh wsz => simp [big_left_rotation, inorderP_recalcT, inorderP]

theorem inorderP_big_right : ∀ t : Tree, inorderP (big_right_rotation t) = inorderP t := by
  intro t
  cases t with
  | nil => rfl
  | node l id v r h sz =>
      cases l with
      | nil => rfl
      | node ll uid uv lr uh usz =>
          cases lr with
          | nil => rfl
          | node wl wid wv wr wh wsz => simp [big_right_rotation, inorderP_recalcT, inorderP]

theorem inorderP_rebalance (t : Tree) : inorderP (rebalance t) = inorderP t := by
  unfold rebalance
  split
  · split
    · exact inorderP_small_left t
    · exact inorderP_big_left t
  · split
    · exact inorderP_small_right t
    · exact inorderP_big_right t

theorem inorder_rebalance (t : Tree) : inorder (rebalance t) = inorder t := by
  simp [inorder, inorderP_rebalance]

theorem inorder_recalcT (t : Tree) : inorder (recalcT t) = inorder t := by
  simp [inorder, inorderP_recalcT]

theorem idsOf_rebalance (t : Tree) : idsOf (rebalance t) = idsOf t := by
  simp [idsOf, inorderP_rebalance]

/-! ## Rotation correctness

`rebalance` on a node whose children have correct caches and are AVL, with
a real balance factor of `∓2`, yields a fully correct, AVL subtree; its
height is the taller child's height (+1 exactly when that child was
balanced, the case arising only in deletion). -/

theorem rebalance_left_spec {l : Tree} {id : Nat} {v : Int} {r : Tree} {h : Int} {sz : Nat}
    (hcl : cacheB l = true) (hcr : cacheB r = true)
    (hal : avlB l = true) (har : avlB r = true)
    (hd : realH l = realH r - 2) :
    cacheB (rebalance (node l id v r h sz)) = true ∧
    avlB (rebalance (node l id v r h sz)) = true ∧
    ((get_diff r = 0 ∧ realH (rebalance (node l id v r h sz)) = realH r + 1 ∧
        get_diff (rebalance (node l id v r h sz)) = 1) ∨
     (get_diff r ≠ 0 ∧ realH (rebalance (node l id v r h sz)) = realH r ∧
        get_diff (rebalance (node l id v r h sz)) = 0)) := by
  have hl0 := realH_nonneg l
  obtain ⟨rl, uid, uv, rr, rh, rsz, rfl⟩ : ∃ a b c d e f, r = node a b c d e f := by
    apply realH_pos_node; omega
  rcases cacheB_node.mp hcr with ⟨hcrl, hcrr, hrh, hrsz⟩
  rcases avlB_node.mp har with ⟨harl, harr, hbal⟩
  have hdr : get_diff (node rl uid uv rr rh rsz) = realH rl - realH rr :=
    get_diff_real hcrl hcrr
  simp only [realH] at hd
  have htop : get_diff (node l id v (node rl uid uv rr rh rsz) h sz) = -2 := by
    rw [get_diff_real hcl hcr]; simp only [realH]; omega
  have hrl0 := realH_nonneg rl
  have hrr0 := realH_nonneg rr
  by_cases hz : get_diff (node rl uid uv rr rh rsz) = -1 ∨ get_diff (node rl uid uv rr rh rsz) = 0
  · -- small left rotation
    have hreb : rebalance (node l id v (node rl uid uv rr rh rsz) h sz) =
        small_left_rotation (node l id v (node rl uid uv rr rh rsz) h sz) := by
      simp only [rebalance, htop, right_node]
      rw [if_true, if_pos hz]
    have hres : small_left_rotation (node l id v (node rl uid uv rr rh rsz) h sz) =
        node (node l id v rl (max (realH l) (realH rl) + 1) (realSz l + realSz rl + 1))
          uid uv rr (max (max (realH l) (realH rl) + 1) (realH rr) + 1)
          ((realSz l + realSz rl + 1) + realSz rr + 1) := by
      simp only [small_left_rotation, recalcT, get_h_node, get_sz_node,
        get_h_eq hcl, get_h_eq hcrl, get_h_eq hcrr,
        get_sz_eq hcl, get_sz_eq hcrl, get_sz_eq hcrr]
    rw [hreb, hres]
    rw [hdr] at hz
    have hcv : cacheB (node l id v rl (max (realH l) (realH rl) + 1)
        (realSz l + realSz rl + 1)) = true := cacheB_node.mpr ⟨hcl, hcrl, rfl, rfl⟩
    refine ⟨?_, ?_, ?_⟩
    · exact cacheB_node.mpr ⟨hcv, hcrr, by simp [realH], by simp [realSz]⟩
    · refine avlB_node.mpr ⟨avlB_node.mpr ⟨hal, harl, ?_⟩, harr, ?_⟩ <;>
        · (try simp only [realH]); omega
    · rw [hdr, get_diff_real hcv hcrr]
      rcases hz with hz | hz
      · exact Or.inr ⟨by omega, by simp only [realH]; omega, by simp only [realH]; omega⟩
      · exact Or.inl ⟨by omega, by simp only [realH]; omega, by simp only [realH]; omega⟩
  · -- big left rotation: here get_diff rl = 1, so rl is a node
    rw [hdr] at hz
    have hz1 : realH rl - realH rr = 1 := by omega
    obtain ⟨wl, wid, wv, wr, wh, wsz, rfl⟩ : ∃ a b c d e f, rl = node a b c d e f := by
      apply realH_pos_node; omega
    rcases cacheB_node.mp hcrl with ⟨hcwl, hcwr, hwh, hwsz⟩
    rcases avlB_node.mp harl with ⟨hawl, hawr, hwbal⟩
    have hwl0 := realH_nonneg wl
    have hwr0 := realH_nonneg wr
    simp only [realH] at hd hz1 hbal
    have hreb : rebalance (node l id v (node (node wl wid wv wr wh wsz) uid uv rr rh rsz) h sz) =
        big_left_rotation (node l id v (node (node wl wid wv wr wh wsz) uid uv rr rh rsz) h sz) := by
      simp only [rebalance, htop, right_node]
      rw [if_true, if_neg (by rw [hdr]; simp only [realH]; omega)]
    have hres : big_left_rotation
        (node l id v (node (node wl wid wv wr wh wsz) uid uv rr rh rsz) h sz) =
        node (node l id v wl (max (realH l) (realH wl) + 1) (realSz l + realSz wl + 1))
          wid wv
          (node wr uid uv rr (max (realH wr) (realH rr) + 1) (realSz wr + realSz rr + 1))
          (max (max (realH l) (realH wl) + 1) (max (realH wr) (realH rr) + 1) + 1)
          ((realSz l + realSz wl + 1) + (realSz wr + realSz rr + 1) + 1) := by
      simp only [big_left_rotation, recalcT, get_h_node, get_sz_node,
        get_h_eq hcl, get_h_eq hcwl, get_h_eq hcwr, get_h_eq hcrr,
        get_sz_eq hcl, get_sz_eq hcwl, get_sz_eq hcwr, get_sz_eq hcrr]
    rw [hreb, hres]
    have hcv : cacheB (node l id v wl (max (realH l) (realH wl) + 1)
        (realSz l + realSz wl + 1)) = true := cacheB_node.mpr ⟨hcl, hcwl, rfl, rfl⟩
    have hcu : cacheB (node wr uid uv rr (max (realH wr) (realH rr) + 1)
        (realSz wr + realSz rr + 1)) = true := cacheB_node.mpr ⟨hcwr, hcrr, rfl, rfl⟩
    refine ⟨?_, ?_, ?_⟩
    · exact cacheB_node.mpr ⟨hcv, hcu, by simp [realH], by simp [realSz]⟩
    · refine avlB_node.mpr ⟨avlB_node.mpr ⟨hal, hawl, ?_⟩, avlB_node.mpr ⟨hawr, harr, ?_⟩, ?_⟩ <;>
        · (try simp only [realH]); omega
    · rw [hdr]
      refine Or.inr ⟨by simp only [realH]; omega, ?_, ?_⟩
      · simp only [realH]; omega
      · rw [get_diff_real hcv hcu]
        simp only [realH]; omega

theorem rebalance_right_spec {l : Tree} {id : Nat} {v : Int} {r : Tree} {h : Int} {sz : Nat}
    (hcl : cacheB l = true) (hcr : cacheB r = true)
    (hal : avlB l = true) (har : avlB r = true)
    (hd : realH r = realH l - 2) :
    cacheB (rebalance (node l id v r h sz)) = true ∧
    avlB (rebalance (node l id v r h sz)) = true ∧
    ((get_diff l = 0 ∧ realH (rebalance (node l id v r h sz)) = realH l + 1 ∧
        get_diff (rebalance (node l id v r h sz)) = -1) ∨
     (get_diff l ≠ 0 ∧ realH (rebalance (node l id v r h sz)) = realH l ∧
        get_diff (rebalance (node l id v r h sz)) = 0)) := by
  have hr0 := realH_nonneg r
  obtain ⟨ll, uid, uv, lr, lh, lsz, rfl⟩ : ∃ a b c d e f, l = node a b c d e f := by
    apply realH_pos_node; omega
  rcases cacheB_node.mp hcl with ⟨hcll, hclr, hlh, hlsz⟩
  rcases avlB_node.mp hal with ⟨hall, halr, hbal⟩
  have hdl : get_diff (node ll uid uv lr lh lsz) = realH ll - realH lr :=
    get_diff_real hcll hclr
  simp only [realH] at hd
  have htop : get_diff (node (node ll uid uv lr lh lsz) id v r h sz) ≠ -2 := by
    rw [get_diff_real hcl hcr]; simp only [realH]; omega
  have hll0 := realH_nonneg ll
  have hlr0 := realH_nonneg lr
  by_cases hz : get_diff (node ll uid uv lr lh lsz) = 1 ∨ get_diff (node ll uid uv lr lh lsz) = 0
  · -- small right rotation
    have hreb : rebalance (node (node ll uid uv lr lh lsz) id v r h sz) =
        small_right_rotation (node (node ll uid uv lr lh lsz) id v r h sz) := by
      simp only [rebalance, left_node]
      rw [if_neg htop, if_pos hz]
    have hres : small_right_rotation (node (node ll uid uv lr lh lsz) id v r h sz) =
        node ll uid uv
          (node lr id v r (max (realH lr) (realH r) + 1) (realSz lr + realSz r + 1))
          (max (realH ll) (max (realH lr) (realH r) + 1) + 1)
          (realSz ll + (realSz lr + realSz r + 1) + 1) := by
      simp only [small_right_rotation, recalcT, get_h_node, get_sz_node,
        get_h_eq hcr, get_h_eq hcll, get_h_eq hclr,
        get_sz_eq hcr, get_sz_eq hcll, get_sz_eq hclr]
    rw [hreb, hres]
    rw [hdl] at hz
    have hcv : cacheB (node lr id v r (max (realH lr) (realH r) + 1)
        (realSz lr + realSz r + 1)) = true := cacheB_node.mpr ⟨hclr, hcr, rfl, rfl⟩
    refine ⟨?_, ?_, ?_⟩
    · exact cacheB_node.mpr ⟨hcll, hcv, by simp [realH], by simp [realSz]⟩
    · refine avlB_node.mpr ⟨hall, avlB_node.mpr ⟨halr, har, ?_⟩, ?_⟩ <;>
        · (try simp only [realH]); omega
    · rw [hdl, get_diff_real hcll hcv]
      rcases hz with hz | hz
      · exact Or.inr ⟨by omega, by simp only [realH]; omega, by simp only [realH]; omega⟩
      · exact Or.inl ⟨by omega, by simp only [realH]; omega, by simp only [realH]; omega⟩
  · -- big right rotation: here get_diff ll = -1, so lr is a node
    rw [hdl] at hz
    have hz1 : realH ll - realH lr = -1 := by omega
    obtain ⟨wl, wid, wv, wr, wh, wsz, rfl⟩ : ∃ a b c d e f, lr = node a b c d e f := by
      apply realH_pos_node; omega
    rcases cacheB_node.mp hclr with ⟨hcwl, hcwr, hwh, hwsz⟩
    rcases avlB_node.mp halr with ⟨hawl, hawr, hwbal⟩
    have hwl0 := realH_nonneg wl
    have hwr0 := realH_nonneg wr
    simp only [realH] at hd hz1 hbal
    have hreb : rebalance (node (node ll uid uv (node wl wid wv wr wh wsz) lh lsz) id v r h sz) =
        big_right_rotation (node (node ll uid uv (node wl wid wv wr wh wsz) lh lsz) id v r h sz) := by
      simp only [rebalance, left_node]
      rw [if_neg htop, if_neg (by rw [hdl]; simp only [realH]; omega)]
    have hres : big_right_rotation
        (node (node ll uid uv (node wl wid wv wr wh wsz) lh lsz) id v r h sz) =
        node (node ll uid uv wl (max (realH ll) (realH wl) + 1) (realSz ll + realSz wl + 1))
          wid wv
          (node wr id v r (max (realH wr) (realH r) + 1) (realSz wr + realSz r + 1))
          (max (max (realH ll) (realH wl) + 1) (max (realH wr) (realH r) + 1) + 1)
          ((realSz ll + realSz wl + 1) + (realSz wr + realSz r + 1) + 1) := by
      simp only [big_right_rotation, recalcT, get_h_node, get_sz_node,
        get_h_eq hcr, get_h_eq hcwl, get_h_eq hcwr, get_h_eq hcll,
        get_sz_eq hcr, get_sz_eq hcwl, get_sz_eq hcwr, get_sz_eq hcll]
    rw [hreb, hres]
    have hcv : cacheB (node ll uid uv wl (max (realH ll) (realH wl) + 1)
        (realSz ll + realSz wl + 1)) = true := cacheB_node.mpr ⟨hcll, hcwl, rfl, rfl⟩
    have hcu : cacheB (node wr id v r (max (realH wr) (realH r) + 1)
        (realSz wr + realSz r + 1)) = true := cacheB_node.mpr ⟨hcwr, hcr, rfl, rfl⟩
    refine ⟨?_, ?_, ?_⟩
    · exact cacheB_node.mpr ⟨hcv, hcu, by simp [realH], by simp [realSz]⟩
    · refine avlB_node.mpr ⟨avlB_node.mpr ⟨hall, hawl, ?_⟩, avlB_node.mpr ⟨hawr, har, ?_⟩, ?_⟩ <;>
        · (try simp only [realH]); omega
    · rw [hdl]
      refine Or.inr ⟨by simp only [realH]; omega, ?_, ?_⟩
      · simp only [realH]; omega
      · rw [get_diff_real hcv hcu]
        simp only [realH]; omega

/-! ## Sorted insertion on pair lists

`insP x i P` inserts the pair `(i, x)` at the sorted position of `x` in the
value-sorted pair list `P`, keeping `P` unchanged when an equal value is
present — the list-level picture of what one `Set::insert` does to the
in-order sequence. -/

def insP (x : Int) (i : Nat) : List (Nat × Int) → List (Nat × Int)
  | [] => [(i, x)]
  | (j, a) :: rest =>
      if a < x then (j, a) :: insP x i rest
      else if x < a then (i, x) :: (j, a) :: rest
      else (j, a) :: rest

theorem insP_append_lt {x : Int} {i : Nat} :
    ∀ {P Q : List (Nat × Int)}, (∀ p ∈ P, p.2 < x) →
      insP x i (P ++ Q) = P ++ insP x i Q := by
  intro P
  induction P with
  | nil => intro Q _; rfl
  | cons p rest ih =>
      intro Q hP
      obtain ⟨j, a⟩ := p
      have ha : a < x := hP (j, a) (List.mem_cons_self _ _)
      simp only [List.cons_append, insP, if_pos ha, List.append_eq]
      rw [ih fun q hq => hP q (List.mem_cons_of_mem _ hq)]

theorem insP_cons_gt {x v : Int} {i id : Nat} (h : x < v) :
    ∀ (L R : List (Nat × Int)), insP x i (L ++ (id, v) :: R) = insP x i L ++ (id, v) :: R := by
  intro L
  induction L with
  | nil =>
      intro R
      simp only [List.nil_append, insP, if_neg (asymm h), if_pos h, List.singleton_append]
  | cons p rest ih =>
      intro R
      obtain ⟨j, a⟩ := p
      by_cases h1 : a < x
      · simp only [List.cons_append, insP, if_pos h1, List.append_eq, ih]
      · by_cases h2 : x < a
        · simp only [List.cons_append, insP, if_neg h1, if_pos h2, List.append_eq]
        · simp only [List.cons_append, insP, if_neg h1, if_neg h2, List.append_eq]

theorem snd_mem_insP {x a : Int} {i : Nat} : ∀ {P : List (Nat × Int)},
    a ∈ (insP x i P).map Prod.snd ↔ a = x ∨ a ∈ P.map Prod.snd := by
  intro P
  induction P with
  | nil => simp [insP]
  | cons p rest ih =>
      obtain ⟨j, b⟩ := p
      by_cases h1 : b < x
      · simp only [insP, if_pos h1, List.map_cons, List.mem_cons, ih]; tauto
      · by_cases h2 : x < b
        · simp only [insP, if_neg h1, if_pos h2, List.map_cons, List.mem_cons]; try tauto
        · have : b = x := le_antisymm (not_lt.mp h2) (not_lt.mp h1)
          subst this
          simp only [insP, if_neg h1, if_neg h2, List.map_cons, List.mem_cons]; tauto

theorem fst_mem_insP {x : Int} {i j : Nat} : ∀ {P : List (Nat × Int)},
    j ∈ (insP x i P).map Prod.fst → j = i ∨ j ∈ P.map Prod.fst := by
  intro P
  induction P with
  | nil => simp [insP]
  | cons p rest ih =>
      obtain ⟨k, b⟩ := p
      by_cases h1 : b < x
      · simp only [insP, if_pos h1, List.map_cons, List.mem_cons]
        rintro (rfl | hj)
        · exact Or.inr (Or.inl rfl)
        · rcases ih hj with h | h
          · exact Or.inl h
          · exact Or.inr (Or.inr h)
      · by_cases h2 : x < b
        · simp only [insP, if_neg h1, if_pos h2, List.map_cons, List.mem_cons]; tauto
        · simp only [insP, if_neg h1, if_neg h2, List.map_cons, List.mem_cons]; tauto

theorem nodup_insP {x : Int} {i : Nat} : ∀ {P : List (Nat × Int)},
    (P.map Prod.fst).Nodup → i ∉ P.map Prod.fst → ((insP x i P).map Prod.fst).Nodup := by
  intro P
  induction P with
  | nil => simp [insP]
  | cons p rest ih =>
      obtain ⟨k, b⟩ := p
      intro hnd hi
      simp only [List.map_cons, List.nodup_cons, List.mem_cons, not_or] at hnd hi
      by_cases h1 : b < x
      · simp only [insP, if_pos h1, List.map_cons, List.nodup_cons]
        refine ⟨fun hk => ?_, ih hnd.2 hi.2⟩
        rcases fst_mem_insP hk with rfl | hk
        · exact hi.1 rfl
        · exact hnd.1 hk
      · by_cases h2 : x < b
        · simp only [insP, if_neg h1, if_pos h2, List.map_cons, List.nodup_cons, List.mem_cons,
            not_or]
          exact ⟨⟨fun h => hi.1 h, hi.2⟩, hnd.1, hnd.2⟩
        · simp only [insP, if_neg h1, if_neg h2, List.map_cons, List.nodup_cons]
          exact ⟨hnd.1, hnd.2⟩

theorem pairwise_insP {x : Int} {i : Nat} : ∀ {P : List (Nat × Int)},
    (P.map Prod.snd).Pairwise (· < ·) → ((insP x i P).map Prod.snd).Pairwise (· < ·) := by
  intro P
  induction P with
  | nil => simp [insP]
  | cons p rest ih =>
      obtain ⟨k, b⟩ := p
      intro hp
      simp only [List.map_cons, List.pairwise_cons] at hp
      by_cases h1 : b < x
      · simp only [insP, if_pos h1, List.map_cons, List.pairwise_cons]
        refine ⟨fun a ha => ?_, ih hp.2⟩
        rcases snd_mem_insP.mp ha with rfl | ha
        · exact h1
        · exact hp.1 a ha
      · by_cases h2 : x < b
        · simp only [insP, if_neg h1, if_pos h2, List.map_cons, List.pairwise_cons]
          exact ⟨fun a ha => by
            rcases List.mem_cons.mp ha with rfl | ha
            · exact h2
            · exact lt_trans h2 (hp.1 a ha), hp.1, hp.2⟩
        · simp only [insP, if_neg h1, if_neg h2, List.map_cons, List.pairwise_cons]
          exact ⟨hp.1, hp.2⟩

theorem allB_lt {t : Tree} {v : Int} (h : allB (fun a => decide (a < v)) t = true) :
    ∀ a ∈ inorder t, a < v :=
  fun a ha => of_decide_eq_true (allB_iff_forall.mp h a ha)

theorem allB_gt {t : Tree} {v : Int} (h : allB (fun a => decide (v < a)) t = true) :
    ∀ a ∈ inorder t, v < a :=
  fun a ha => of_decide_eq_true (allB_iff_forall.mp h a ha)

theorem insP_split_right {x v : Int} {i id : Nat} {L R : List (Nat × Int)} (hvx : v < x)
    (hL : ∀ p ∈ L, p.2 < x) :
    insP x i (L ++ (id, v) :: R) = L ++ (id, v) :: insP x i R := by
  have h2 : ∀ p ∈ L ++ [(id, v)], p.2 < x := by
    intro p hp
    rcases List.mem_append.mp hp with hm | hm
    · exact hL p hm
    · simp only [List.mem_singleton] at hm
      subst hm
      exact hvx
  calc insP x i (L ++ (id, v) :: R) = insP x i ((L ++ [(id, v)]) ++ R) := by simp
    _ = (L ++ [(id, v)]) ++ insP x i R := insP_append_lt h2
    _ = L ++ (id, v) :: insP x i R := by simp

/-- Specification of the merged descend-attach-rebalance of `insert`:
on a well-formed subtree it reports a duplicate exactly when the value is
present, and otherwise produces the sorted-insert of the in-order sequence,
with correct caches, restored AVL balance, and the classic height account:
the subtree height is unchanged when the upward loop has stopped, and grew
by exactly one (with the subtree tilted by one) while it continues. -/
theorem insDown_spec (x : Int) (nid : Nat) : ∀ (t : Tree),
    bstB t = true → cacheB t = true → avlB t = true →
    (insDown x nid t = none → x ∈ inorder t) ∧
    (∀ t2 stop, insDown x nid t = some (t2, stop) →
      x ∉ inorder t ∧
      inorderP t2 = insP x nid (inorderP t) ∧
      cacheB t2 = true ∧ avlB t2 = true ∧
      (stop = true → realH t2 = realH t) ∧
      (stop = false → realH t2 = realH t + 1 ∧
        (get_diff t2 = 1 ∨ get_diff t2 = -1 ∨ t = nil))) := by
  intro t
  induction t with
  | nil =>
      intro _ _ _
      refine ⟨fun hcon => by simp [insDown] at hcon, ?_⟩
      intro t2 stop hs
      simp only [insDown, Option.some.injEq, Prod.mk.injEq] at hs
      obtain ⟨rfl, rfl⟩ := hs
      refine ⟨?_, ?_, ?_, ?_, ?_, ?_⟩
      · simp
      · rfl
      · exact cacheB_node.mpr ⟨rfl, rfl, by simp [realH], by simp [realSz]⟩
      · exact avlB_node.mpr ⟨rfl, rfl, by simp [realH]⟩
      · intro hcon
        cases hcon
      · intro _
        exact ⟨by simp [realH], Or.inr (Or.inr rfl)⟩
  | node l id v r h sz ihl ihr =>
      intro hb hc ha
      rcases bstB_node.mp hb with ⟨hbl, hbr, hlv, hvr⟩
      rcases cacheB_node.mp hc with ⟨hcl, hcr, hh, hsz⟩
      rcases avlB_node.mp ha with ⟨hal, har, hbal⟩
      have hl0 := realH_nonneg l
      have hr0 := realH_nonneg r
      by_cases heq : ¬ v < x ∧ ¬ x < v
      · have hxv : x = v := le_antisymm (not_lt.mp heq.1) (not_lt.mp heq.2)
        constructor
        · intro _
          exact mem_inorder_node.mpr (Or.inr (Or.inl hxv))
        · intro t2 stop hs
          rw [insDown, if_pos heq] at hs
          cases hs
      · by_cases hvx : v < x
        · -- descend to the right
          have hrec : insDown x nid (node l id v r h sz) = (insDown x nid r).map fun p =>
              if p.2 then (recalcT (node l id v p.1 h sz), true)
              else rebalanceLoopIns (get_sz (node l id v p.1 h sz) + 1)
                (node l id v p.1 h sz) := by
            rw [insDown, if_neg heq, if_pos hvx]
          obtain ⟨ihrn, ihrs⟩ := ihr hbr hcr har
          constructor
          · intro hn
            rw [hrec, Option.map_eq_none'] at hn
            exact mem_inorder_node.mpr (Or.inr (Or.inr (ihrn hn)))
          · intro t2 stop hs
            rw [hrec, Option.map_eq_some'] at hs
            obtain ⟨⟨r2, stopC⟩, hr2, hF⟩ := hs
            obtain ⟨hxr, hior, hcr2, har2, hstT, hstF⟩ := ihrs r2 stopC hr2
            have hxmem : x ∉ inorder (node l id v r h sz) := by
              rw [mem_inorder_node]
              rintro (hm | hm | hm)
              · exact absurd (lt_trans (allB_lt hlv x hm) hvx) (lt_irrefl x)
              · exact absurd (hm ▸ hvx) (lt_irrefl v)
              · exact hxr hm
            have hioGoal : inorderP l ++ (id, v) :: inorderP r2 =
                insP x nid (inorderP (node l id v r h sz)) := by
              rw [hior]
              have : inorderP (node l id v r h sz) = inorderP l ++ (id, v) :: inorderP r := rfl
              rw [this, insP_split_right hvx]
              intro p hp
              have : p.2 ∈ inorder l := List.mem_map_of_mem Prod.snd hp
              exact lt_trans (allB_lt hlv p.2 this) hvx
            simp only [get_sz_node] at hF
            by_cases hstop : stopC = true
            · subst hstop
              rw [if_pos rfl] at hF
              rw [Prod.mk.injEq] at hF
              obtain ⟨rfl, rfl⟩ := hF
              have hre : realH r2 = realH r := hstT rfl
              refine ⟨hxmem, ?_, cacheB_recalcT hcl hcr2, ?_, ?_, fun hcon => Bool.noConfusion hcon⟩
              · rw [inorderP_recalcT]
                exact hioGoal
              · simp only [recalcT]
                exact avlB_node.mpr ⟨hal, har2, by rw [hre]; exact hbal⟩
              · intro _
                rw [realH_recalcT]
                simp only [realH, hre]
            · have hstop2 : stopC = false := by
                cases stopC
                · rfl
                · exact absurd rfl hstop
              subst hstop2
              rw [if_neg (by simp)] at hF
              obtain ⟨hgrow, hd2⟩ := hstF rfl
              have hb3 : realH l - realH r = -1 ∨ realH l - realH r = 0 ∨
                  realH l - realH r = 1 := by omega
              obtain ⟨m, rfl⟩ : ∃ m, sz = m + 1 := ⟨realSz l + realSz r, by omega⟩
              rcases hb3 with hb1 | hb1 | hb1
              · -- the right subtree was the taller one: rotate, then the loop stops
                have hrnil : ¬ r = nil := by
                  intro hcon
                  subst hcon
                  simp only [realH] at hb1
                  omega
                have hd2' : get_diff r2 = 1 ∨ get_diff r2 = -1 := by
                  rcases hd2 with hq | hq | hq
                  · exact Or.inl hq
                  · exact Or.inr hq
                  · exact absurd hq hrnil
                have hdneg : get_diff (node l id v r2 h (m + 1)) = -2 := by
                  rw [get_diff_real hcl hcr2]; omega
                obtain ⟨hcR, haR, hcases⟩ :=
                  @rebalance_left_spec l id v r2 h (m + 1) hcl hcr2 hal har2 (by omega)
                rcases hcases with ⟨hz0, _, _⟩ | ⟨_, hHR, hDR⟩
                · rcases hd2' with hq | hq <;> rw [hq] at hz0 <;> exact absurd hz0 (by norm_num)
                · have hloop : rebalanceLoopIns (m + 1 + 1) (node l id v r2 h (m + 1)) =
                      (recalcT (rebalance (node l id v r2 h (m + 1))), true) := by
                    rw [rebalanceLoopIns, if_neg (by rw [hdneg]; norm_num),
                      if_neg (by rw [hdneg]; norm_num), rebalanceLoopIns, if_pos hDR]
                  rw [recalcT_eq_self hcR] at hloop
                  rw [hloop, Prod.mk.injEq] at hF
                  obtain ⟨rfl, rfl⟩ := hF
                  refine ⟨hxmem, ?_, hcR, haR, ?_, fun hcon => Bool.noConfusion hcon⟩
                  · rw [inorderP_rebalance]
                    exact hioGoal
                  · intro _
                    rw [hHR]
                    simp only [realH]
                    omega
              · -- balance was 0: the subtree tilts to the right, keep ascending
                have hdm1 : get_diff (node l id v r2 h (m + 1)) = -1 := by
                  rw [get_diff_real hcl hcr2]; omega
                have hloop : rebalanceLoopIns (m + 1 + 1) (node l id v r2 h (m + 1)) =
                    (recalcT (node l id v r2 h (m + 1)), false) := by
                  rw [rebalanceLoopIns, if_neg (by rw [hdm1]; norm_num),
                    if_pos (Or.inr hdm1)]
                rw [hloop, Prod.mk.injEq] at hF
                obtain ⟨rfl, rfl⟩ := hF
                refine ⟨hxmem, ?_, cacheB_recalcT hcl hcr2, ?_, fun hcon => Bool.noConfusion hcon, ?_⟩
                · rw [inorderP_recalcT]
                  exact hioGoal
                · simp only [recalcT]
                  exact avlB_node.mpr ⟨hal, har2, by omega⟩
                · intro _
                  refine ⟨?_, Or.inr (Or.inl ?_)⟩
                  · rw [realH_recalcT]
                    simp only [realH]
                    omega
                  · rw [get_diff_recalcT]
                    exact hdm1
              · -- balance was 1: the two heights equalise, the loop stops
                have hd0 : get_diff (node l id v r2 h (m + 1)) = 0 := by
                  rw [get_diff_real hcl hcr2]; omega
                have hloop : rebalanceLoopIns (m + 1 + 1) (node l id v r2 h (m + 1)) =
                    (recalcT (node l id v r2 h (m + 1)), true) := by
                  rw [rebalanceLoopIns, if_pos hd0]
                rw [hloop, Prod.mk.injEq] at hF
                obtain ⟨rfl, rfl⟩ := hF
                refine ⟨hxmem, ?_, cacheB_recalcT hcl hcr2, ?_, ?_, fun hcon => Bool.noConfusion hcon⟩
                · rw [inorderP_recalcT]
                  exact hioGoal
                · simp only [recalcT]
                  exact avlB_node.mpr ⟨hal, har2, by omega⟩
                · intro _
                  rw [realH_recalcT]
                  simp only [realH]
                  omega
        · -- descend to the left (x < v)
          have hxv : x < v := by
            rcases lt_trichotomy v x with hq | hq | hq
            · exact absurd hq hvx
            · exact absurd ⟨hvx, hq ▸ lt_irrefl x⟩ heq
            · exact hq
          have hrec : insDown x nid (node l id v r h sz) = (insDown x nid l).map fun p =>
              if p.2 then (recalcT (node p.1 id v r h sz), true)
              else rebalanceLoopIns (get_sz (node p.1 id v r h sz) + 1)
                (node p.1 id v r h sz) := by
            rw [insDown, if_neg heq, if_neg hvx]
          obtain ⟨ihln, ihls⟩ := ihl hbl hcl hal
          constructor
          · intro hn
            rw [hrec, Option.map_eq_none'] at hn
            exact mem_inorder_node.mpr (Or.inl (ihln hn))
          · intro t2 stop hs
            rw [hrec, Option.map_eq_some'] at hs
            obtain ⟨⟨l2, stopC⟩, hl2, hF⟩ := hs
            obtain ⟨hxl, hiol, hcl2, hal2, hstT, hstF⟩ := ihls l2 stopC hl2
            have hxmem : x ∉ inorder (node l id v r h sz) := by
              rw [mem_inorder_node]
              rintro (hm | hm | hm)
              · exact hxl hm
              · exact absurd (hm ▸ hxv) (lt_irrefl v)
              · exact absurd (lt_trans hxv (allB_gt hvr x hm)) (lt_irrefl x)
            have hioGoal : inorderP l2 ++ (id, v) :: inorderP r =
                insP x nid (inorderP (node l id v r h sz)) := by
              have : inorderP (node l id v r h sz) = inorderP l ++ (id, v) :: inorderP r := rfl
              rw [this, insP_cons_gt hxv, hiol]
            simp only [get_sz_node] at hF
            by_cases hstop : stopC = true
            · subst hstop
              rw [if_pos rfl] at hF
              rw [Prod.mk.injEq] at hF
              obtain ⟨rfl, rfl⟩ := hF
              have hle : realH l2 = realH l := hstT rfl
              refine ⟨hxmem, ?_, cacheB_recalcT hcl2 hcr, ?_, ?_, fun hcon => Bool.noConfusion hcon⟩
              · rw [inorderP_recalcT]
                exact hioGoal
              · simp only [recalcT]
                exact avlB_node.mpr ⟨hal2, har, by rw [hle]; exact hbal⟩
              · intro _
                rw [realH_recalcT]
                simp only [realH, hle]
            · have hstop2 : stopC = false := by
                cases stopC
                · rfl
                · exact absurd rfl hstop
              subst hstop2
              rw [if_neg (by simp)] at hF
              obtain ⟨hgrow, hd2⟩ := hstF rfl
              have hb3 : realH l - realH r = -1 ∨ realH l - realH r = 0 ∨
                  realH l - realH r = 1 := by omega
              obtain ⟨m, rfl⟩ : ∃ m, sz = m + 1 := ⟨realSz l + realSz r, by omega⟩
              rcases hb3 with hb1 | hb1 | hb1
              · -- balance was -1: heights equalise, the loop stops
                have hd0 : get_diff (node l2 id v r h (m + 1)) = 0 := by
                  rw [get_diff_real hcl2 hcr]; omega
                have hloop : rebalanceLoopIns (m + 1 + 1) (node l2 id v r h (m + 1)) =
                    (recalcT (node l2 id v r h (m + 1)), true) := by
                  rw [rebalanceLoopIns, if_pos hd0]
                rw [hloop, Prod.mk.injEq] at hF
                obtain ⟨rfl, rfl⟩ := hF
                refine ⟨hxmem, ?_, cacheB_recalcT hcl2 hcr, ?_, ?_, fun hcon => Bool.noConfusion hcon⟩
                · rw [inorderP_recalcT]
                  exact hioGoal
                · simp only [recalcT]
                  exact avlB_node.mpr ⟨hal2, har, by omega⟩
                · intro _
                  rw [realH_recalcT]
                  simp only [realH]
                  omega
              · -- balance was 0: tilts to the left, keep ascending
                have hdp1 : get_diff (node l2 id v r h (m + 1)) = 1 := by
                  rw [get_diff_real hcl2 hcr]; omega
                have hloop : rebalanceLoopIns (m + 1 + 1) (node l2 id v r h (m + 1)) =
                    (recalcT (node l2 id v r h (m + 1)), false) := by
                  rw [rebalanceLoopIns, if_neg (by rw [hdp1]; norm_num),
                    if_pos (Or.inl hdp1)]
                rw [hloop, Prod.mk.injEq] at hF
                obtain ⟨rfl, rfl⟩ := hF
                refine ⟨hxmem, ?_, cacheB_recalcT hcl2 hcr, ?_, fun hcon => Bool.noConfusion hcon, ?_⟩
                · rw [inorderP_recalcT]
                  exact hioGoal
                · simp only [recalcT]
                  exact avlB_node.mpr ⟨hal2, har, by omega⟩
                · intro _
                  refine ⟨?_, Or.inl ?_⟩
                  · rw [realH_recalcT]
                    simp only [realH]
                    omega
                  · rw [get_diff_recalcT]
                    exact hdp1
              · -- the left subtree was the taller one: rotate, then the loop stops
                have hlnil : ¬ l = nil := by
                  intro hcon
                  subst hcon
                  simp only [realH] at hb1
                  omega
                have hd2' : get_diff l2 = 1 ∨ get_diff l2 = -1 := by
                  rcases hd2 with hq | hq | hq
                  · exact Or.inl hq
                  · exact Or.inr hq
                  · exact absurd hq hlnil
                have hdpos : get_diff (node l2 id v r h (m + 1)) = 2 := by
                  rw [get_diff_real hcl2 hcr]; omega
                obtain ⟨hcR, haR, hcases⟩ :=
                  @rebalance_right_spec l2 id v r h (m + 1) hcl2 hcr hal2 har (by omega)
                rcases hcases with ⟨hz0, _, _⟩ | ⟨_, hHR, hDR⟩
                · rcases hd2' with hq | hq <;> rw [hq] at hz0 <;> exact absurd hz0 (by norm_num)
                · have hloop : rebalanceLoopIns (m + 1 + 1) (node l2 id v r h (m + 1)) =
                      (recalcT (rebalance (node l2 id v r h (m + 1))), true) := by
                    rw [rebalanceLoopIns, if_neg (by rw [hdpos]; norm_num),
                      if_neg (by rw [hdpos]; norm_num), rebalanceLoopIns, if_pos hDR]
                  rw [recalcT_eq_self hcR] at hloop
                  rw [hloop, Prod.mk.injEq] at hF
                  obtain ⟨rfl, rfl⟩ := hF
                  refine ⟨hxmem, ?_, hcR, haR, ?_, fun hcon => Bool.noConfusion hcon⟩
                  · rw [inorderP_rebalance]
                    exact hioGoal
                  · intro _
                    rw [hHR]
                    simp only [realH]
                    omega

theorem insP_of_mem {x : Int} {i : Nat} : ∀ {P : List (Nat × Int)},
    (P.map Prod.snd).Pairwise (· < ·) → x ∈ P.map Prod.snd → insP x i P = P := by
  intro P
  induction P with
  | nil => intro _ hm; simp at hm
  | cons p rest ih =>
      obtain ⟨j, a⟩ := p
      intro hp hm
      simp only [List.map_cons, List.pairwise_cons] at hp
      by_cases h1 : a < x
      · have hxr : x ∈ rest.map Prod.snd := by
          rcases List.mem_cons.mp hm with rfl | hm2
          · exact absurd h1 (lt_irrefl x)
          · exact hm2
        simp only [insP, if_pos h1, ih hp.2 hxr]
      · by_cases h2 : x < a
        · exfalso
          rcases List.mem_cons.mp hm with rfl | hm2
          · exact absurd h2 (lt_irrefl x)
          · exact absurd (lt_trans h2 (hp.1 x hm2)) (lt_irrefl x)
        · simp only [insP, if_neg h1, if_neg h2]

theorem insertS_nil {x : Int} {s : SetS} (h : s.root = nil) :
    insertS x s = ⟨node nil s.fresh x nil 1 1, some s.fresh, s.fresh + 1⟩ := by
  obtain ⟨rt, ml, fr⟩ := s
  simp only at h
  subst h
  rfl

theorem insertS_node {x : Int} {s : SetS} {l : Tree} {id : Nat} {v : Int} {r : Tree}
    {hh : Int} {sz : Nat} (h : s.root = node l id v r hh sz) :
    (insertS x s).fresh = s.fresh + 1 ∧
    (insertS x s).root = (match insDown x s.fresh (node l id v r hh sz) with
      | none => node l id v r hh sz
      | some p => p.1) := by
  obtain ⟨rt, ml, fr⟩ := s
  simp only at h
  subst h
  simp only [insertS]
  cases insDown x fr (node l id v r hh sz) <;> simp

/-- `Set::insert` preserves the whole-state invariant, performs a sorted
insert on the in-order pair sequence, and advances the allocator. -/
theorem insertS_spec (x : Int) (s : SetS) (h : InvS s) :
    InvS (insertS x s) ∧
    inorderP (insertS x s).root = insP x s.fresh (inorderP s.root) ∧
    (insertS x s).fresh = s.fresh + 1 := by
  obtain ⟨hb, hc, ha, hnd, hlt⟩ := h
  obtain ⟨rt, ml, fr⟩ := s
  simp only at hb hc ha hnd hlt ⊢
  cases rt with
  | nil =>
      simp only [insertS]
      refine ⟨⟨?_, ?_, ?_, ?_, ?_⟩, ?_, trivial⟩
      · simp [bstB, allB]
      · exact cacheB_node.mpr ⟨rfl, rfl, by simp [realH], by simp [realSz]⟩
      · exact avlB_node.mpr ⟨rfl, rfl, by simp [realH]⟩
      · simp [idsOf, inorderP]
      · simp [idsOf, inorderP]
      · simp [inorderP, insP]
  | node l id v r hh sz =>
      have hmain := insDown_spec x fr (node l id v r hh sz) hb hc ha
      cases hins : insDown x fr (node l id v r hh sz) with
      | none =>
          simp only [insertS, hins]
          have hx : x ∈ inorder (node l id v r hh sz) := hmain.1 hins
          have hio : insP x fr (inorderP (node l id v r hh sz)) =
              inorderP (node l id v r hh sz) :=
            insP_of_mem (bstB_iff_pairwise.mp hb) hx
          exact ⟨⟨hb, hc, ha, hnd, fun i hi => Nat.lt_succ_of_lt (hlt i hi)⟩, hio.symm, trivial⟩
      | some p =>
          obtain ⟨t2, stop⟩ := p
          obtain ⟨hnm, hio, hct, hat, _, _⟩ := hmain.2 t2 stop hins
          simp only [insertS, hins]
          refine ⟨⟨?_, hct, hat, ?_, ?_⟩, hio, trivial⟩
          · exact bstB_iff_pairwise.mpr (by
              rw [inorder, hio]
              exact pairwise_insP (bstB_iff_pairwise.mp hb))
          · rw [idsOf, hio]
            refine nodup_insP hnd ?_
            intro hmem
            exact absurd (hlt _ hmem) (lt_irrefl fr)
          · intro i hi
            rw [idsOf, hio] at hi
            rcases fst_mem_insP hi with rfl | hi2
            · exact Nat.lt_succ_self i
            · exact Nat.lt_succ_of_lt (hlt i hi2)

/-! ## Path contexts

`ctxL t p` / `ctxR t p` are the parts of the in-order sequence strictly
before / after the subtree addressed by `p`. -/

def ctxL : Tree → List Dir → List (Nat × Int)
  | _, [] => []
  | nil, _ :: _ => []
  | node l _ _ _ _ _, Dir.L :: p => ctxL l p
  | node l id v r _ _, Dir.R :: p => inorderP l ++ (id, v) :: ctxL r p

def ctxR : Tree → List Dir → List (Nat × Int)
  | _, [] => []
  | nil, _ :: _ => []
  | node l id v r _ _, Dir.L :: p => ctxR l p ++ (id, v) :: inorderP r
  | node _ _ _ r _ _, Dir.R :: p => ctxR r p

theorem inorder_decomp : ∀ (p : List Dir) (t st : Tree), subAt t p = some st →
    inorderP t = ctxL t p ++ inorderP st ++ ctxR t p := by
  intro p
  induction p with
  | nil =>
      intro t st h
      simp only [subAt, Option.some.injEq] at h
      subst h
      simp [ctxL, ctxR]
  | cons d p ih =>
      intro t st h
      cases t with
      | nil => simp [subAt] at h
      | node l id v r hh sz =>
          cases d with
          | L =>
              simp only [subAt] at h
              have := ih l st h
              simp only [ctxL, ctxR, inorderP, this]
              simp
          | R =>
              simp only [subAt] at h
              have := ih r st h
              simp only [ctxL, ctxR, inorderP, this]
              simp

theorem subAt_append : ∀ (p q : List Dir) (t : Tree),
    subAt t (p ++ q) = (subAt t p).bind fun st => subAt st q := by
  intro p
  induction p with
  | nil => intro q t; simp [subAt]
  | cons d p ih =>
      intro q t
      cases t with
      | nil => simp [subAt]
      | node l id v r hh sz =>
          cases d with
          | L => simpa [subAt] using ih q l
          | R => simpa [subAt] using ih q r

theorem ctx_append : ∀ (p q : List Dir) (t st : Tree), subAt t p = some st →
    ctxL t (p ++ q) = ctxL t p ++ ctxL st q ∧
    ctxR t (p ++ q) = ctxR st q ++ ctxR t p := by
  intro p
  induction p with
  | nil =>
      intro q t st h
      simp only [subAt, Option.some.injEq] at h
      subst h
      simp [ctxL, ctxR]
  | cons d p ih =>
      intro q t st h
      cases t with
      | nil => simp [subAt] at h
      | node l id v r hh sz =>
          cases d with
          | L =>
              simp only [subAt] at h
              obtain ⟨h1, h2⟩ := ih q l st h
              simp [ctxL, ctxR, h1, h2]
          | R =>
              simp only [subAt] at h
              obtain ⟨h1, h2⟩ := ih q r st h
              simp [ctxL, ctxR, h1, h2]

theorem rightSpine_sub : ∀ (t : Tree) (l : Tree) (id : Nat) (v : Int) (r : Tree)
    (hh : Int) (sz : Nat), t = node l id v r hh sz →
    ∃ ql qid qv qh qs, subAt t (rightSpine t) = some (node ql qid qv nil qh qs) ∧
      ctxR t (rightSpine t) = [] := by
  intro t
  induction t with
  | nil => intro _ _ _ _ _ _ h; cases h
  | node a b c d e f ihl ihr =>
      intro _ _ _ _ _ _ _
      cases hd : d with
      | nil =>
          subst hd
          exact ⟨a, b, c, e, f, by simp [rightSpine, subAt], by simp [rightSpine, ctxR]⟩
      | node dl did dv dr dh dsz =>
          obtain ⟨ql, qid, qv, qh, qs, hsub, hctx⟩ :=
            ihr dl did dv dr dh dsz hd
          subst hd
          refine ⟨ql, qid, qv, qh, qs, ?_, ?_⟩
          · simpa [rightSpine, subAt] using hsub
          · simpa [rightSpine, ctxR] using hctx

theorem leftSpine_sub : ∀ (t : Tree) (l : Tree) (id : Nat) (v : Int) (r : Tree)
    (hh : Int) (sz : Nat), t = node l id v r hh sz →
    ∃ qid qv qr qh qs, subAt t (leftSpine t) = some (node nil qid qv qr qh qs) ∧
      ctxL t (leftSpine t) = [] := by
  intro t
  induction t with
  | nil => intro _ _ _ _ _ _ h; cases h
  | node a b c d e f ihl ihr =>
      intro _ _ _ _ _ _ _
      cases ha : a with
      | nil =>
          subst ha
          exact ⟨b, c, d, e, f, by simp [leftSpine, subAt], by simp [leftSpine, ctxL]⟩
      | node al aid av ar ah asz =>
          obtain ⟨qid, qv, qr, qh, qs, hsub, hctx⟩ :=
            ihl al aid av ar ah asz ha
          subst ha
          refine ⟨qid, qv, qr, qh, qs, ?_, ?_⟩
          · simpa [leftSpine, subAt] using hsub
          · simpa [leftSpine, ctxL] using hctx

theorem realH_subAt_le : ∀ (p : List Dir) (t st : Tree), subAt t p = some st →
    realH st ≤ realH t := by
  intro p
  induction p with
  | nil =>
      intro t st h
      simp only [subAt, Option.some.injEq] at h
      subst h
      exact le_refl _
  | cons d p ih =>
      intro t st h
      cases t with
      | nil => simp [subAt] at h
      | node l id v r hh sz =>
          cases d with
          | L =>
              simp only [subAt] at h
              have := ih l st h
              simp only [realH]
              omega
          | R =>
              simp only [subAt] at h
              have := ih r st h
              simp only [realH]
              omega

theorem realH_subAt_lt {d : Dir} {p : List Dir} {t st : Tree}
    (h : subAt t (d :: p) = some st) : realH st < realH t := by
  cases t with
  | nil => simp [subAt] at h
  | node l id v r hh sz =>
      cases d with
      | L =>
          simp only [subAt] at h
          have := realH_subAt_le p l st h
          simp only [realH]
          omega
      | R =>
          simp only [subAt] at h
          have := realH_subAt_le p r st h
          simp only [realH]
          omega

theorem cacheB_subAt : ∀ (p : List Dir) (t st : Tree), cacheB t = true →
    subAt t p = some st → cacheB st = true := by
  intro p
  induction p with
  | nil =>
      intro t st hc h
      simp only [subAt, Option.some.injEq] at h
      subst h
      exact hc
  | cons d p ih =>
      intro t st hc h
      cases t with
      | nil => simp [subAt] at h
      | node l id v r hh sz =>
          rcases cacheB_node.mp hc with ⟨hcl, hcr, _, _⟩
          cases d with
          | L => exact ih l st hcl (by simpa [subAt] using h)
          | R => exact ih r st hcr (by simpa [subAt] using h)

theorem avlB_subAt : ∀ (p : List Dir) (t st : Tree), avlB t = true →
    subAt t p = some st → avlB st = true := by
  intro p
  induction p with
  | nil =>
      intro t st hc h
      simp only [subAt, Option.some.injEq] at h
      subst h
      exact hc
  | cons d p ih =>
      intro t st hc h
      cases t with
      | nil => simp [subAt] at h
      | node l id v r hh sz =>
          rcases avlB_node.mp hc with ⟨hal, har, _⟩
          cases d with
          | L => exact ih l st hal (by simpa [subAt] using h)
          | R => exact ih r st har (by simpa [subAt] using h)

/-! ## `std::swap(u->value, v->value)`: value overwriting leaves the
structure, the caches and the identities untouched -/

theorem realH_setValAt : ∀ (p : List Dir) (t : Tree) (x : Int),
    realH (setValAt t p x) = realH t := by
  intro p
  induction p with
  | nil =>
      intro t x
      cases t <;> rfl
  | cons d p ih =>
      intro t x
      cases t with
      | nil => rfl
      | node l id v r hh sz =>
          cases d <;> simp [setValAt, realH, ih]

theorem realSz_setValAt : ∀ (p : List Dir) (t : Tree) (x : Int),
    realSz (setValAt t p x) = realSz t := by
  intro p
  induction p with
  | nil =>
      intro t x
      cases t <;> rfl
  | cons d p ih =>
      intro t x
      cases t with
      | nil => rfl
      | node l id v r hh sz =>
          cases d <;> simp [setValAt, realSz, ih]

theorem cacheB_setValAt : ∀ (p : List Dir) (t : Tree) (x : Int),
    cacheB (setValAt t p x) = cacheB t := by
  intro p
  induction p with
  | nil =>
      intro t x
      cases t <;> simp [setValAt, cacheB]
  | cons d p ih =>
      intro t x
      cases t with
      | nil => rfl
      | node l id v r hh sz =>
          cases d <;> simp [setValAt, cacheB, ih, realH_setValAt, realSz_setValAt]

theorem avlB_setValAt : ∀ (p : List Dir) (t : Tree) (x : Int),
    avlB (setValAt t p x) = avlB t := by
  intro p
  induction p with
  | nil =>
      intro t x
      cases t <;> simp [setValAt, avlB]
  | cons d p ih =>
      intro t x
      cases t with
      | nil => rfl
      | node l id v r hh sz =>
          cases d <;> simp [setValAt, avlB, ih, realH_setValAt]

theorem idsOf_setValAt : ∀ (p : List Dir) (t : Tree) (x : Int),
    idsOf (setValAt t p x) = idsOf t := by
  intro p
  induction p with
  | nil =>
      intro t x
      cases t <;> simp [setValAt, idsOf, inorderP]
  | cons d p ih =>
      intro t x
      cases t with
      | nil => rfl
      | node l id v r hh sz =>
          cases d <;>
            simp only [setValAt, idsOf, inorderP, List.map_append, List.map_cons] <;>
            rw [show (inorderP (setValAt _ p x)).map Prod.fst = idsOf (setValAt _ p x) from rfl,
              ih] <;> rfl

theorem subAt_setValAt_self : ∀ (p : List Dir) (t : Tree) (x : Int)
    {l : Tree} {id : Nat} {v : Int} {r : Tree} {hh : Int} {ss : Nat},
    subAt t p = some (node l id v r hh ss) →
    subAt (setValAt t p x) p = some (node l id x r hh ss) := by
  intro p
  induction p with
  | nil =>
      intro t x l id v r hh ss h
      simp only [subAt, Option.some.injEq] at h
      subst h
      rfl
  | cons d p ih =>
      intro t x l id v r hh ss h
      cases t with
      | nil => simp [subAt] at h
      | node a b c e f g =>
          cases d with
          | L =>
              simp only [subAt] at h
              simp only [setValAt, subAt]
              exact ih a x h
          | R =>
              simp only [subAt] at h
              simp only [setValAt, subAt]
              exact ih e x h

theorem subAt_setValAt_prefix : ∀ (p w : List Dir) (t : Tree) (x : Int),
    subAt (setValAt t (p ++ w) x) p = (subAt t p).map fun st => setValAt st w x := by
  intro p
  induction p with
  | nil =>
      intro w t x
      simp [subAt]
  | cons d p ih =>
      intro w t x
      cases t with
      | nil => simp [setValAt, subAt]
      | node a b c e f g =>
          cases d with
          | L =>
              simp only [List.cons_append, setValAt, subAt]
              exact ih w a x
          | R =>
              simp only [List.cons_append, setValAt, subAt]
              exact ih w e x

theorem ctx_setValAt : ∀ (p w : List Dir) (t : Tree) (x : Int),
    ctxL (setValAt t (p ++ w) x) p = ctxL t p ∧
    ctxR (setValAt t (p ++ w) x) p = ctxR t p := by
  intro p
  induction p with
  | nil =>
      intro w t x
      cases t <;> simp [setValAt, ctxL, ctxR]
  | cons d p ih =>
      intro w t x
      cases t with
      | nil => simp [setValAt, ctxL, ctxR]
      | node a b c e f g =>
          cases d with
          | L =>
              simp only [List.cons_append, setValAt, ctxL, ctxR, List.append_eq]
              exact ⟨(ih w a x).1, by rw [(ih w a x).2]⟩
          | R =>
              simp only [List.cons_append, setValAt, ctxL, ctxR, List.append_eq]
              exact ⟨by rw [(ih w e x).1], (ih w e x).2⟩

theorem balanceLoopDel_pos {fuel : Nat} (hf : 0 < fuel) (t : Tree) :
    balanceLoopDel fuel t =
      if get_diff t = 1 ∨ get_diff t = -1 then (recalcT t, true)
      else if get_diff t = 0 then (recalcT t, false)
      else balanceLoopDel (fuel - 1) (rebalance t) := by
  obtain ⟨m, rfl⟩ : ∃ m, fuel = m + 1 := ⟨fuel - 1, by omega⟩
  simp [balanceLoopDel]

/-- Specification of the leaf-splice-and-rebalance of `erase_`: detaching
the leaf at `p` removes exactly its pair from the in-order sequence, keeps
caches correct and the tree AVL, and the returned flag tells whether the
tree height is unchanged (`true`, the break on `diff == ±1`) or shrank by
one (`false`).  BST order is not assumed: the value sitting at the deleted
leaf may be out of order, having been moved there by the value swaps. -/
theorem eraseLeafAt_spec : ∀ (p : List Dir) (t : Tree) {lid : Nat} {lv lh : Int} {lsz : Nat},
    subAt t p = some (node nil lid lv nil lh lsz) →
    cacheB t = true → avlB t = true →
    inorderP (eraseLeafAt t p).1 = ctxL t p ++ ctxR t p ∧
    cacheB (eraseLeafAt t p).1 = true ∧
    avlB (eraseLeafAt t p).1 = true ∧
    ((eraseLeafAt t p).2 = true → realH (eraseLeafAt t p).1 = realH t) ∧
    ((eraseLeafAt t p).2 = false → realH (eraseLeafAt t p).1 = realH t - 1) := by
  intro p
  induction p with
  | nil =>
      intro t lid lv lh lsz h hc ha
      simp only [subAt, Option.some.injEq] at h
      subst h
      refine ⟨by simp [eraseLeafAt, inorderP, ctxL, ctxR], rfl, rfl, ?_, ?_⟩
      · intro hcon
        simp [eraseLeafAt] at hcon
      · intro _
        simp [eraseLeafAt, realH]
  | cons d p ih =>
      intro t lid lv lh lsz h hc ha
      cases t with
      | nil => simp [subAt] at h
      | node l id v r hh sz =>
          rcases cacheB_node.mp hc with ⟨hcl, hcr, hhh, hss⟩
          rcases avlB_node.mp ha with ⟨hal, har, hbal⟩
          have hl0 := realH_nonneg l
          have hr0 := realH_nonneg r
          obtain ⟨m, hm⟩ : ∃ m, sz = m + 1 := ⟨realSz l + realSz r, by omega⟩
          cases d with
          | L =>
              simp only [subAt] at h
              obtain ⟨hio, hc2, ha2, hsT, hsF⟩ := ih l h hcl hal
              rcases hq : eraseLeafAt l p with ⟨l2, stopC⟩
              rw [hq] at hio hc2 ha2 hsT hsF
              simp only at hio hc2 ha2 hsT hsF
              have hctx : ctxL (node l id v r hh sz) (Dir.L :: p) = ctxL l p ∧
                  ctxR (node l id v r hh sz) (Dir.L :: p) =
                    ctxR l p ++ (id, v) :: inorderP r := ⟨rfl, rfl⟩
              cases stopC with
              | true =>
                  have hre : realH l2 = realH l := hsT rfl
                  have hres : eraseLeafAt (node l id v r hh sz) (Dir.L :: p) =
                      (recalcT (node l2 id v r hh sz), true) := by
                    simp [eraseLeafAt, hq]
                  rw [hres]
                  dsimp only
                  refine ⟨?_, cacheB_recalcT hc2 hcr, ?_, ?_, ?_⟩
                  · simp only [inorderP_recalcT, inorderP, hio, hctx.1, hctx.2]
                    simp
                  · simp only [recalcT]
                    exact avlB_node.mpr ⟨ha2, har, by omega⟩
                  · intro _
                    rw [realH_recalcT]
                    simp only [realH]
                    omega
                  · intro hcon
                    cases hcon
              | false =>
                  have hre : realH l2 = realH l - 1 := hsF rfl
                  have hres : eraseLeafAt (node l id v r hh sz) (Dir.L :: p) =
                      balanceLoopDel (sz + 1) (node l2 id v r hh sz) := by
                    simp [eraseLeafAt, hq]
                  have hd2 : get_diff (node l2 id v r hh sz) = realH l2 - realH r :=
                    get_diff_real hc2 hcr
                  have hb3 : realH l - realH r = -1 ∨ realH l - realH r = 0 ∨
                      realH l - realH r = 1 := by omega
                  rcases hb3 with hb1 | hb1 | hb1
                  · -- deletion in the shorter subtree: rotation at this node
                    obtain ⟨hcR, haR, hcases⟩ :=
                      @rebalance_left_spec l2 id v r hh sz hc2 hcr ha2 har (by omega)
                    rcases hcases with ⟨hz0, hH, hD⟩ | ⟨hne, hH, hD⟩
                    · have hloop : balanceLoopDel (sz + 1) (node l2 id v r hh sz) =
                          (recalcT (rebalance (node l2 id v r hh sz)), true) := by
                        rw [balanceLoopDel, if_neg (by rw [hd2]; omega),
                          if_neg (by rw [hd2]; omega), balanceLoopDel_pos (by omega),
                          if_pos (Or.inl hD)]
                      rw [hres, hloop, recalcT_eq_self hcR]
                      dsimp only
                      refine ⟨?_, hcR, haR, ?_, ?_⟩
                      · rw [inorderP_rebalance]
                        simp only [inorderP, hio, hctx.1, hctx.2]
                        simp
                      · intro _
                        rw [hH]
                        simp only [realH]
                        omega
                      · intro hcon
                        cases hcon
                    · have hloop : balanceLoopDel (sz + 1) (node l2 id v r hh sz) =
                          (recalcT (rebalance (node l2 id v r hh sz)), false) := by
                        rw [balanceLoopDel, if_neg (by rw [hd2]; omega),
                          if_neg (by rw [hd2]; omega), balanceLoopDel_pos (by omega),
                          if_neg (by rw [hD]; norm_num), if_pos hD]
                      rw [hres, hloop, recalcT_eq_self hcR]
                      dsimp only
                      refine ⟨?_, hcR, haR, ?_, ?_⟩
                      · rw [inorderP_rebalance]
                        simp only [inorderP, hio, hctx.1, hctx.2]
                        simp
                      · intro hcon
                        cases hcon
                      · intro _
                        rw [hH]
                        simp only [realH]
                        omega
                  · -- both subtrees were of equal height: break on diff == -1
                    have hloop : balanceLoopDel (sz + 1) (node l2 id v r hh sz) =
                        (recalcT (node l2 id v r hh sz), true) := by
                      rw [balanceLoopDel, if_pos (Or.inr (by rw [hd2]; omega))]
                    rw [hres, hloop]
                    dsimp only
                    refine ⟨?_, cacheB_recalcT hc2 hcr, ?_, ?_, ?_⟩
                    · simp only [inorderP_recalcT, inorderP, hio, hctx.1, hctx.2]
                      simp
                    · simp only [recalcT]
                      exact avlB_node.mpr ⟨ha2, har, by omega⟩
                    · intro _
                      rw [realH_recalcT]
                      simp only [realH]
                      omega
                    · intro hcon
                      cases hcon
                  · -- deletion in the taller subtree: heights equalise, continue
                    have hloop : balanceLoopDel (sz + 1) (node l2 id v r hh sz) =
                        (recalcT (node l2 id v r hh sz), false) := by
                      rw [balanceLoopDel, if_neg (by rw [hd2]; omega),
                        if_pos (by rw [hd2]; omega)]
                    rw [hres, hloop]
                    dsimp only
                    refine ⟨?_, cacheB_recalcT hc2 hcr, ?_, ?_, ?_⟩
                    · simp only [inorderP_recalcT, inorderP, hio, hctx.1, hctx.2]
                      simp
                    · simp only [recalcT]
                      exact avlB_node.mpr ⟨ha2, har, by omega⟩
                    · intro hcon
                      cases hcon
                    · intro _
                      rw [realH_recalcT]
                      simp only [realH]
                      omega
          | R =>
              simp only [subAt] at h
              obtain ⟨hio, hc2, ha2, hsT, hsF⟩ := ih r h hcr har
              rcases hq : eraseLeafAt r p with ⟨r2, stopC⟩
              rw [hq] at hio hc2 ha2 hsT hsF
              simp only at hio hc2 ha2 hsT hsF
              have hctx : ctxL (node l id v r hh sz) (Dir.R :: p) =
                    inorderP l ++ (id, v) :: ctxL r p ∧
                  ctxR (node l id v r hh sz) (Dir.R :: p) = ctxR r p := ⟨rfl, rfl⟩
              cases stopC with
              | true =>
                  have hre : realH r2 = realH r := hsT rfl
                  have hres : eraseLeafAt (node l id v r hh sz) (Dir.R :: p) =
                      (recalcT (node l id v r2 hh sz), true) := by
                    simp [eraseLeafAt, hq]
                  rw [hres]
                  dsimp only
                  refine ⟨?_, cacheB_recalcT hcl hc2, ?_, ?_, ?_⟩
                  · simp only [inorderP_recalcT, inorderP, hio, hctx.1, hctx.2]
                    simp
                  · simp only [recalcT]
                    exact avlB_node.mpr ⟨hal, ha2, by omega⟩
                  · intro _
                    rw [realH_recalcT]
                    simp only [realH]
                    omega
                  · intro hcon
                    cases hcon
              | false =>
                  have hre : realH r2 = realH r - 1 := hsF rfl
                  have hres : eraseLeafAt (node l id v r hh sz) (Dir.R :: p) =
                      balanceLoopDel (sz + 1) (node l id v r2 hh sz) := by
                    simp [eraseLeafAt, hq]
                  have hd2 : get_diff (node l id v r2 hh sz) = realH l - realH r2 :=
                    get_diff_real hcl hc2
                  have hb3 : realH l - realH r = -1 ∨ realH l - realH r = 0 ∨
                      realH l - realH r = 1 := by omega
                  rcases hb3 with hb1 | hb1 | hb1
                  · -- deletion in the taller subtree: heights equalise, continue
                    have hloop : balanceLoopDel (sz + 1) (node l id v r2 hh sz) =
                        (recalcT (node l id v r2 hh sz), false) := by
                      rw [balanceLoopDel, if_neg (by rw [hd2]; omega),
                        if_pos (by rw [hd2]; omega)]
                    rw [hres, hloop]
                    dsimp only
                    refine ⟨?_, cacheB_recalcT hcl hc2, ?_, ?_, ?_⟩
                    · simp only [inorderP_recalcT, inorderP, hio, hctx.1, hctx.2]
                      simp
                    · simp only [recalcT]
                      exact avlB_node.mpr ⟨hal, ha2, by omega⟩
                    · intro hcon
                      cases hcon
                    · intro _
                      rw [realH_recalcT]
                      simp only [realH]
                      omega
                  · -- equal heights: break on diff == 1
                    have hloop : balanceLoopDel (sz + 1) (node l id v r2 hh sz) =
                        (recalcT (node l id v r2 hh sz), true) := by
                      rw [balanceLoopDel, if_pos (Or.inl (by rw [hd2]; omega))]
                    rw [hres, hloop]
                    dsimp only
                    refine ⟨?_, cacheB_recalcT hcl hc2, ?_, ?_, ?_⟩
                    · simp only [inorderP_recalcT, inorderP, hio, hctx.1, hctx.2]
                      simp
                    · simp only [recalcT]
                      exact avlB_node.mpr ⟨hal, ha2, by omega⟩
                    · intro _
                      rw [realH_recalcT]
                      simp only [realH]
                      omega
                    · intro hcon
                      cases hcon
                  · -- deletion in the shorter subtree: rotation at this node
                    obtain ⟨hcR, haR, hcases⟩ :=
                      @rebalance_right_spec l id v r2 hh sz hcl hc2 hal ha2 (by omega)
                    rcases hcases with ⟨hz0, hH, hD⟩ | ⟨hne, hH, hD⟩
                    · have hloop : balanceLoopDel (sz + 1) (node l id v r2 hh sz) =
                          (recalcT (rebalance (node l id v r2 hh sz)), true) := by
                        rw [balanceLoopDel, if_neg (by rw [hd2]; omega),
                          if_neg (by rw [hd2]; omega), balanceLoopDel_pos (by omega),
                          if_pos (Or.inr hD)]
                      rw [hres, hloop, recalcT_eq_self hcR]
                      dsimp only
                      refine ⟨?_, hcR, haR, ?_, ?_⟩
                      · rw [inorderP_rebalance]
                        simp only [inorderP, hio, hctx.1, hctx.2]
                        simp
                      · intro _
                        rw [hH]
                        simp only [realH]
                        omega
                      · intro hcon
                        cases hcon
                    · have hloop : balanceLoopDel (sz + 1) (node l id v r2 hh sz) =
                          (recalcT (rebalance (node l id v r2 hh sz)), false) := by
                        rw [balanceLoopDel, if_neg (by rw [hd2]; omega),
                          if_neg (by rw [hd2]; omega), balanceLoopDel_pos (by omega),
                          if_neg (by rw [hD]; norm_num), if_pos hD]
                      rw [hres, hloop, recalcT_eq_self hcR]
                      dsimp only
                      refine ⟨?_, hcR, haR, ?_, ?_⟩
                      · rw [inorderP_rebalance]
                        simp only [inorderP, hio, hctx.1, hctx.2]
                        simp
                      · intro hcon
                        cases hcon
                      · intro _
                        rw [hH]
                        simp only [realH]
                        omega

theorem valueAtPath_eq {t : Tree} {p : List Dir} {l : Tree} {id : Nat} {v : Int}
    {r : Tree} {hh : Int} {ss : Nat} (h : subAt t p = some (node l id v r hh ss)) :
    valueAtPath t p = some v := by
  simp [valueAtPath, h]

theorem idAtPath_eq {t : Tree} {p : List Dir} {l : Tree} {id : Nat} {v : Int}
    {r : Tree} {hh : Int} {ss : Nat} (h : subAt t p = some (node l id v r hh ss)) :
    idAtPath t p = some id := by
  simp [idAtPath, h]

/-- The tree and the allocator produced by `erase_` do not depend on the
`most_left` cache (which the chain only ever writes, never reads for its
structural work). -/
theorem eraseGo_state : ∀ (fuel : Nat) (rt : Tree) (ml1 ml2 : Option Nat) (fr : Nat)
    (p : List Dir),
    (eraseGo fuel ⟨rt, ml1, fr⟩ p).root = (eraseGo fuel ⟨rt, ml2, fr⟩ p).root ∧
    (eraseGo fuel ⟨rt, ml1, fr⟩ p).fresh = (eraseGo fuel ⟨rt, ml2, fr⟩ p).fresh := by
  intro fuel
  induction fuel with
  | zero => intro rt ml1 ml2 fr p; exact ⟨rfl, rfl⟩
  | succ fuel ih =>
      intro rt ml1 ml2 fr p
      cases hs : subAt rt p with
      | none => simp [eraseGo, hs]
      | some st =>
          cases st with
          | nil => simp [eraseGo, hs]
          | node l vid vv r vh vs =>
              cases l with
              | nil =>
                  cases r with
                  | nil =>
                      cases p with
                      | nil => simp [eraseGo, hs]
                      | cons d pp => simp [eraseGo, hs]
                  | node rl rid rv rr rh2 rs2 =>
                      by_cases hge : get_diff (node nil vid vv
                          (node rl rid rv rr rh2 rs2) vh vs) ≥ 0 <;>
                        cases hq : (if get_diff (node nil vid vv
                            (node rl rid rv rr rh2 rs2) vh vs) ≥ 0
                          then predPath rt p else succPath rt p) with
                      | none => simp [eraseGo, hs, hq]
                      | some q =>
                          cases hv1 : valueAtPath rt p with
                          | none => simp [eraseGo, hs, hq, hv1]
                          | some a =>
                              cases hv2 : valueAtPath rt q with
                              | none => simp [eraseGo, hs, hq, hv1, hv2]
                              | some b =>
                                  simp only [eraseGo, hs, hq, hv1, hv2]
                                  exact ih _ _ _ fr q
              | node la lb lc ld le lf =>
                  by_cases hge : get_diff (node (node la lb lc ld le lf) vid vv
                      r vh vs) ≥ 0 <;>
                    cases hq : (if get_diff (node (node la lb lc ld le lf) vid vv
                        r vh vs) ≥ 0
                      then predPath rt p else succPath rt p) with
                  | none =>
                      cases r with
                      | nil => simp [eraseGo, hs, hq]
                      | node rl rid rv rr rh2 rs2 => simp [eraseGo, hs, hq]
                  | some q =>
                      cases hv1 : valueAtPath rt p with
                      | none =>
                          cases r with
                          | nil => simp [eraseGo, hs, hq, hv1]
                          | node rl rid rv rr rh2 rs2 => simp [eraseGo, hs, hq, hv1]
                      | some a =>
                          cases hv2 : valueAtPath rt q with
                          | none =>
                              cases r with
                              | nil => simp [eraseGo, hs, hq, hv1, hv2]
                              | node rl rid rv rr rh2 rs2 =>
                                  simp [eraseGo, hs, hq, hv1, hv2]
                          | some b =>
                              cases r with
                              | nil =>
                                  simp only [eraseGo, hs, hq, hv1, hv2]
                                  exact ih _ _ _ fr q
                              | node rl rid rv rr rh2 rs2 =>
                                  simp only [eraseGo, hs, hq, hv1, hv2]
                                  exact ih _ _ _ fr q

/-- The recursive value-swap chain of `erase_` on the node at `p`: the final
tree's in-order **values** are all the values except the one at `p` (node
identities shift along the chain, which is why the statement is at value
level), caches stay correct, the tree stays AVL, the surviving node
identities are a sublist of the original ones, and the allocator is
untouched.  BST order is not assumed — mid-chain trees are not BSTs. -/
theorem eraseGo_spec : ∀ (fuel : Nat) (s : SetS) (p : List Dir)
    {l : Tree} {vid : Nat} {vv : Int} {r : Tree} {vh : Int} {vs : Nat},
    subAt s.root p = some (node l vid vv r vh vs) →
    cacheB s.root = true → avlB s.root = true →
    realH (node l vid vv r vh vs) < (fuel : Int) →
    inorder (eraseGo fuel s p).root =
      (ctxL s.root p ++ inorderP l ++ inorderP r ++ ctxR s.root p).map Prod.snd ∧
    cacheB (eraseGo fuel s p).root = true ∧
    avlB (eraseGo fuel s p).root = true ∧
    (idsOf (eraseGo fuel s p).root).Sublist (idsOf s.root) ∧
    (eraseGo fuel s p).fresh = s.fresh := by
  intro fuel
  induction fuel with
  | zero =>
      intro s p l vid vv r vh vs hsub hc ha hfuel
      exfalso
      have h1 : (1 : Int) ≤ realH (node l vid vv r vh vs) := realH_pos
      norm_num at hfuel
      omega
  | succ fuel ih =>
      intro s p l vid vv r vh vs hsub hc ha hfuel
      have hcp := cacheB_subAt p s.root _ hc hsub
      have hap := avlB_subAt p s.root _ ha hsub
      rcases cacheB_node.mp hcp with ⟨hcl, hcr, hvh, hvs⟩
      rcases avlB_node.mp hap with ⟨hal, har, hbal⟩
      have hl0 := realH_nonneg l
      have hr0 := realH_nonneg r
      have hdecomp := inorder_decomp p s.root _ hsub
      cases l with
      | nil =>
          cases r with
          | nil =>
              -- the node at `p` is a leaf
              cases p with
              | nil =>
                  have hroot : s.root = node nil vid vv nil vh vs := by
                    simpa [subAt] using hsub
                  simp only [eraseGo, hsub]
                  refine ⟨?_, rfl, rfl, ?_, trivial⟩
                  · simp [inorder, inorderP, hroot, ctxL, ctxR]
                  · simp [idsOf, inorderP]
              | cons d pp =>
                  obtain ⟨hio, hc2, ha2, _, _⟩ :=
                    eraseLeafAt_spec (d :: pp) s.root hsub hc ha
                  simp only [eraseGo, hsub]
                  refine ⟨?_, hc2, ha2, ?_, trivial⟩
                  · rw [inorder, hio]
                    simp [inorderP]
                  · simp only [idsOf]
                    rw [hio, hdecomp]
                    simp only [List.map_append, inorderP, List.map_cons, List.map_nil,
                      List.nil_append, List.cons_append]
                    exact List.Sublist.append (List.sublist_append_left _ _) (List.Sublist.refl _)
          | node rl rid rv rr rh2 rs2 =>
              -- one child on the right: diff < 0, swap with `get_next`
              have hdiff : get_diff (node nil vid vv (node rl rid rv rr rh2 rs2) vh vs) < 0 := by
                rw [get_diff_real hcl hcr]
                have h1 : (1 : Int) ≤ realH (node rl rid rv rr rh2 rs2) := realH_pos
                have h2 : realH (nil : Tree) = 0 := rfl
                omega
              obtain ⟨qid, qv, qr, qh, qs, hsubq0, hctxq0⟩ :=
                leftSpine_sub (node rl rid rv rr rh2 rs2) rl rid rv rr rh2 rs2 rfl
              have hsucc : succPath s.root p =
                  some (p ++ Dir.R :: leftSpine (node rl rid rv rr rh2 rs2)) := by
                simp [succPath, hsub]
              have hsubq : subAt s.root
                  (p ++ Dir.R :: leftSpine (node rl rid rv rr rh2 rs2)) =
                  some (node nil qid qv qr qh qs) := by
                rw [subAt_append, hsub]
                simpa [subAt] using hsubq0
              simp only [eraseGo, hsub, if_neg (not_le.mpr hdiff), hsucc,
                valueAtPath_eq hsub, valueAtPath_eq hsubq]
              set ls := leftSpine (node rl rid rv rr rh2 rs2) with hls
              set T2 : Tree :=
                setValAt (setValAt s.root p qv) (p ++ Dir.R :: ls) vv with hT2
              have hU : subAt (setValAt s.root p qv) p =
                  some (node nil vid qv (node rl rid rv rr rh2 rs2) vh vs) :=
                subAt_setValAt_self p s.root qv hsub
              have hT2p : subAt T2 p = some (node nil vid qv
                  (setValAt (node rl rid rv rr rh2 rs2) ls vv) vh vs) := by
                rw [hT2, subAt_setValAt_prefix, hU]
                simp [setValAt]
              have hUq : subAt (setValAt s.root p qv) (p ++ Dir.R :: ls) =
                  some (node nil qid qv qr qh qs) := by
                rw [subAt_append, hU]
                simpa [subAt] using hsubq0
              have hT2q : subAt T2 (p ++ Dir.R :: ls) =
                  some (node nil qid vv qr qh qs) :=
                subAt_setValAt_self _ _ vv hUq
              have hcT2 : cacheB T2 = true := by
                rw [hT2, cacheB_setValAt, cacheB_setValAt]
                exact hc
              have haT2 : avlB T2 = true := by
                rw [hT2, avlB_setValAt, avlB_setValAt]
                exact ha
              have hlt : realH (node nil qid qv qr qh qs) <
                  realH (node nil vid vv (node rl rid rv rr rh2 rs2) vh vs) := by
                refine realH_subAt_lt (d := Dir.R) (p := ls) ?_
                simpa [subAt] using hsubq0
              have hfuel2 : realH (node nil qid vv qr qh qs) < (fuel : Int) := by
                have he : realH (node nil qid vv qr qh qs) =
                    realH (node nil qid qv qr qh qs) := rfl
                rw [he]
                push_cast at hfuel
                omega
              rw [(eraseGo_state fuel T2 _ none s.fresh (p ++ Dir.R :: ls)).1,
                (eraseGo_state fuel T2 _ none s.fresh (p ++ Dir.R :: ls)).2]
              obtain ⟨ih1, ih2, ih3, ih4, ih5⟩ :=
                ih ⟨T2, none, s.fresh⟩ (p ++ Dir.R :: ls) hT2q hcT2 haT2 hfuel2
              refine ⟨?_, ih2, ih3, ?_, ih5⟩
              · rw [ih1]
                -- compute the contexts of T2 at the extended path
                obtain ⟨he1, he2⟩ := ctx_append p (Dir.R :: ls) T2 _ hT2p
                have he3 : ctxL T2 p = ctxL s.root p := by
                  have g1 := (ctx_setValAt p (Dir.R :: ls) (setValAt s.root p qv) vv).1
                  have g2 := (ctx_setValAt p [] s.root qv).1
                  rw [List.append_nil] at g2
                  rw [hT2, g1, g2]
                have he4 : ctxR T2 p = ctxR s.root p := by
                  have g1 := (ctx_setValAt p (Dir.R :: ls) (setValAt s.root p qv) vv).2
                  have g2 := (ctx_setValAt p [] s.root qv).2
                  rw [List.append_nil] at g2
                  rw [hT2, g1, g2]
                have he5 : ctxL (setValAt (node rl rid rv rr rh2 rs2) ls vv) ls =
                    ctxL (node rl rid rv rr rh2 rs2) ls := by
                  have g := (ctx_setValAt ls [] (node rl rid rv rr rh2 rs2) vv).1
                  rwa [List.append_nil] at g
                have he6 : ctxR (setValAt (node rl rid rv rr rh2 rs2) ls vv) ls =
                    ctxR (node rl rid rv rr rh2 rs2) ls := by
                  have g := (ctx_setValAt ls [] (node rl rid rv rr rh2 rs2) vv).2
                  rwa [List.append_nil] at g
                have hrdec := inorder_decomp ls (node rl rid rv rr rh2 rs2) _ hsubq0
                rw [he1, he2, he3, he4]
                simp only [ctxL, ctxR, he5, he6, hctxq0, hrdec]
                simp [inorderP]
              · have hids : idsOf T2 = idsOf s.root := by
                  rw [hT2, idsOf_setValAt, idsOf_setValAt]
                rw [hids] at ih4
                exact ih4
      | node la lb lc ld le lf =>
          by_cases hge : get_diff (node (node la lb lc ld le lf) vid vv r vh vs) ≥ 0
          · -- diff ≥ 0: swap with `get_prev`, inside the left subtree
            obtain ⟨ql, qid, qv, qh, qs, hsubq0, hctxq0⟩ :=
              rightSpine_sub (node la lb lc ld le lf) la lb lc ld le lf rfl
            have hpred : predPath s.root p =
                some (p ++ Dir.L :: rightSpine (node la lb lc ld le lf)) := by
              simp [predPath, hsub]
            have hsubq : subAt s.root
                (p ++ Dir.L :: rightSpine (node la lb lc ld le lf)) =
                some (node ql qid qv nil qh qs) := by
              rw [subAt_append, hsub]
              simpa [subAt] using hsubq0
            simp only [eraseGo, hsub, if_pos hge, hpred,
              valueAtPath_eq hsub, valueAtPath_eq hsubq]
            set rs := rightSpine (node la lb lc ld le lf) with hrs
            set T2 : Tree :=
              setValAt (setValAt s.root p qv) (p ++ Dir.L :: rs) vv with hT2
            have hU : subAt (setValAt s.root p qv) p =
                some (node (node la lb lc ld le lf) vid qv r vh vs) :=
              subAt_setValAt_self p s.root qv hsub
            have hT2p : subAt T2 p = some (node
                (setValAt (node la lb lc ld le lf) rs vv) vid qv r vh vs) := by
              rw [hT2, subAt_setValAt_prefix, hU]
              simp [setValAt]
            have hUq : subAt (setValAt s.root p qv) (p ++ Dir.L :: rs) =
                some (node ql qid qv nil qh qs) := by
              rw [subAt_append, hU]
              simpa [subAt] using hsubq0
            have hT2q : subAt T2 (p ++ Dir.L :: rs) =
                some (node ql qid vv nil qh qs) :=
              subAt_setValAt_self _ _ vv hUq
            have hcT2 : cacheB T2 = true := by
              rw [hT2, cacheB_setValAt, cacheB_setValAt]
              exact hc
            have haT2 : avlB T2 = true := by
              rw [hT2, avlB_setValAt, avlB_setValAt]
              exact ha
            have hlt : realH (node ql qid qv nil qh qs) <
                realH (node (node la lb lc ld le lf) vid vv r vh vs) := by
              refine realH_subAt_lt (d := Dir.L) (p := rs) ?_
              simpa [subAt] using hsubq0
            have hfuel2 : realH (node ql qid vv nil qh qs) < (fuel : Int) := by
              have he : realH (node ql qid vv nil qh qs) =
                  realH (node ql qid qv nil qh qs) := rfl
              rw [he]
              push_cast at hfuel
              omega
            rw [(eraseGo_state fuel T2 _ none s.fresh (p ++ Dir.L :: rs)).1,
              (eraseGo_state fuel T2 _ none s.fresh (p ++ Dir.L :: rs)).2]
            obtain ⟨ih1, ih2, ih3, ih4, ih5⟩ :=
              ih ⟨T2, none, s.fresh⟩ (p ++ Dir.L :: rs) hT2q hcT2 haT2 hfuel2
            refine ⟨?_, ih2, ih3, ?_, ih5⟩
            · rw [ih1]
              obtain ⟨he1, he2⟩ := ctx_append p (Dir.L :: rs) T2 _ hT2p
              have he3 : ctxL T2 p = ctxL s.root p := by
                have g1 := (ctx_setValAt p (Dir.L :: rs) (setValAt s.root p qv) vv).1
                have g2 := (ctx_setValAt p [] s.root qv).1
                rw [List.append_nil] at g2
                rw [hT2, g1, g2]
              have he4 : ctxR T2 p = ctxR s.root p := by
                have g1 := (ctx_setValAt p (Dir.L :: rs) (setValAt s.root p qv) vv).2
                have g2 := (ctx_setValAt p [] s.root qv).2
                rw [List.append_nil] at g2
                rw [hT2, g1, g2]
              have he5 : ctxL (setValAt (node la lb lc ld le lf) rs vv) rs =
                  ctxL (node la lb lc ld le lf) rs := by
                have g := (ctx_setValAt rs [] (node la lb lc ld le lf) vv).1
                rwa [List.append_nil] at g
              have he6 : ctxR (setValAt (node la lb lc ld le lf) rs vv) rs =
                  ctxR (node la lb lc ld le lf) rs := by
                have g := (ctx_setValAt rs [] (node la lb lc ld le lf) vv).2
                rwa [List.append_nil] at g
              have hldec := inorder_decomp rs (node la lb lc ld le lf) _ hsubq0
              rw [he1, he2, he3, he4]
              simp only [ctxL, ctxR, he5, he6, hctxq0, hldec]
              simp [inorderP]
            · have hids : idsOf T2 = idsOf s.root := by
                rw [hT2, idsOf_setValAt, idsOf_setValAt]
              rw [hids] at ih4
              exact ih4
          · -- diff < 0 with a left child present: the right child exists too
            cases r with
            | nil =>
                exfalso
                rw [get_diff_real hcl hcr] at hge
                have h1 : (1 : Int) ≤ realH (node la lb lc ld le lf) := realH_pos
                have h2 : realH (nil : Tree) = 0 := rfl
                omega
            | node rl rid rv rr rh2 rs2 =>
                obtain ⟨qid, qv, qr, qh, qs, hsubq0, hctxq0⟩ :=
                  leftSpine_sub (node rl rid rv rr rh2 rs2) rl rid rv rr rh2 rs2 rfl
                have hsucc : succPath s.root p =
                    some (p ++ Dir.R :: leftSpine (node rl rid rv rr rh2 rs2)) := by
                  simp [succPath, hsub]
                have hsubq : subAt s.root
                    (p ++ Dir.R :: leftSpine (node rl rid rv rr rh2 rs2)) =
                    some (node nil qid qv qr qh qs) := by
                  rw [subAt_append, hsub]
                  simpa [subAt] using hsubq0
                simp only [eraseGo, hsub, if_neg hge, hsucc,
                  valueAtPath_eq hsub, valueAtPath_eq hsubq]
                set ls := leftSpine (node rl rid rv rr rh2 rs2) with hls
                set T2 : Tree :=
                  setValAt (setValAt s.root p qv) (p ++ Dir.R :: ls) vv with hT2
                have hU : subAt (setValAt s.root p qv) p =
                    some (node (node la lb lc ld le lf) vid qv
                      (node rl rid rv rr rh2 rs2) vh vs) :=
                  subAt_setValAt_self p s.root qv hsub
                have hT2p : subAt T2 p = some (node (node la lb lc ld le lf) vid qv
                    (setValAt (node rl rid rv rr rh2 rs2) ls vv) vh vs) := by
                  rw [hT2, subAt_setValAt_prefix, hU]
                  simp [setValAt]
                have hUq : subAt (setValAt s.root p qv) (p ++ Dir.R :: ls) =
                    some (node nil qid qv qr qh qs) := by
                  rw [subAt_append, hU]
                  simpa [subAt] using hsubq0
                have hT2q : subAt T2 (p ++ Dir.R :: ls) =
                    some (node nil qid vv qr qh qs) :=
                  subAt_setValAt_self _ _ vv hUq
                have hcT2 : cacheB T2 = true := by
                  rw [hT2, cacheB_setValAt, cacheB_setValAt]
                  exact hc
                have haT2 : avlB T2 = true := by
                  rw [hT2, avlB_setValAt, avlB_setValAt]
                  exact ha
                have hlt : realH (node nil qid qv qr qh qs) <
                    realH (node (node la lb lc ld le lf) vid vv
                      (node rl rid rv rr rh2 rs2) vh vs) := by
                  refine realH_subAt_lt (d := Dir.R) (p := ls) ?_
                  simpa [subAt] using hsubq0
                have hfuel2 : realH (node nil qid vv qr qh qs) < (fuel : Int) := by
                  have he : realH (node nil qid vv qr qh qs) =
                      realH (node nil qid qv qr qh qs) := rfl
                  rw [he]
                  push_cast at hfuel
                  omega
                rw [(eraseGo_state fuel T2 _ none s.fresh (p ++ Dir.R :: ls)).1,
                  (eraseGo_state fuel T2 _ none s.fresh (p ++ Dir.R :: ls)).2]
                obtain ⟨ih1, ih2, ih3, ih4, ih5⟩ :=
                  ih ⟨T2, none, s.fresh⟩ (p ++ Dir.R :: ls) hT2q hcT2 haT2 hfuel2
                refine ⟨?_, ih2, ih3, ?_, ih5⟩
                · rw [ih1]
                  obtain ⟨he1, he2⟩ := ctx_append p (Dir.R :: ls) T2 _ hT2p
                  have he3 : ctxL T2 p = ctxL s.root p := by
                    have g1 := (ctx_setValAt p (Dir.R :: ls) (setValAt s.root p qv) vv).1
                    have g2 := (ctx_setValAt p [] s.root qv).1
                    rw [List.append_nil] at g2
                    rw [hT2, g1, g2]
                  have he4 : ctxR T2 p = ctxR s.root p := by
                    have g1 := (ctx_setValAt p (Dir.R :: ls) (setValAt s.root p qv) vv).2
                    have g2 := (ctx_setValAt p [] s.root qv).2
                    rw [List.append_nil] at g2
                    rw [hT2, g1, g2]
                  have he5 : ctxL (setValAt (node rl rid rv rr rh2 rs2) ls vv) ls =
                      ctxL (node rl rid rv rr rh2 rs2) ls := by
                    have g := (ctx_setValAt ls [] (node rl rid rv rr rh2 rs2) vv).1
                    rwa [List.append_nil] at g
                  have he6 : ctxR (setValAt (node rl rid rv rr rh2 rs2) ls vv) ls =
                      ctxR (node rl rid rv rr rh2 rs2) ls := by
                    have g := (ctx_setValAt ls [] (node rl rid rv rr rh2 rs2) vv).2
                    rwa [List.append_nil] at g
                  have hrdec := inorder_decomp ls (node rl rid rv rr rh2 rs2) _ hsubq0
                  rw [he1, he2, he3, he4]
                  simp only [ctxL, ctxR, he5, he6, hctxq0, hrdec]
                  simp [inorderP]
                · have hids : idsOf T2 = idsOf s.root := by
                    rw [hT2, idsOf_setValAt, idsOf_setValAt]
                  rw [hids] at ih4
                  exact ih4

/-- Correctness of the `find_` descent on a BST: a `none` result means the
value is absent, a `some` result is the path of a node holding exactly the
searched value. -/
theorem findP_found (x : Int) : ∀ (t : Tree), bstB t = true →
    ((findP x t).1 = none → x ∉ inorder t) ∧
    (∀ p, (findP x t).1 = some p →
      ∃ l id r hh ss, subAt t p = some (node l id x r hh ss)) := by
  intro t
  induction t with
  | nil =>
      intro _
      exact ⟨fun _ => by simp, fun p hp => by simp [findP] at hp⟩
  | node l id v r hh ss ihl ihr =>
      intro hb
      rcases bstB_node.mp hb with ⟨hbl, hbr, hlv, hvr⟩
      by_cases heq : ¬ v < x ∧ ¬ x < v
      · have hxv : x = v := le_antisymm (not_lt.mp heq.1) (not_lt.mp heq.2)
        subst hxv
        constructor
        · intro hn
          rw [findP, if_pos heq] at hn
          cases hn
        · intro p hp
          rw [findP, if_pos heq] at hp
          simp only [Option.some.injEq] at hp
          subst hp
          exact ⟨l, id, r, hh, ss, rfl⟩
      · by_cases hvx : v < x
        · obtain ⟨ih1, ih2⟩ := ihr hbr
          constructor
          · intro hn
            rw [findP, if_neg heq, if_pos hvx] at hn
            simp only [Option.map_eq_none'] at hn
            rw [mem_inorder_node]
            rintro (hm | hm | hm)
            · exact absurd (lt_trans (allB_lt hlv x hm) hvx) (lt_irrefl x)
            · exact absurd (hm ▸ hvx) (lt_irrefl v)
            · exact ih1 hn hm
          · intro p hp
            rw [findP, if_neg heq, if_pos hvx] at hp
            simp only [Option.map_eq_some'] at hp
            obtain ⟨p2, hp2, rfl⟩ := hp
            obtain ⟨l2, id2, r2, h2, s2, hsub⟩ := ih2 p2 hp2
            exact ⟨l2, id2, r2, h2, s2, by simpa [subAt] using hsub⟩
        · obtain ⟨ih1, ih2⟩ := ihl hbl
          constructor
          · intro hn
            rw [findP, if_neg heq, if_neg hvx] at hn
            simp only [Option.map_eq_none'] at hn
            have hxv : x < v := by
              rcases lt_trichotomy v x with hq | hq | hq
              · exact absurd hq hvx
              · exact absurd ⟨hvx, hq ▸ lt_irrefl x⟩ heq
              · exact hq
            rw [mem_inorder_node]
            rintro (hm | hm | hm)
            · exact ih1 hn hm
            · exact absurd (hm ▸ hxv) (lt_irrefl v)
            · exact absurd (lt_trans hxv (allB_gt hvr x hm)) (lt_irrefl x)
          · intro p hp
            rw [findP, if_neg heq, if_neg hvx] at hp
            simp only [Option.map_eq_some'] at hp
            obtain ⟨p2, hp2, rfl⟩ := hp
            obtain ⟨l2, id2, r2, h2, s2, hsub⟩ := ih2 p2 hp2
            exact ⟨l2, id2, r2, h2, s2, by simpa [subAt] using hsub⟩

/-- `Set::erase` preserves the whole-state invariant, removes exactly the
erased value from the in-order sequence, and leaves the allocator alone. -/
theorem eraseS_spec (x : Int) (s : SetS) (h : InvS s) :
    InvS (eraseS x s) ∧
    inorder (eraseS x s).root = (inorder s.root).erase x ∧
    (eraseS x s).fresh = s.fresh := by
  obtain ⟨hb, hc, ha, hnd, hlt⟩ := h
  cases hf : (findP x s.root).1 with
  | none =>
      have hx : x ∉ inorder s.root := (findP_found x s.root hb).1 hf
      rw [eraseS, hf]
      exact ⟨⟨hb, hc, ha, hnd, hlt⟩, (List.erase_of_not_mem hx).symm, rfl⟩
  | some p =>
      obtain ⟨l, pid, r, shh, sss, hsub⟩ := (findP_found x s.root hb).2 p hf
      have hfuel : realH (node l pid x r shh sss) < ((get_sz s.root + 1 : Nat) : Int) := by
        have h1 := realH_subAt_le p s.root _ hsub
        have h2 := realH_le_realSz s.root
        rw [get_sz_eq hc]
        push_cast
        omega
      obtain ⟨e1, e2, e3, e4, e5⟩ :=
        eraseGo_spec (get_sz s.root + 1) s p hsub hc ha hfuel
      have hres : eraseS x s = eraseGo (get_sz s.root + 1) s p := by
        rw [eraseS, hf]
      rw [hres]
      have hdecomp := inorder_decomp p s.root _ hsub
      have hio : inorder s.root =
          (ctxL s.root p ++ inorderP l).map Prod.snd ++
            x :: (inorderP r ++ ctxR s.root p).map Prod.snd := by
        rw [inorder, hdecomp]
        simp [inorderP]
      have hxA : x ∉ (ctxL s.root p ++ inorderP l).map Prod.snd := by
        intro hmem
        have hpw : (inorder s.root).Pairwise (· < ·) := bstB_iff_pairwise.mp hb
        rw [hio] at hpw
        obtain ⟨h1, h2⟩ := List.pairwise_append.mp hpw
        exact absurd (h2.2 x hmem x (List.mem_cons_self _ _)) (lt_irrefl x)
      have herase : (inorder s.root).erase x =
          (ctxL s.root p ++ inorderP l).map Prod.snd ++
            (inorderP r ++ ctxR s.root p).map Prod.snd := by
        rw [hio, List.erase_append_right _ hxA, List.erase_cons_head]
      have he2 : inorder (eraseGo (get_sz s.root + 1) s p).root =
          (inorder s.root).erase x := by
        rw [e1, herase]
        simp [inorderP]
      refine ⟨⟨?_, e2, e3, ?_, ?_⟩, he2, e5⟩
      · refine bstB_iff_pairwise.mpr ?_
        rw [he2]
        have hpw : (inorder s.root).Pairwise (· < ·) := bstB_iff_pairwise.mp hb
        exact hpw.sublist (List.erase_sublist x (inorder s.root))
      · exact hnd.sublist e4
      · intro i hi
        rw [e5]
        exact hlt i (e4.subset hi)

/-! ## Every reachable state is well formed -/

theorem emptySet_inv : InvS emptySet := by
  refine ⟨rfl, rfl, rfl, ?_, ?_⟩ <;> simp [emptySet, idsOf, inorderP]

theorem applyOp_inv (s : SetS) (o : Op) (h : InvS s) : InvS (applyOp s o) := by
  cases o with
  | ins x => exact (insertS_spec x s h).1
  | del x => exact (eraseS_spec x s h).1

theorem foldl_inv : ∀ (ops : List Op) (s : SetS), InvS s → InvS (ops.foldl applyOp s) := by
  intro ops
  induction ops with
  | nil => intro s h; exact h
  | cons o rest ih =>
      intro s h
      exact ih (applyOp s o) (applyOp_inv s o h)

theorem reachable_inv {s : SetS} (h : ReachableS s) : InvS s := by
  obtain ⟨ops, rfl⟩ := h
  exact foldl_inv ops emptySet emptySet_inv

/-! ## Looking nodes up by identity -/

theorem valueAtId_none_of_not_mem : ∀ (t : Tree) (i : Nat), i ∉ idsOf t →
    valueAtId t i = none := by
  intro t
  induction t with
  | nil => intro i _; rfl
  | node l id v r hh ss ihl ihr =>
      intro i hi
      simp only [idsOf, inorderP, List.map_append, List.map_cons, List.mem_append,
        List.mem_cons, not_or] at hi
      rw [valueAtId, if_neg (fun hcon => hi.2.1 hcon.symm),
        ihl i (by simpa [idsOf] using hi.1), ihr i (by simpa [idsOf] using hi.2.2)]

theorem valueAtId_of_mem : ∀ (t : Tree) (i : Nat) (y : Int), (idsOf t).Nodup →
    (i, y) ∈ inorderP t → valueAtId t i = some y := by
  intro t
  induction t with
  | nil => intro i y _ hm; simp [inorderP] at hm
  | node l id v r hh ss ihl ihr =>
      intro i y hnd hm
      simp only [idsOf, inorderP, List.map_append, List.map_cons] at hnd
      rw [List.nodup_append] at hnd
      obtain ⟨hndl, hndr2, hdis⟩ := hnd
      rw [List.nodup_cons] at hndr2
      replace hdis := fun {a} h1 h2 => hdis (a := a) h1 h2
      simp only [inorderP, List.mem_append, List.mem_cons] at hm
      rcases hm with hm | hm | hm
      · have hil : i ∈ (inorderP l).map Prod.fst := List.mem_map_of_mem Prod.fst hm
        have hne : ¬ id = i := by
          intro hcon
          subst hcon
          exact hdis hil (List.mem_cons_self _ _)
        rw [valueAtId, if_neg hne, ihl i y (by simpa [idsOf] using hndl) hm]
      · rw [Prod.mk.injEq] at hm
        obtain ⟨h1, h2⟩ := hm
        subst h1
        subst h2
        rw [valueAtId, if_pos rfl]
      · have hir : i ∈ (inorderP r).map Prod.fst :=
          List.mem_map_of_mem Prod.fst hm
        have hne : ¬ id = i := by
          intro hcon
          subst hcon
          exact hndr2.1 hir
        have hnl : i ∉ idsOf l := by
          intro hcon
          exact hdis (by simpa [idsOf] using hcon) (List.mem_cons_of_mem _ hir)
        rw [valueAtId, if_neg hne, valueAtId_none_of_not_mem l i hnl,
          ihr i y (by simpa [idsOf] using hndr2.2) hm]

/-! ## The in-order successor walk -/

theorem upFromRight_cons (d : Dir) (p : List Dir) :
    upFromRight (d :: p) = match upFromRight p with
      | some q => some (d :: q)
      | none => if d = Dir.L then some [] else none := by
  unfold upFromRight
  rw [List.reverse_cons, List.dropWhile_append]
  cases hdw : p.reverse.dropWhile (fun x => decide (x = Dir.R)) with
  | nil =>
      simp only [List.isEmpty_nil, if_true]
      cases d with
      | L => simp [List.dropWhile]
      | R => simp [List.dropWhile]
  | cons c rest =>
      simp only [List.isEmpty_cons, if_false]
      simp

theorem upFromRight_ctxR : ∀ (p : List Dir) (t st : Tree), subAt t p = some st →
    (upFromRight p = none → ctxR t p = []) ∧
    (∀ q, upFromRight p = some q → ∃ ql qid qv qr c e,
      subAt t q = some (node ql qid qv qr c e) ∧ (ctxR t p).head? = some (qid, qv)) := by
  intro p
  induction p with
  | nil =>
      intro t st h
      constructor
      · intro _
        cases t <;> rfl
      · intro q hq
        simp [upFromRight, List.dropWhile] at hq
  | cons d pp ih =>
      intro t st h
      cases t with
      | nil => simp [subAt] at h
      | node l id v r hh ss =>
          cases d with
          | L =>
              simp only [subAt] at h
              obtain ⟨ih1, ih2⟩ := ih l st h
              rw [upFromRight_cons]
              cases hup : upFromRight pp with
              | none =>
                  constructor
                  · intro hcon
                    simp at hcon
                  · intro q hq
                    simp at hq
                    subst hq
                    refine ⟨l, id, v, r, hh, ss, rfl, ?_⟩
                    have := ih1 hup
                    simp only [ctxR, this, List.nil_append, List.head?_cons]
              | some q0 =>
                  constructor
                  · intro hcon
                    simp at hcon
                  · intro q hq
                    simp only [Option.some.injEq] at hq
                    subst hq
                    obtain ⟨ql, qid, qv, qr, c, e, hsub, hhead⟩ := ih2 q0 hup
                    refine ⟨ql, qid, qv, qr, c, e, by simpa [subAt] using hsub, ?_⟩
                    simp only [ctxR]
                    cases hcx : ctxR l pp with
                    | nil => rw [hcx] at hhead; simp at hhead
                    | cons a rest =>
                        rw [hcx] at hhead
                        simpa using hhead
          | R =>
              simp only [subAt] at h
              obtain ⟨ih1, ih2⟩ := ih r st h
              rw [upFromRight_cons]
              cases hup : upFromRight pp with
              | none =>
                  constructor
                  · intro _
                    simp only [ctxR]
                    exact ih1 hup
                  · intro q hq
                    simp at hq
              | some q0 =>
                  constructor
                  · intro hcon
                    simp at hcon
                  · intro q hq
                    simp only [Option.some.injEq] at hq
                    subst hq
                    obtain ⟨ql, qid, qv, qr, c, e, hsub, hhead⟩ := ih2 q0 hup
                    exact ⟨ql, qid, qv, qr, c, e, by simpa [subAt] using hsub, hhead⟩

/-- `get_next` really is the in-order successor: it returns the node whose
pair heads the part of the in-order sequence strictly after the node at
`p`, and null exactly when that part is empty. -/
theorem succPath_spec : ∀ (p : List Dir) (t pl : Tree) (pid : Nat) (pv : Int)
    (pr : Tree) (a : Int) (b : Nat), subAt t p = some (node pl pid pv pr a b) →
    (succPath t p = none → inorderP pr ++ ctxR t p = []) ∧
    (∀ q, succPath t p = some q → ∃ ql qid qv qr c e,
      subAt t q = some (node ql qid qv qr c e) ∧
      (inorderP pr ++ ctxR t p).head? = some (qid, qv)) := by
  intro p t pl pid pv pr a b h
  cases hpr : pr with
  | nil =>
      have hs : succPath t p = upFromRight p := by
        rw [succPath, h, hpr]
      obtain ⟨ih1, ih2⟩ := upFromRight_ctxR p t _ h
      rw [hs]
      constructor
      · intro hq
        simp only [inorderP, List.nil_append]
        exact ih1 hq
      · intro q hq
        obtain ⟨ql, qid, qv, qr, c, e, hsub, hhead⟩ := ih2 q hq
        exact ⟨ql, qid, qv, qr, c, e, hsub, by simpa [inorderP] using hhead⟩
  | node prl prid prv prr prh prs =>
      subst hpr
      have hs : succPath t p =
          some (p ++ Dir.R :: leftSpine (node prl prid prv prr prh prs)) := by
        rw [succPath, h]
      obtain ⟨qid, qv, qr, qh, qs, hsub0, hctx0⟩ :=
        leftSpine_sub (node prl prid prv prr prh prs) prl prid prv prr prh prs rfl
      rw [hs]
      constructor
      · intro hq
        cases hq
      · intro q hq
        simp only [Option.some.injEq] at hq
        subst hq
        refine ⟨nil, qid, qv, qr, qh, qs, ?_, ?_⟩
        · rw [subAt_append, h]
          simpa [subAt] using hsub0
        · have hdec := inorder_decomp (leftSpine (node prl prid prv prr prh prs))
            (node prl prid prv prr prh prs) _ hsub0
          rw [hdec, hctx0]
          simp [inorderP]

/-! ## The failed-search landing node -/

theorem mem_of_subAt {t : Tree} {p : List Dir} {l : Tree} {id : Nat} {v : Int}
    {r : Tree} {c : Int} {e : Nat} (h : subAt t p = some (node l id v r c e)) :
    (id, v) ∈ inorderP t := by
  rw [inorder_decomp p t _ h]
  simp [inorderP]

/-- When `find_` fails, the last node it visited (the one `lower_bound`
inspects) is either the least tree element above the probe (first
disjunct: everything below it is below the probe, and its left child —
where the probe would live — is empty) or the greatest tree element below
the probe (second disjunct, mirrored). -/
theorem findP_prev_spec (x : Int) : ∀ (t : Tree), bstB t = true →
    (findP x t).1 = none →
    ((findP x t).2 = none → t = nil) ∧
    (∀ p, (findP x t).2 = some p → ∃ pl pid pv pr c e,
      subAt t p = some (node pl pid pv pr c e) ∧
      ((x < pv ∧ pl = nil ∧ ∀ z ∈ inorder t, z < pv → z < x) ∨
       (pv < x ∧ pr = nil ∧ ∀ z ∈ inorder t, pv < z → x < z))) := by
  intro t
  induction t with
  | nil =>
      intro _ _
      exact ⟨fun _ => rfl, fun p hp => by simp [findP] at hp⟩
  | node l id v r hh ss ihl ihr =>
      intro hb h1
      rcases bstB_node.mp hb with ⟨hbl, hbr, hlv, hvr⟩
      by_cases heq : ¬ v < x ∧ ¬ x < v
      · rw [findP, if_pos heq] at h1
        cases h1
      · by_cases hvx : v < x
        · rw [findP, if_neg heq, if_pos hvx] at h1 ⊢
          simp only [Option.map_eq_none'] at h1
          obtain ⟨ih1, ih2⟩ := ihr hbr h1
          constructor
          · intro hcon
            exact Option.noConfusion hcon
          · intro p hp
            simp only [Option.some.injEq] at hp
            cases hq2 : (findP x r).2 with
            | none =>
                rw [hq2] at hp
                subst hp
                have hrnil := ih1 hq2
                subst hrnil
                refine ⟨l, id, v, nil, hh, ss, rfl, Or.inr ⟨hvx, rfl, ?_⟩⟩
                intro z hz hvz
                rw [mem_inorder_node] at hz
                rcases hz with hm | hm | hm
                · exact absurd (lt_trans (allB_lt hlv z hm) hvz) (lt_irrefl z)
                · subst hm
                  exact absurd hvz (lt_irrefl z)
                · simp at hm
            | some w =>
                rw [hq2] at hp
                subst hp
                obtain ⟨pl, pid, pv, pr, c, e, hsub, hdi⟩ := ih2 w hq2
                have hsub2 : subAt (node l id v r hh ss) (Dir.R :: w) =
                    some (node pl pid pv pr c e) := by simpa [subAt] using hsub
                refine ⟨pl, pid, pv, pr, c, e, hsub2, ?_⟩
                have hpvr : pv ∈ inorder r :=
                  List.mem_map_of_mem Prod.snd (mem_of_subAt hsub)
                have hvpv : v < pv := allB_gt hvr pv hpvr
                rcases hdi with ⟨h1a, h1b, h1c⟩ | ⟨h2a, h2b, h2c⟩
                · refine Or.inl ⟨h1a, h1b, ?_⟩
                  intro z hz hzpv
                  rw [mem_inorder_node] at hz
                  rcases hz with hm | hm | hm
                  · exact lt_trans (allB_lt hlv z hm) hvx
                  · subst hm
                    exact hvx
                  · exact h1c z hm hzpv
                · refine Or.inr ⟨h2a, h2b, ?_⟩
                  intro z hz hpvz
                  rw [mem_inorder_node] at hz
                  rcases hz with hm | hm | hm
                  · exact absurd (lt_trans (lt_trans hpvz (allB_lt hlv z hm)) hvpv)
                      (lt_irrefl pv)
                  · subst hm
                    exact absurd (lt_trans hpvz hvpv) (lt_irrefl pv)
                  · exact h2c z hm hpvz
        · have hxv : x < v := by
            rcases lt_trichotomy v x with hq | hq | hq
            · exact absurd hq hvx
            · exact absurd ⟨hvx, hq ▸ lt_irrefl x⟩ heq
            · exact hq
          rw [findP, if_neg heq, if_neg hvx] at h1 ⊢
          simp only [Option.map_eq_none'] at h1
          obtain ⟨ih1, ih2⟩ := ihl hbl h1
          constructor
          · intro hcon
            exact Option.noConfusion hcon
          · intro p hp
            simp only [Option.some.injEq] at hp
            cases hq2 : (findP x l).2 with
            | none =>
                rw [hq2] at hp
                subst hp
                have hlnil := ih1 hq2
                subst hlnil
                refine ⟨nil, id, v, r, hh, ss, rfl, Or.inl ⟨hxv, rfl, ?_⟩⟩
                intro z hz hzv
                rw [mem_inorder_node] at hz
                rcases hz with hm | hm | hm
                · simp at hm
                · subst hm
                  exact absurd hzv (lt_irrefl z)
                · exact absurd (lt_trans (allB_gt hvr z hm) hzv) (lt_irrefl v)
            | some w =>
                rw [hq2] at hp
                subst hp
                obtain ⟨pl, pid, pv, pr, c, e, hsub, hdi⟩ := ih2 w hq2
                have hsub2 : subAt (node l id v r hh ss) (Dir.L :: w) =
                    some (node pl pid pv pr c e) := by simpa [subAt] using hsub
                refine ⟨pl, pid, pv, pr, c, e, hsub2, ?_⟩
                have hpvl : pv ∈ inorder l :=
                  List.mem_map_of_mem Prod.snd (mem_of_subAt hsub)
                have hpvv : pv < v := allB_lt hlv pv hpvl
                rcases hdi with ⟨h1a, h1b, h1c⟩ | ⟨h2a, h2b, h2c⟩
                · refine Or.inl ⟨h1a, h1b, ?_⟩
                  intro z hz hzpv
                  rw [mem_inorder_node] at hz
                  rcases hz with hm | hm | hm
                  · exact h1c z hm hzpv
                  · subst hm
                    exact absurd (lt_trans hzpv hpvv) (lt_irrefl z)
                  · exact absurd
                      (lt_trans (lt_trans hzpv hpvv) (allB_gt hvr z hm)) (lt_irrefl z)
                · refine Or.inr ⟨h2a, h2b, ?_⟩
                  intro z hz hpvz
                  rw [mem_inorder_node] at hz
                  rcases hz with hm | hm | hm
                  · exact h2c z hm hpvz
                  · subst hm
                    exact hxv
                  · exact lt_trans hxv (allB_gt hvr z hm)

/-! ## List-level round trip of insert then erase -/

/-- Erasing `x` from the value projection of a sorted insert of `x` into a
pair list that did not contain `x` gives back the original values. -/
theorem erase_snd_insP {x : Int} {i : Nat} : ∀ {P : List (Nat × Int)},
    x ∉ P.map Prod.snd →
    ((insP x i P).map Prod.snd).erase x = P.map Prod.snd := by
  intro P
  induction P with
  | nil =>
      intro _
      simp [insP]
  | cons p rest ih =>
      intro hx
      obtain ⟨j, a⟩ := p
      simp only [List.map_cons, List.mem_cons, not_or] at hx
      obtain ⟨hax, hrest⟩ := hx
      by_cases h1 : a < x
      · rw [insP, if_pos h1]
        simp only [List.map_cons]
        rw [List.erase_cons_tail, ih hrest]
        simp only [beq_iff_eq]
        exact fun hcon => hax hcon.symm
      · by_cases h2 : x < a
        · rw [insP, if_neg h1, if_pos h2]
          simp only [List.map_cons]
          rw [List.erase_cons_head]
        · exact absurd (le_antisymm (not_lt.mp h1) (not_lt.mp h2)) hax

/-! ## The claims about `Set` that hold as written -/

/-- C4: in every state reachable by a sequence of `insert`/`erase`
operations, every node of the tree satisfies
`|height(left) - height(right)| ≤ 1` where the heights are recomputed
recursively (`realH`), independent of the cached fields — exactly the
`avlB` checker. -/
theorem C4_avl_balance (ops : List Op) : avlB (runOps ops).root = true :=
  (foldl_inv ops emptySet emptySet_inv).2.2.1

/-- C5: after any sequence of inserts the in-order traversal (the
`begin()`-to-`end()` iteration order) is strictly increasing — no
duplicates, no inversions — and the `{2,2,2,1}` scenario gives size `2`
and sequence `[1, 2]`. -/
theorem C5_strictly_increasing :
    (∀ xs : List Int, (inorder (insertList xs).root).Pairwise (· < ·)) ∧
    sizeS (insertList [2, 2, 2, 1]) = 2 ∧
    inorder (insertList [2, 2, 2, 1]).root = [1, 2] := by
  refine ⟨?_, by decide, by decide⟩
  intro xs
  exact bstB_iff_pairwise.mp (foldl_inv (xs.map Op.ins) emptySet emptySet_inv).1

/-- C6: in every reachable state every node's cached size equals the true
number of nodes of its subtree (`sizeCacheB`), and `size()` — the cached
size of the root — equals both the recomputed node count and the number of
elements. -/
theorem C6_size_cache (ops : List Op) :
    sizeCacheB (runOps ops).root = true ∧
    sizeS (runOps ops) = realSz (runOps ops).root ∧
    sizeS (runOps ops) = (inorder (runOps ops).root).length := by
  obtain ⟨hb, hc, ha, hnd, hlt⟩ := foldl_inv ops emptySet emptySet_inv
  refine ⟨cacheB_sizeCacheB hc, get_sz_eq hc, ?_⟩
  show get_sz _ = _
  simp only [runOps]
  rw [get_sz_eq hc, inorder, List.length_map, length_inorderP]

/-! ## The claims about `Set` that fail as written -/

/-- C1 fails on the code: after `insert(1); insert(2); erase(1)` the set
still holds one element (`size() = 1`, in-order sequence `[2]`), yet the
cached minimum pointer is null, so `begin() = end()` on a non-empty set
and `begin()` does not reference the minimum.  The claimed update of the
cached minimum to the erased minimum's successor does not survive the
recursive value-swap chain of `erase_`, which re-derives `most_left` from
the already-modified tree on every level. -/
theorem C1_min_cache_bug :
    runOps [Op.ins 1, Op.ins 2, Op.del 1] =
      eraseS 1 (insertS 2 (insertS 1 emptySet)) ∧
    sizeS (runOps [Op.ins 1, Op.ins 2, Op.del 1]) = 1 ∧
    inorder (runOps [Op.ins 1, Op.ins 2, Op.del 1]).root = [2] ∧
    beginS (runOps [Op.ins 1, Op.ins 2, Op.del 1]) =
      endS (runOps [Op.ins 1, Op.ins 2, Op.del 1]) := by
  refine ⟨by decide, by decide, by decide, by decide⟩

/-- C3 as stated is false: on a set already containing `x`, `insert(x)` is
a no-op (duplicate), but the subsequent `erase(x)` removes `x`, so the
sequence does not return to the pre-insert one.  Concrete run: the set
`{1}`, insert `1` then erase `1` leaves `[]`, not `[1]`. -/
theorem C3_roundtrip_cex :
    inorder (runOps [Op.ins 1]).root = [1] ∧
    inorder (eraseS 1 (insertS 1 (runOps [Op.ins 1]))).root = [] := by
  refine ⟨by decide, by decide⟩

/-- C3, amended: the round trip does hold whenever `x` is *not* already in
the set — inserting a fresh `x` and erasing it returns the in-order
sequence to exactly what it was. -/
theorem C3_roundtrip (ops : List Op) (x : Int)
    (hx : x ∉ inorder (runOps ops).root) :
    inorder (eraseS x (insertS x (runOps ops))).root =
      inorder (runOps ops).root := by
  have hinv := foldl_inv ops emptySet emptySet_inv
  obtain ⟨hinv2, hio, _⟩ := insertS_spec x (runOps ops) hinv
  obtain ⟨_, hio2, _⟩ := eraseS_spec x (insertS x (runOps ops)) hinv2
  rw [hio2]
  simp only [inorder] at hx ⊢
  rw [hio]
  exact erase_snd_insP hx

theorem C3_roundtrip_witness :
    (3 : Int) ∉ inorder (runOps [Op.ins 5]).root ∧
    inorder (eraseS 3 (insertS 3 (runOps [Op.ins 5]))).root =
      inorder (runOps [Op.ins 5]).root :=
  ⟨by decide, C3_roundtrip [Op.ins 5] 3 (by decide)⟩

/-! ## Iterator stability across `erase` -/

/-- The node at a path exists and is a leaf (both children null). -/
def isLeafP (t : Tree) (p : List Dir) : Bool :=
  match subAt t p with
  | some (node nil _ _ nil _ _) => true
  | _ => false

/-- C2 as stated is false: erasing `2` from the set built by
`insert 2; insert 1; insert 3` destroys the *node* that held `1` (identity
`1`): `erase_` swaps the doomed value into the neighbour's node and
physically unlinks that neighbour, so an iterator held on `1` — a value
different from the erased `2` — references freed memory afterwards. -/
theorem C2_iterator_cex :
    findS 1 (runOps [Op.ins 2, Op.ins 1, Op.ins 3]) = some 1 ∧
    (1 : Int) ∈ inorder (eraseS 2 (runOps [Op.ins 2, Op.ins 1, Op.ins 3])).root ∧
    valueAtId (eraseS 2 (runOps [Op.ins 2, Op.ins 1, Op.ins 3])).root 1 = none := by
  refine ⟨by decide, by decide, by decide⟩

/-- C2, amended: when the node holding the erased value is a *leaf*,
`erase_` unlinks only that node, so every other node survives with its
identity and value intact — an iterator to any other element remains valid
and still dereferences to the same value. -/
theorem C2_iterator_leaf (ops : List Op) (x : Int) (p : List Dir)
    (hf : (findP x (runOps ops).root).1 = some p)
    (hleaf : isLeafP (runOps ops).root p = true) :
    ∀ i : Nat, ∀ y : Int, (i, y) ∈ inorderP (runOps ops).root → y ≠ x →
      (i, y) ∈ inorderP (eraseS x (runOps ops)).root ∧
      valueAtId (eraseS x (runOps ops)).root i = some y := by
  obtain ⟨hb, hc, ha, hnd, hlt⟩ := foldl_inv ops emptySet emptySet_inv
  replace hb : bstB (runOps ops).root = true := hb
  replace hc : cacheB (runOps ops).root = true := hc
  replace ha : avlB (runOps ops).root = true := ha
  replace hnd : (idsOf (runOps ops).root).Nodup := hnd
  intro i y hm hyx
  obtain ⟨l, pid, r, phh, pss, hsub⟩ := (findP_found x _ hb).2 p hf
  cases l with
  | node a b c d e f =>
      simp [isLeafP, hsub] at hleaf
  | nil =>
  cases r with
  | node a b c d e f =>
      simp [isLeafP, hsub] at hleaf
  | nil =>
  have hres : eraseS x (runOps ops) = eraseGo (get_sz (runOps ops).root + 1) (runOps ops) p := by
    rw [eraseS, hf]
  have hdecomp := inorder_decomp p (runOps ops).root _ hsub
  cases p with
  | nil =>
      have hroot : (runOps ops).root = node nil pid x nil phh pss := by
        simpa [subAt] using hsub
      rw [hroot] at hm
      simp only [inorderP, List.append_nil, List.nil_append, List.mem_singleton] at hm
      rw [Prod.mk.injEq] at hm
      exact absurd hm.2 hyx
  | cons d pp =>
      obtain ⟨hio, hc2, ha2, _, _⟩ := eraseLeafAt_spec (d :: pp) (runOps ops).root hsub hc ha
      rw [hres]
      simp only [eraseGo, hsub]
      have hmid : inorderP (node (nil : Tree) pid x nil phh pss) = [(pid, x)] := by
        simp [inorderP]
      rw [hdecomp, hmid] at hm
      have hm2 : (i, y) ∈ ctxL (runOps ops).root (d :: pp) ++
          ctxR (runOps ops).root (d :: pp) := by
        rcases List.mem_append.mp hm with hmm | hmm
        · rcases List.mem_append.mp hmm with hmm2 | hmm2
          · exact List.mem_append.mpr (Or.inl hmm2)
          · rw [List.mem_singleton, Prod.mk.injEq] at hmm2
            exact absurd hmm2.2 hyx
        · exact List.mem_append.mpr (Or.inr hmm)
      have hnd2 : (idsOf (eraseLeafAt (runOps ops).root (d :: pp)).1).Nodup := by
        refine List.Nodup.sublist ?_ hnd
        simp only [idsOf, hio, hdecomp, hmid, List.map_append, List.map_cons,
          List.map_nil, List.append_assoc]
        refine List.Sublist.append (List.Sublist.refl _) ?_
        exact List.Sublist.cons _ (List.Sublist.refl _)
      refine ⟨by rw [hio]; exact hm2, valueAtId_of_mem _ i y hnd2 (by rw [hio]; exact hm2)⟩

theorem C2_iterator_leaf_witness :
    (findP 1 (runOps [Op.ins 2, Op.ins 1, Op.ins 3]).root).1 = some [Dir.L] ∧
    isLeafP (runOps [Op.ins 2, Op.ins 1, Op.ins 3]).root [Dir.L] = true ∧
    ((0, 2) ∈ inorderP (eraseS 1 (runOps [Op.ins 2, Op.ins 1, Op.ins 3])).root ∧
      valueAtId (eraseS 1 (runOps [Op.ins 2, Op.ins 1, Op.ins 3])).root 0 = some 2) :=
  ⟨by decide, by decide,
    C2_iterator_leaf [Op.ins 2, Op.ins 1, Op.ins 3] 1 [Dir.L] (by decide) (by decide)
      0 2 (by decide) (by decide)⟩

/-! ## `lower_bound` -/

/-- `find?` skips a prefix none of whose elements satisfy the probe. -/
theorem find?_prefix_skip {x : Int} : ∀ {A B : List Int},
    (∀ z ∈ A, ¬ x < z) →
    (A ++ B).find? (fun y => decide (x < y)) =
      B.find? (fun y => decide (x < y)) := by
  intro A
  induction A with
  | nil => intro B _; rfl
  | cons a rest ih =>
      intro B h
      have ha : ¬ x < a := h a (List.mem_cons_self a rest)
      rw [List.cons_append, List.find?_cons_of_neg,
        ih (fun z hz => h z (List.mem_cons_of_mem a hz))]
      simpa using ha

/-- C7: `lower_bound(x)` coincides with `find(x)` when `x` is in the set
(and is then a real iterator, not `end()`); when `x` is absent it returns
the node holding the first in-order element above `x` — the smallest
element greater than `x` — and `end()` exactly when there is none. -/
theorem C7_lower_bound (ops : List Op) (x : Int) :
    (x ∈ inorder (runOps ops).root →
       lowerBoundS x (runOps ops) = findS x (runOps ops) ∧
       findS x (runOps ops) ≠ none) ∧
    (x ∉ inorder (runOps ops).root →
       ((inorder (runOps ops).root).find? (fun y => decide (x < y)) = none →
          lowerBoundS x (runOps ops) = none) ∧
       (∀ y : Int,
          (inorder (runOps ops).root).find? (fun y => decide (x < y)) = some y →
          ∃ i : Nat, lowerBoundS x (runOps ops) = some i ∧
            valueAtId (runOps ops).root i = some y)) := by
  obtain ⟨hb, hc, ha, hnd, hlt⟩ := foldl_inv ops emptySet emptySet_inv
  replace hb : bstB (runOps ops).root = true := hb
  replace hnd : (idsOf (runOps ops).root).Nodup := hnd
  constructor
  · intro hx
    cases hf : (findP x (runOps ops).root).1 with
    | none => exact absurd hx ((findP_found x _ hb).1 hf)
    | some p =>
        obtain ⟨l, pid, r, phh, pss, hsub⟩ := (findP_found x _ hb).2 p hf
        have h1 : findS x (runOps ops) = some pid := by
          simp only [findS, hf]
          exact idAtPath_eq hsub
        have h2 : lowerBoundS x (runOps ops) = some pid := by
          simp only [lowerBoundS, hf]
          exact idAtPath_eq hsub
        rw [h1, h2]
        exact ⟨rfl, fun hcon => Option.noConfusion hcon⟩
  · intro hx
    cases hf : (findP x (runOps ops).root).1 with
    | some p =>
        obtain ⟨l, pid, r, phh, pss, hsub⟩ := (findP_found x _ hb).2 p hf
        exact absurd (List.mem_map_of_mem Prod.snd (mem_of_subAt hsub)) hx
    | none =>
        obtain ⟨hp2a, hp2b⟩ := findP_prev_spec x (runOps ops).root hb hf
        cases hf2 : (findP x (runOps ops).root).2 with
        | none =>
            have hnil := hp2a hf2
            constructor
            · intro _
              simp only [lowerBoundS, hf, hf2]
            · intro y hy
              rw [hnil] at hy
              simp at hy
        | some p =>
            obtain ⟨pl, pid, pv, pr, c, e, hsub, hdi⟩ := hp2b p hf2
            have hvp := valueAtPath_eq hsub
            have hdec := inorder_decomp p (runOps ops).root _ hsub
            have hpw : (inorder (runOps ops).root).Pairwise (· < ·) :=
              bstB_iff_pairwise.mp hb
            rcases hdi with ⟨hxpv, hplnil, hbelow⟩ | ⟨hpvx, hprnil, habove⟩
            · have hlb : lowerBoundS x (runOps ops) = some pid := by
                simp only [lowerBoundS, hf, hf2, hvp, if_pos hxpv]
                exact idAtPath_eq hsub
              have hL : inorder (runOps ops).root =
                  (ctxL (runOps ops).root p).map Prod.snd ++
                    pv :: (inorderP pr ++ ctxR (runOps ops).root p).map Prod.snd := by
                rw [inorder, hdec, hplnil]
                simp [inorderP]
              have hpre : ∀ z ∈ (ctxL (runOps ops).root p).map Prod.snd, ¬ x < z := by
                intro z hz
                have hz2 : z ∈ inorder (runOps ops).root := by
                  rw [hL]
                  exact List.mem_append.mpr (Or.inl hz)
                have hzpv : z < pv := by
                  rw [hL] at hpw
                  exact (List.pairwise_append.mp hpw).2.2 z hz pv
                    (List.mem_cons_self _ _)
                exact not_lt.mpr (le_of_lt (hbelow z hz2 hzpv))
              have hfind : (inorder (runOps ops).root).find?
                  (fun y => decide (x < y)) = some pv := by
                rw [hL, find?_prefix_skip hpre, List.find?_cons_of_pos]
                simpa using hxpv
              constructor
              · intro hcon
                rw [hfind] at hcon
                exact Option.noConfusion hcon
              · intro y hy
                rw [hfind] at hy
                injection hy with hy
                subst hy
                exact ⟨pid, hlb, valueAtId_of_mem _ pid pv hnd (mem_of_subAt hsub)⟩
            · have hnlt : ¬ x < pv := not_lt.mpr (le_of_lt hpvx)
              have hL : inorder (runOps ops).root =
                  ((ctxL (runOps ops).root p ++ inorderP pl).map Prod.snd ++ [pv]) ++
                    (ctxR (runOps ops).root p).map Prod.snd := by
                rw [inorder, hdec, hprnil]
                simp [inorderP]
              have hpre : ∀ z ∈ (ctxL (runOps ops).root p ++
                  inorderP pl).map Prod.snd ++ [pv], ¬ x < z := by
                intro z hz
                rcases List.mem_append.mp hz with hz1 | hz1
                · have hzpv : z < pv := by
                    rw [hL] at hpw
                    have h1 := (List.pairwise_append.mp hpw).1
                    exact (List.pairwise_append.mp h1).2.2 z hz1 pv
                      (List.mem_singleton.mpr rfl)
                  exact not_lt.mpr (le_of_lt (lt_trans hzpv hpvx))
                · rw [List.mem_singleton] at hz1
                  subst hz1
                  exact hnlt
              have hfind : (inorder (runOps ops).root).find?
                  (fun y => decide (x < y)) =
                  ((ctxR (runOps ops).root p).map Prod.snd).find?
                    (fun y => decide (x < y)) := by
                rw [hL, find?_prefix_skip hpre]
              have habv : ∀ z ∈ (ctxR (runOps ops).root p).map Prod.snd, x < z := by
                intro z hz
                have hz2 : z ∈ inorder (runOps ops).root := by
                  rw [hL]
                  exact List.mem_append.mpr (Or.inr hz)
                have hpvz : pv < z := by
                  rw [hL] at hpw
                  exact (List.pairwise_append.mp hpw).2.2 pv
                    (List.mem_append.mpr (Or.inr (List.mem_singleton.mpr rfl))) z hz
                exact habove z hz2 hpvz
              obtain ⟨hsp1, hsp2⟩ :=
                succPath_spec p (runOps ops).root pl pid pv pr c e hsub
              cases hsp : succPath (runOps ops).root p with
              | none =>
                  have hctxnil : inorderP pr ++ ctxR (runOps ops).root p = [] :=
                    hsp1 hsp
                  have hctxR : ctxR (runOps ops).root p = [] :=
                    (List.append_eq_nil.mp hctxnil).2
                  have hlb : lowerBoundS x (runOps ops) = none := by
                    simp only [lowerBoundS, hf, hf2, hvp, if_neg hnlt, hsp]
                  constructor
                  · intro _
                    exact hlb
                  · intro y hy
                    rw [hfind, hctxR] at hy
                    simp at hy
              | some q =>
                  obtain ⟨ql, qid, qv, qr, c2, e2, hsubq, hhead⟩ := hsp2 q hsp
                  rw [hprnil] at hhead
                  cases hcx : ctxR (runOps ops).root p with
                  | nil =>
                      rw [hcx] at hhead
                      simp [inorderP] at hhead
                  | cons a rest =>
                      rw [hcx] at hhead
                      simp only [inorderP, List.nil_append, List.head?_cons,
                        Option.some.injEq] at hhead
                      subst hhead
                      have hxa : x < qv := by
                        refine habv qv ?_
                        rw [hcx]
                        simp
                      have hfind2 : (inorder (runOps ops).root).find?
                          (fun y => decide (x < y)) = some qv := by
                        rw [hfind, hcx]
                        simp only [List.map_cons]
                        rw [List.find?_cons_of_pos]
                        simpa using hxa
                      have hlb : lowerBoundS x (runOps ops) = some qid := by
                        simp only [lowerBoundS, hf, hf2, hvp, if_neg hnlt, hsp]
                        exact idAtPath_eq hsubq
                      constructor
                      · intro hcon
                        rw [hfind2] at hcon
                        exact Option.noConfusion hcon
                      · intro y hy
                        rw [hfind2] at hy
                        injection hy with hy
                        subst hy
                        exact ⟨qid, hlb,
                          valueAtId_of_mem _ qid qv hnd (mem_of_subAt hsubq)⟩


end AvlSet

/-! # The chained `HashMap` (src/hashmap.h)

`HashMap<KeyType, ValueType, Hash>` keeps all pairs in one doubly linked
`std::list data_`, grouped into contiguous bucket segments, and a vector
`borders_` of list iterators: `borders_[h]` points at the first element of
bucket `h` (null for an empty bucket).  We instantiate `KeyType = ValueType
= long long` (`Int`) and embed the hasher as `Int.natAbs`.

The embedding:
  * the list is a `List (Int × Int)` in traversal order;
  * a stored border iterator is the *index* of the node it points at
    (`none` = the null iterator).  `std::list` iterators are stable, so an
    insertion at position `b` leaves an iterator to the node at `j`
    pointing at what is now position `j + 1` when `b ≤ j` — the index
    translation written out in `insert_it` below — and symmetrically an
    erasure shifts the indices above it down;
  * a *returned* iterator (from `find`/`insert_it`, immediately
    dereferenced by `at`/`operator[]`) is modelled as the pair it points
    at;
  * `at` throws `std::out_of_range("")`: `Except.error ""`. -/

namespace HMap

/-- One map state: `size_`, `capacity_`, `borders_`, `data_`
(source lines 297-302); the hasher is fixed. -/
structure HM where
  size_ : Nat
  capacity_ : Nat
  borders_ : List (Option Nat)
  data_ : List (Int × Int)
deriving DecidableEq, Repr

/-- `kInitCapacity_ = (1 << 10)` (source line 16). -/
def kInitCapacity_ : Nat := 1024

/-- `local_hash` (source lines 304-306): `hasher_(value) % capacity_`
with `std::hash` on a signed integer embedded as `Int.natAbs`. -/
def local_hash (cap : Nat) (k : Int) : Nat := k.natAbs % cap

/-- The bucket walk of `find` (source lines 84-96): from the border, while
the element's hash is still `h`, compare keys; the returned iterator is
the element it points at. -/
def findWalk (cap : Nat) (k : Int) (h : Nat) : List (Int × Int) → Option (Int × Int)
  | [] => none
  | (a, w) :: rest =>
      if local_hash cap a = h then
        if a = k then some (a, w) else findWalk cap k h rest
      else none

/-- `find(key)` (source lines 84-96): `none` is the end iterator. -/
def find (m : HM) (k : Int) : Option (Int × Int) :=
  let h := local_hash m.capacity_ k
  match m.borders_.getD h none with
  | none => none
  | some b => findWalk m.capacity_ k h (m.data_.drop b)

/-- The non-duplicate tail of `insert_it` (source lines 343-360): insert
the element right before its bucket's border (before the end of the list
when the bucket was empty or the list was), then pull the border back onto
the new node.  Borders of other buckets are untouched *as iterators*; as
indices, every stored `j` with `b ≤ j` becomes `j + 1`. -/
def insertNew (m : HM) (e : Int × Int) : HM :=
  let h := local_hash m.capacity_ e.1
  match m.data_ with
  | [] => ⟨1, m.capacity_, m.borders_.set h (some 0), [e]⟩
  | _ :: _ =>
      let b := match m.borders_.getD h none with
               | none => m.data_.length
               | some j => j
      ⟨m.size_ + 1, m.capacity_,
        (m.borders_.map (Option.map (fun j => if b ≤ j then j + 1 else j))).set h (some b),
        m.data_.take b ++ e :: m.data_.drop b⟩

/-- `insert_it` (source lines 337-361) with `rehash` (source lines
325-335) inlined as the fold of the recursive re-insertions over the old
list; the nesting depth of `insert_it → rehash → insert_it` is fuelled
(on every state the source terminates on, one level suffices). -/
def insert_it : Nat → HM → Int × Int → HM × Option (Int × Int)
  | 0, m, _ => (m, none)
  | fuel + 1, m, e =>
      match find m e.1 with
      | some p => (m, some p)
      | none =>
          let m1 : HM :=
            if 2 * (m.size_ + 1) ≥ m.capacity_ then
              m.data_.foldl (fun acc el => (insert_it fuel acc el).1)
                ⟨0, m.capacity_ * 2, List.replicate (m.capacity_ * 2) none, []⟩
            else m
          (insertNew m1 e, some e)

/-- `insert` (source lines 114-116). -/
def insert (m : HM) (e : Int × Int) : HM := (insert_it (m.size_ + 2) m e).1

/-- `need_rehash()` (source lines 321-323) — what `insert_it`'s guard
tests on the state it is given. -/
def need_rehash (m : HM) : Bool := 2 * (m.size_ + 1) ≥ m.capacity_

/-- `at(key)` (source lines 159-165). -/
def atHM (m : HM) (k : Int) : Except String Int :=
  match find m k with
  | none => Except.error ""
  | some p => Except.ok p.2

/-- `operator[](key)` (source lines 154-157): insert a default-constructed
(zero) value for the key and dereference the returned iterator. -/
def bracket (m : HM) (k : Int) : HM × Option Int :=
  let r := insert_it (m.size_ + 2) m (k, 0)
  (r.1, r.2.map Prod.snd)

/-- The search loop of `erase`'s second branch (source lines 131-139),
reporting the *index* of the node to unlink. -/
def eraseWalk (cap : Nat) (k : Int) (h : Nat) : Nat → List (Int × Int) → Option Nat
  | _, [] => none
  | i, (a, _) :: rest =>
      if local_hash cap a = h then
        if a = k then some i else eraseWalk cap k h (i + 1) rest
      else none

/-- `erase(key)` (source lines 118-141).  When the bucket's first node
holds the key, the border moves to the next node (or null when the bucket
empties); otherwise the walk unlinks an inner node of the segment and no
border moves.  Unlinking the node at `j` renumbers every stored index
above `j` down by one. -/
def erase (m : HM) (k : Int) : HM :=
  let h := local_hash m.capacity_ k
  match m.borders_.getD h none with
  | none => m
  | some b =>
      match m.data_.get? b with
      | none => m
      | some (a, _) =>
          if a = k then
            let nb : Option Nat :=
              match m.data_.get? (b + 1) with
              | some q => if local_hash m.capacity_ q.1 = h then some b else none
              | none => none
            ⟨m.size_ - 1, m.capacity_,
              (m.borders_.map (Option.map (fun j => if b < j then j - 1 else j))).set h nb,
              m.data_.take b ++ m.data_.drop (b + 1)⟩
          else
            match eraseWalk m.capacity_ k h b (m.data_.drop b) with
            | none => m
            | some j =>
                ⟨m.size_ - 1, m.capacity_,
                  m.borders_.map (Option.map (fun i => if j < i then i - 1 else i)),
                  m.data_.take j ++ m.data_.drop (j + 1)⟩

/-- `clear()` (source lines 143-149): null the border of every stored
element's bucket, empty the list, zero the size. -/
def clear (m : HM) : HM :=
  ⟨0, m.capacity_,
    m.data_.foldl (fun brd p => brd.set (local_hash m.capacity_ p.1) none) m.borders_,
    []⟩

/-- `size()` (source lines 69-71). -/
def sizeH (m : HM) : Nat := m.size_

/-- The default-constructed map (source lines 18-23). -/
def emptyHM : HM := ⟨0, kInitCapacity_, List.replicate kInitCapacity_ none, []⟩

/-- One public mutating operation. -/
inductive OpH where
  | insH (k v : Int) : OpH
  | delH (k : Int) : OpH
  | brk (k : Int) : OpH
  | clr : OpH
deriving DecidableEq, Repr

def applyOpH (m : HM) : OpH → HM
  | OpH.insH k v => insert m (k, v)
  | OpH.delH k => erase m k
  | OpH.brk k => (bracket m k).1
  | OpH.clr => clear m

def runOpsH (ops : List OpH) : HM := ops.foldl applyOpH emptyHM

/-! ## The bucket-segmentation invariant

`data_` is a concatenation of bucket segments: each non-null
`borders_[h]` is an index `b` such that the slice from `b` onward starts
with a non-empty run of hash-`h` elements and no hash-`h` element occurs
anywhere else; a null border means the bucket is empty. -/

def segOK (cap : Nat) (data : List (Int × Int)) (h : Nat) : Option Nat → Prop
  | none => ∀ p ∈ data, ¬ local_hash cap p.1 = h
  | some b => ∃ seg rest, data.drop b = seg ++ rest ∧ seg ≠ [] ∧
      (∀ p ∈ seg, local_hash cap p.1 = h) ∧
      (∀ p ∈ data.take b, ¬ local_hash cap p.1 = h) ∧
      (∀ p ∈ rest, ¬ local_hash cap p.1 = h)

/-- Well-formedness of a map state: sane capacity, the border table as
long as the capacity, a true size count, pairwise-distinct keys, load
factor strictly below one half, and every bucket segmented as above. -/
def HInv (m : HM) : Prop :=
  2 ≤ m.capacity_ ∧
  m.borders_.length = m.capacity_ ∧
  m.size_ = m.data_.length ∧
  (m.data_.map Prod.fst).Nodup ∧
  2 * m.size_ < m.capacity_ ∧
  ∀ h : Nat, segOK m.capacity_ m.data_ h (m.borders_.getD h none)

/-- Distinct keys make the pair holding a key unique. -/
theorem nodup_fst_eq : ∀ {l : List (Int × Int)}, (l.map Prod.fst).Nodup →
    ∀ {p q : Int × Int}, p ∈ l → q ∈ l → p.1 = q.1 → p = q := by
  intro l
  induction l with
  | nil => intro _ p q hp; cases hp
  | cons r t ih =>
      intro hnd p q hp hq hpq
      rw [List.map_cons, List.nodup_cons] at hnd
      rcases List.mem_cons.mp hp with rfl | hp2
      · rcases List.mem_cons.mp hq with rfl | hq2
        · rfl
        · exact absurd (hpq ▸ List.mem_map_of_mem Prod.fst hq2) hnd.1
      · rcases List.mem_cons.mp hq with rfl | hq2
        · exact absurd (hpq ▸ List.mem_map_of_mem Prod.fst hp2) hnd.1
        · exact ih hnd.2 hp2 hq2 hpq

/-- The bucket walk finds exactly the segment's key, when present. -/
theorem findWalk_spec (cap : Nat) (k : Int) (h : Nat) :
    ∀ (seg rest : List (Int × Int)),
    (∀ p ∈ seg, local_hash cap p.1 = h) →
    (∀ p ∈ rest, ¬ local_hash cap p.1 = h) →
    (findWalk cap k h (seg ++ rest) = none → ∀ p ∈ seg, p.1 ≠ k) ∧
    (∀ p, findWalk cap k h (seg ++ rest) = some p → p.1 = k ∧ p ∈ seg) := by
  intro seg
  induction seg with
  | nil =>
      intro rest _ hrest
      cases rest with
      | nil => exact ⟨fun _ p hp => absurd hp (List.not_mem_nil p), fun p hp => by cases hp⟩
      | cons q r2 =>
          obtain ⟨a, w⟩ := q
          have hq := hrest (a, w) (List.mem_cons_self _ _)
          rw [List.nil_append, findWalk, if_neg hq]
          exact ⟨fun _ p hp => absurd hp (List.not_mem_nil p), fun p hp => by cases hp⟩
  | cons q s2 ih =>
      intro rest hseg hrest
      obtain ⟨a, w⟩ := q
      have hq := hseg (a, w) (List.mem_cons_self _ _)
      rw [List.cons_append, findWalk, if_pos hq]
      by_cases hak : a = k
      · rw [if_pos hak]
        constructor
        · intro hcon
          cases hcon
        · intro p hp
          rw [Option.some.injEq] at hp
          subst hp
          exact ⟨hak, List.mem_cons_self _ _⟩
      · rw [if_neg hak]
        obtain ⟨ih1, ih2⟩ := ih rest (fun p hp => hseg p (List.mem_cons_of_mem _ hp)) hrest
        constructor
        · intro hn p hp
          rcases List.mem_cons.mp hp with rfl | hp2
          · exact hak
          · exact ih1 hn p hp2
        · intro p hp
          obtain ⟨h1, h2⟩ := ih2 p hp
          exact ⟨h1, List.mem_cons_of_mem _ h2⟩

/-- `find` is correct on well-formed states: it returns the pair holding
the key when one is stored and the end iterator when none is. -/
theorem find_spec {m : HM} (hinv : HInv m) (k : Int) :
    (find m k = none → ∀ p ∈ m.data_, p.1 ≠ k) ∧
    (∀ p, find m k = some p → p.1 = k ∧ p ∈ m.data_) := by
  have hseg := hinv.2.2.2.2.2 (local_hash m.capacity_ k)
  cases hb : m.borders_.getD (local_hash m.capacity_ k) none with
  | none =>
      rw [hb] at hseg
      have hf : find m k = none := by
        rw [find]
        rw [hb]
      constructor
      · intro _ p hp hpk
        exact hseg p hp (by rw [hpk])
      · intro p hp
        rw [hf] at hp
        cases hp
  | some b =>
      rw [hb] at hseg
      obtain ⟨seg, rest, hdrop, hne, hsegh, htake, hrest⟩ := hseg
      have hf : find m k = findWalk m.capacity_ k (local_hash m.capacity_ k)
          (seg ++ rest) := by
        rw [find]
        rw [hb]
        show findWalk m.capacity_ k (local_hash m.capacity_ k) (m.data_.drop b) = _
        rw [hdrop]
      obtain ⟨hw1, hw2⟩ := findWalk_spec m.capacity_ k (local_hash m.capacity_ k)
        seg rest hsegh hrest
      constructor
      · intro hn p hp hpk
        rw [hf] at hn
        rw [← List.take_append_drop b m.data_, hdrop] at hp
        rcases List.mem_append.mp hp with hp2 | hp2
        · exact htake p hp2 (by rw [hpk])
        · rcases List.mem_append.mp hp2 with hp3 | hp3
          · exact hw1 hn p hp3 hpk
          · exact hrest p hp3 (by rw [hpk])
      · intro p hp
        rw [hf] at hp
        obtain ⟨h1, h2⟩ := hw2 p hp
        refine ⟨h1, ?_⟩
        have hm : p ∈ m.data_.drop b := by
          rw [hdrop]
          exact List.mem_append.mpr (Or.inl h2)
        exact List.mem_of_mem_drop hm

/-- On a well-formed state a stored pair is found, exactly. -/
theorem find_eq_of_mem {m : HM} (hinv : HInv m) {k v : Int}
    (hm : (k, v) ∈ m.data_) : find m k = some (k, v) := by
  cases hf : find m k with
  | none => exact absurd rfl ((find_spec hinv k).1 hf (k, v) hm)
  | some p =>
      obtain ⟨h1, h2⟩ := (find_spec hinv k).2 p hf
      rw [nodup_fst_eq hinv.2.2.2.1 h2 hm h1]

/-- On a well-formed state an absent key is not found. -/
theorem find_eq_none {m : HM} (hinv : HInv m) {k : Int}
    (ha : ∀ p ∈ m.data_, p.1 ≠ k) : find m k = none := by
  cases hf : find m k with
  | none => rfl
  | some p =>
      obtain ⟨h1, h2⟩ := (find_spec hinv k).2 p hf
      exact absurd h1 (ha p h2)

/-! ## Surgery on the element list

`insert_it` splices the new node in at index `b`
(`data' = take b ++ e :: drop b`); these lemmas track how the slice looks
from any other stored index. -/

theorem insertSlice_perm {α : Type} (b : Nat) (e : α) (l : List α) :
    (l.take b ++ e :: l.drop b).Perm (e :: l) := by
  have h1 : (l.take b ++ e :: l.drop b).Perm (e :: (l.take b ++ l.drop b)) :=
    List.perm_middle
  rwa [List.take_append_drop] at h1

theorem mem_insertSlice {α : Type} {b : Nat} {e p : α} {l : List α} :
    p ∈ l.take b ++ e :: l.drop b ↔ p = e ∨ p ∈ l := by
  rw [(insertSlice_perm b e l).mem_iff, List.mem_cons]

theorem length_insertSlice {α : Type} (b : Nat) (e : α) (l : List α) :
    (l.take b ++ e :: l.drop b).length = l.length + 1 := by
  rw [(insertSlice_perm b e l).length_eq, List.length_cons]

theorem nodup_map_insertSlice {b : Nat} {e : Int × Int} {l : List (Int × Int)}
    (hnd : (l.map Prod.fst).Nodup) (he : ∀ p ∈ l, p.1 ≠ e.1) :
    ((l.take b ++ e :: l.drop b).map Prod.fst).Nodup := by
  rw [((insertSlice_perm b e l).map Prod.fst).nodup_iff, List.map_cons, List.nodup_cons]
  refine ⟨?_, hnd⟩
  intro hcon
  obtain ⟨p, hpmem, hpe⟩ := List.mem_map.mp hcon
  exact he p hpmem hpe

theorem drop_insertSlice_self {α : Type} {b : Nat} {e : α} {l : List α}
    (hb : b ≤ l.length) :
    (l.take b ++ e :: l.drop b).drop b = e :: l.drop b := by
  rw [List.drop_append_eq_append_drop]
  have h2 : (l.take b).drop b = [] :=
    List.drop_eq_nil_of_le (by rw [List.length_take]; omega)
  have h3 : b - (l.take b).length = 0 := by rw [List.length_take]; omega
  rw [h2, h3, List.nil_append, List.drop_zero]

theorem take_insertSlice_le {α : Type} {b j : Nat} {e : α} {l : List α}
    (hj : j ≤ b) (hb : b ≤ l.length) :
    (l.take b ++ e :: l.drop b).take j = l.take j := by
  rw [List.take_append_of_le_length (by rw [List.length_take]; omega),
    List.take_take, min_eq_left hj]

theorem drop_insertSlice_lt {α : Type} {b j : Nat} {e : α} {l : List α}
    (hj : j ≤ b) (hb : b ≤ l.length) :
    (l.take b ++ e :: l.drop b).drop j =
      (l.drop j).take (b - j) ++ e :: l.drop b := by
  rw [List.drop_append_of_le_length (by rw [List.length_take]; omega),
    List.drop_take]

theorem drop_insertSlice_ge {α : Type} {b j : Nat} {e : α} {l : List α}
    (hb : b ≤ j) (hbl : b ≤ l.length) :
    (l.take b ++ e :: l.drop b).drop (j + 1) = l.drop j := by
  rw [List.drop_append_eq_append_drop]
  have h2 : (l.take b).drop (j + 1) = [] :=
    List.drop_eq_nil_of_le (by rw [List.length_take]; omega)
  rw [h2, List.nil_append, List.length_take]
  have h3 : j + 1 - min b l.length = (j - b) + 1 := by omega
  rw [h3, List.drop_succ_cons, List.drop_drop]
  congr 1
  omega

theorem mem_take_insertSlice_ge {α : Type} {b j : Nat} {e p : α} {l : List α}
    (hb : b ≤ j) (hbl : b ≤ l.length)
    (hp : p ∈ (l.take b ++ e :: l.drop b).take (j + 1)) :
    p = e ∨ p ∈ l.take j := by
  rw [List.take_append_eq_append_take] at hp
  rcases List.mem_append.mp hp with hz | hz
  · have h1 : p ∈ l.take b := List.mem_of_mem_take hz
    have h4 : l.take b = (l.take j).take b := by
      rw [List.take_take, min_eq_left hb]
    rw [h4] at h1
    exact Or.inr (List.mem_of_mem_take h1)
  · have h5 : j + 1 - (l.take b).length = (j - b) + 1 := by
      rw [List.length_take]; omega
    rw [h5, List.take_succ_cons] at hz
    rcases List.mem_cons.mp hz with rfl | hz2
    · exact Or.inl rfl
    · have h6 : (l.drop b).take (j - b) = (l.take j).drop b := by
        rw [List.drop_take]
      rw [h6] at hz2
      exact Or.inr (List.mem_of_mem_drop hz2)

/-! ## Reading the border table -/

theorem getD_set_self {l : List (Option Nat)} {h : Nat} {v : Option Nat}
    (hl : h < l.length) : (l.set h v).getD h none = v := by
  rw [List.getD_eq_get?, List.get?_set_eq]
  cases hg : l.get? h with
  | none => exact absurd (List.get?_eq_none.mp hg) (by omega)
  | some o => rfl

theorem getD_set_ne {l : List (Option Nat)} {h j : Nat} {v : Option Nat}
    (hne : h ≠ j) : (l.set h v).getD j none = l.getD j none := by
  rw [List.getD_eq_get?, List.get?_set_ne _ _ hne, List.getD_eq_get?]

theorem getD_map_opt {l : List (Option Nat)} {g : Nat → Nat} {j : Nat} :
    (l.map (Option.map g)).getD j none = Option.map g (l.getD j none) := by
  rw [List.getD_eq_get?, List.get?_map, List.getD_eq_get?]
  cases l.get? j with
  | none => rfl
  | some o => rfl

theorem getD_replicate_none {n j : Nat} :
    (List.replicate n (none : Option Nat)).getD j none = none := by
  rw [List.getD_eq_get?]
  cases hg : (List.replicate n (none : Option Nat)).get? j with
  | none => rfl
  | some o =>
      have := List.get?_mem hg
      rw [List.eq_of_mem_replicate this]
      rfl

/-- Two bucket segments of different hashes cannot overlap: the one
starting at `j ≤ b` ends by `b`. -/
theorem seg_sep {cap : Nat} {l : List (Int × Int)} {j b h h2 : Nat}
    {seg rest seg2 rest2 : List (Int × Int)}
    (hne : h2 ≠ h)
    (hd : l.drop b = seg ++ rest) (hs : seg ≠ [])
    (hsh : ∀ p ∈ seg, local_hash cap p.1 = h)
    (hd2 : l.drop j = seg2 ++ rest2)
    (hsh2 : ∀ p ∈ seg2, local_hash cap p.1 = h2)
    (hjb : j ≤ b) : seg2.length ≤ b - j := by
  by_contra hcon
  push_neg at hcon
  have h1 : l.drop b = seg2.drop (b - j) ++ rest2 := by
    have h0 : l.drop b = (l.drop j).drop (b - j) := by
      rw [List.drop_drop]
      congr 1
      omega
    rw [h0, hd2, List.drop_append_of_le_length (by omega)]
  cases hseg : seg with
  | nil => exact hs hseg
  | cons s0 st =>
      cases hsegd : seg2.drop (b - j) with
      | nil =>
          rw [List.drop_eq_nil_iff_le] at hsegd
          omega
      | cons t0 tt =>
          rw [hseg] at hd
          rw [hsegd] at h1
          have h2e := hd.symm.trans h1
          rw [List.cons_append, List.cons_append] at h2e
          injection h2e with h3 _
          have ha : local_hash cap s0.1 = h := hsh s0 (by rw [hseg]; exact List.mem_cons_self _ _)
          have hb2 : local_hash cap t0.1 = h2 :=
            hsh2 t0 (List.mem_of_mem_drop (hsegd ▸ List.mem_cons_self t0 tt))
          rw [h3, hb2] at ha
          exact hne ha

/-- Splicing `e` in at `b` — the front of its own bucket's segment —
keeps every bucket segmented, with every stored index at or above `b`
renumbered up by one. -/
theorem segOK_insertSlice {cap : Nat} {l : List (Int × Int)} {brd : List (Option Nat)}
    {e : Int × Int} {b : Nat}
    (hblen : brd.length = cap)
    (hhl : local_hash cap e.1 < cap)
    (hseg : ∀ g : Nat, segOK cap l g (brd.getD g none))
    (hble : b ≤ l.length)
    (hnew : ∃ seg rest, l.drop b = seg ++ rest ∧
      (∀ p ∈ seg, local_hash cap p.1 = local_hash cap e.1) ∧
      (∀ p ∈ l.take b, ¬ local_hash cap p.1 = local_hash cap e.1) ∧
      (∀ p ∈ rest, ¬ local_hash cap p.1 = local_hash cap e.1) ∧
      (seg ≠ [] ∨ b = l.length)) :
    ∀ g : Nat, segOK cap (l.take b ++ e :: l.drop b) g
      (((brd.map (Option.map fun j => if b ≤ j then j + 1 else j)).set
          (local_hash cap e.1) (some b)).getD g none) := by
  obtain ⟨seg, rest, hd, hsh, htk, hrs, hor⟩ := hnew
  intro g
  by_cases hg : g = local_hash cap e.1
  · subst hg
    rw [getD_set_self (by rw [List.length_map]; omega)]
    refine ⟨e :: seg, rest, ?_, by simp, ?_, ?_, hrs⟩
    · rw [drop_insertSlice_self hble, hd, List.cons_append]
    · intro p hp
      rcases List.mem_cons.mp hp with rfl | hp2
      · rfl
      · exact hsh p hp2
    · rw [take_insertSlice_le (le_refl b) hble]
      exact htk
  · rw [getD_set_ne (fun hcon => hg hcon.symm), getD_map_opt]
    have hsg := hseg g
    cases hbg : brd.getD g none with
    | none =>
        rw [hbg] at hsg
        intro p hp
        rcases mem_insertSlice.mp hp with rfl | hp2
        · exact fun hcon => hg hcon.symm
        · exact hsg p hp2
    | some j =>
        rw [hbg] at hsg
        obtain ⟨seg2, rest2, hd2, hs2, hsh2, htk2, hrs2⟩ := hsg
        have hjlen : j < l.length := by
          by_contra hcon
          push_neg at hcon
          rw [List.drop_eq_nil_of_le hcon] at hd2
          cases seg2 with
          | nil => exact hs2 rfl
          | cons a t => exact List.noConfusion hd2
        by_cases hjb : j < b
        · have hF1 : seg2.length ≤ b - j := by
            rcases hor with hor | hor
            · exact seg_sep (fun hcon => hg hcon) hd hor hsh hd2 hsh2 (le_of_lt hjb)
            · have hlen := congrArg List.length hd2
              rw [List.length_drop, List.length_append] at hlen
              omega
          simp only [Option.map_some']
          rw [if_neg (by omega)]
          have hdb : l.drop b = rest2.drop (b - j - seg2.length) := by
            have h0 : l.drop b = (l.drop j).drop (b - j) := by
              rw [List.drop_drop]
              congr 1
              omega
            rw [h0, hd2, List.drop_append_eq_append_drop,
              List.drop_eq_nil_of_le hF1, List.nil_append]
          refine ⟨seg2, rest2.take (b - j - seg2.length) ++
            e :: rest2.drop (b - j - seg2.length), ?_, hs2, hsh2, ?_, ?_⟩
          · rw [drop_insertSlice_lt (le_of_lt hjb) hble, hd2,
              List.take_append_eq_append_take, List.take_all_of_le hF1,
              hdb, List.append_assoc]
          · rw [take_insertSlice_le (le_of_lt hjb) hble]
            exact htk2
          · intro p hp
            rcases List.mem_append.mp hp with hp2 | hp2
            · exact hrs2 p (List.mem_of_mem_take hp2)
            · rcases List.mem_cons.mp hp2 with rfl | hp3
              · exact fun hcon => hg hcon.symm
              · exact hrs2 p (List.mem_of_mem_drop hp3)
        · simp only [Option.map_some']
          rw [if_pos (by omega)]
          refine ⟨seg2, rest2, ?_, hs2, hsh2, ?_, hrs2⟩
          · rw [drop_insertSlice_ge (by omega) hble]
            exact hd2
          · intro p hp
            rcases mem_take_insertSlice_ge (by omega) hble hp with rfl | hp2
            · exact fun hcon => hg hcon.symm
            · exact htk2 p hp2

/-- One non-duplicate insertion below the load bound preserves the
invariant; the size grows by one, the capacity stays, the element list
gains exactly `e`. -/
theorem insertNew_spec {m : HM} {e : Int × Int} (hinv : HInv m)
    (habs : ∀ p ∈ m.data_, p.1 ≠ e.1)
    (hload : 2 * (m.size_ + 1) < m.capacity_) :
    HInv (insertNew m e) ∧ (insertNew m e).size_ = m.size_ + 1 ∧
    (insertNew m e).capacity_ = m.capacity_ ∧
    (∀ p, p ∈ (insertNew m e).data_ ↔ p = e ∨ p ∈ m.data_) := by
  obtain ⟨hcap2, hblen, hsz, hnd, hload0, hseg⟩ := hinv
  obtain ⟨sz, cap, brd, data⟩ := m
  simp only at hcap2 hblen hsz hnd hload0 hseg hload habs ⊢
  have hcappos : 0 < cap := by omega
  have hhlt : local_hash cap e.1 < cap := Nat.mod_lt _ hcappos
  cases data with
  | nil =>
      have hsz0 : sz = 0 := by simpa using hsz
      subst hsz0
      simp only [insertNew]
      refine ⟨⟨hcap2, ?_, rfl, by simp, by dsimp only; omega, ?_⟩, trivial, trivial, ?_⟩
      · simp only [List.length_set]
        exact hblen
      · intro g
        by_cases hg : g = local_hash cap e.1
        · subst hg
          rw [getD_set_self (by omega)]
          exact ⟨[e], [], rfl, by simp, by simp, by simp, by simp⟩
        · rw [getD_set_ne (fun hcon => hg hcon.symm)]
          have hsg := hseg g
          cases hbg : brd.getD g none with
          | none =>
              intro p hp
              rw [List.mem_singleton] at hp
              subst hp
              exact fun hcon => hg hcon.symm
          | some j =>
              rw [hbg] at hsg
              obtain ⟨seg2, rest2, hd2, hs2, _, _, _⟩ := hsg
              simp only [List.drop_nil] at hd2
              cases seg2 with
              | nil => exact absurd rfl hs2
              | cons a t => exact List.noConfusion hd2
      · intro p
        simp
  | cons d0 dt =>
      have hmain : ∀ b : Nat, b ≤ (d0 :: dt).length →
          (∃ seg rest, (d0 :: dt).drop b = seg ++ rest ∧
            (∀ p ∈ seg, local_hash cap p.1 = local_hash cap e.1) ∧
            (∀ p ∈ (d0 :: dt).take b, ¬ local_hash cap p.1 = local_hash cap e.1) ∧
            (∀ p ∈ rest, ¬ local_hash cap p.1 = local_hash cap e.1) ∧
            (seg ≠ [] ∨ b = (d0 :: dt).length)) →
          HInv ⟨sz + 1, cap,
            (brd.map (Option.map fun j => if b ≤ j then j + 1 else j)).set
              (local_hash cap e.1) (some b),
            (d0 :: dt).take b ++ e :: (d0 :: dt).drop b⟩ ∧
          sz + 1 = sz + 1 ∧ cap = cap ∧
          (∀ p, p ∈ (d0 :: dt).take b ++ e :: (d0 :: dt).drop b ↔
            p = e ∨ p ∈ d0 :: dt) := by
        intro b hbl hnew
        refine ⟨⟨hcap2, ?_, ?_, nodup_map_insertSlice hnd habs, by simpa using hload,
          segOK_insertSlice hblen hhlt hseg hbl hnew⟩, rfl, rfl, fun p => mem_insertSlice⟩
        · simp only [List.length_set, List.length_map]
          exact hblen
        · simp only [length_insertSlice]
          omega
      cases hbr : brd.getD (local_hash cap e.1) none with
      | none =>
          have hsg := hseg (local_hash cap e.1)
          rw [hbr] at hsg
          have hred : insertNew ⟨sz, cap, brd, d0 :: dt⟩ e =
              ⟨sz + 1, cap,
                (brd.map (Option.map fun j =>
                  if (d0 :: dt).length ≤ j then j + 1 else j)).set
                  (local_hash cap e.1) (some (d0 :: dt).length),
                (d0 :: dt).take (d0 :: dt).length ++
                  e :: (d0 :: dt).drop (d0 :: dt).length⟩ := by
            simp only [insertNew, hbr]
          rw [hred]
          refine hmain (d0 :: dt).length (le_refl _)
            ⟨[], [], by simp, by simp, ?_, by simp, Or.inr rfl⟩
          simp only [segOK] at hsg
          simpa using hsg
      | some b =>
          have hsg := hseg (local_hash cap e.1)
          rw [hbr] at hsg
          obtain ⟨seg, rest, hd, hs, hsh, htk, hrs⟩ := hsg
          have hbl : b ≤ (d0 :: dt).length := by
            by_contra hcon
            push_neg at hcon
            rw [List.drop_eq_nil_of_le (le_of_lt hcon)] at hd
            cases seg with
            | nil => exact hs rfl
            | cons a t => exact List.noConfusion hd
          have hred : insertNew ⟨sz, cap, brd, d0 :: dt⟩ e =
              ⟨sz + 1, cap,
                (brd.map (Option.map fun j => if b ≤ j then j + 1 else j)).set
                  (local_hash cap e.1) (some b),
                (d0 :: dt).take b ++ e :: (d0 :: dt).drop b⟩ := by
            simp only [insertNew, hbr]
          rw [hred]
          exact hmain b hbl ⟨seg, rest, hd, hsh, htk, hrs, Or.inl hs⟩

/-- Below the load bound, on an absent key, one `insert_it` step is
exactly the splice. -/
theorem insert_it_step {f : Nat} {m : HM} {e : Int × Int} (hinv : HInv m)
    (habs : ∀ p ∈ m.data_, p.1 ≠ e.1)
    (hload : 2 * (m.size_ + 1) < m.capacity_) :
    insert_it (f + 1) m e = (insertNew m e, some e) := by
  rw [insert_it]
  rw [find_eq_none hinv habs]
  rw [if_neg (by omega)]

/-- The refill loop of `rehash`: inserting pairwise-distinct fresh keys
one at a time, all below the load bound. -/
theorem refill_spec (fuel : Nat) : ∀ (rest : List (Int × Int)) (acc : HM),
    HInv acc →
    (rest.map Prod.fst).Nodup →
    (∀ p ∈ rest, ∀ q ∈ acc.data_, q.1 ≠ p.1) →
    2 * (acc.size_ + rest.length) < acc.capacity_ →
    HInv (rest.foldl (fun a el => (insert_it (fuel + 1) a el).1) acc) ∧
    (rest.foldl (fun a el => (insert_it (fuel + 1) a el).1) acc).capacity_ =
      acc.capacity_ ∧
    (rest.foldl (fun a el => (insert_it (fuel + 1) a el).1) acc).size_ =
      acc.size_ + rest.length ∧
    (∀ p, p ∈ (rest.foldl (fun a el => (insert_it (fuel + 1) a el).1) acc).data_ ↔
      p ∈ rest ∨ p ∈ acc.data_) := by
  intro rest
  induction rest with
  | nil =>
      intro acc hinv _ _ _
      exact ⟨hinv, rfl, by simp, fun p => by simp⟩
  | cons e rest2 ih =>
      intro acc hinv hnd habs hload
      rw [List.map_cons, List.nodup_cons] at hnd
      have habse : ∀ q ∈ acc.data_, q.1 ≠ e.1 :=
        fun q hq => habs e (List.mem_cons_self _ _) q hq
      have hle : 2 * (acc.size_ + 1) < acc.capacity_ := by
        have := List.length_cons e rest2
        simp only [List.length_cons] at hload
        omega
      obtain ⟨hinv2, hsz2, hcap2, hmem2⟩ := insertNew_spec hinv habse hle
      have hstep : (insert_it (fuel + 1) acc e).1 = insertNew acc e := by
        rw [insert_it_step hinv habse hle]
      rw [List.foldl_cons, hstep]
      have habs3 : ∀ p ∈ rest2, ∀ q ∈ (insertNew acc e).data_, q.1 ≠ p.1 := by
        intro p hp q hq
        rcases (hmem2 q).mp hq with rfl | hq2
        · intro hcon
          exact hnd.1 (hcon ▸ List.mem_map_of_mem Prod.fst hp)
        · exact habs p (List.mem_cons_of_mem _ hp) q hq2
      have hload3 : 2 * ((insertNew acc e).size_ + rest2.length) <
          (insertNew acc e).capacity_ := by
        rw [hsz2, hcap2]
        simp only [List.length_cons] at hload
        omega
      obtain ⟨i1, i2, i3, i4⟩ := ih (insertNew acc e) hinv2 hnd.2 habs3 hload3
      refine ⟨i1, by rw [i2, hcap2], by rw [i3, hsz2]; simp only [List.length_cons]; omega, ?_⟩
      intro p
      rw [i4, hmem2 p, List.mem_cons]
      tauto

/-- `insert` on a key already found: the found iterator is returned and
nothing at all changes. -/
theorem insert_present_spec {m : HM} {e : Int × Int} {p : Int × Int}
    (hf : find m e.1 = some p) :
    insert m e = m ∧ (insert_it (m.size_ + 2) m e).2 = some p := by
  have hstep : insert_it (m.size_ + 2) m e = (m, some p) := by
    rw [insert_it, hf]
  exact ⟨by rw [insert, hstep], by rw [hstep]⟩

/-- `insert` on an absent key: the invariant is preserved, the size grows
by one, and the capacity doubles exactly when the incoming load factor
reaches one half; the new pair is stored, nothing else changes, and the
returned iterator dereferences to the new pair. -/
theorem insert_absent_spec {m : HM} {e : Int × Int} (hinv : HInv m)
    (habs : ∀ p ∈ m.data_, p.1 ≠ e.1) :
    HInv (insert m e) ∧
    (insert m e).size_ = m.size_ + 1 ∧
    (insert m e).capacity_ =
      (if 2 * (m.size_ + 1) ≥ m.capacity_ then 2 * m.capacity_ else m.capacity_) ∧
    (∀ p, p ∈ (insert m e).data_ ↔ p = e ∨ p ∈ m.data_) ∧
    (insert_it (m.size_ + 2) m e).2 = some e := by
  obtain ⟨hcap2, hblen, hsz, hnd, hload0, hseg⟩ := hinv
  have hfn : find m e.1 = none :=
    find_eq_none ⟨hcap2, hblen, hsz, hnd, hload0, hseg⟩ habs
  by_cases htr : 2 * (m.size_ + 1) ≥ m.capacity_
  · -- the guard fires: rehash то the doubled capacity, then splice
    have hempty2 : HInv (⟨0, m.capacity_ * 2,
        List.replicate (m.capacity_ * 2) none, []⟩ : HM) := by
      refine ⟨by dsimp only; omega, by simp, rfl, by simp, by dsimp only; omega, ?_⟩
      intro g
      rw [getD_replicate_none]
      intro p hp
      cases hp
    obtain ⟨r1, r2, r3, r4⟩ := refill_spec m.size_ m.data_
      ⟨0, m.capacity_ * 2, List.replicate (m.capacity_ * 2) none, []⟩
      hempty2 hnd (by intro p _ q hq; cases hq) (by dsimp only; omega)
    set m1 := m.data_.foldl
      (fun a el => (insert_it (m.size_ + 1) a el).1)
      (⟨0, m.capacity_ * 2, List.replicate (m.capacity_ * 2) none, []⟩ : HM) with hm1
    have hm1mem : ∀ p, p ∈ m1.data_ ↔ p ∈ m.data_ := by
      intro p
      rw [r4 p]
      simp
    have habs1 : ∀ p ∈ m1.data_, p.1 ≠ e.1 :=
      fun p hp => habs p ((hm1mem p).mp hp)
    have hload1 : 2 * (m1.size_ + 1) < m1.capacity_ := by
      rw [r3, r2]
      try dsimp only
      omega
    obtain ⟨n1, n2, n3, n4⟩ := insertNew_spec r1 habs1 hload1
    have hstep : insert_it (m.size_ + 2) m e = (insertNew m1 e, some e) := by
      rw [insert_it, hfn, if_pos htr]
    refine ⟨?_, ?_, ?_, ?_, by rw [hstep]⟩
    · rw [insert, hstep]
      exact n1
    · rw [insert, hstep]
      simp only [n2, r3]
      try dsimp only
      omega
    · rw [insert, hstep, if_pos htr]
      rw [n3, r2]
      try dsimp only
      omega
    · intro p
      rw [insert, hstep]
      rw [n4 p, hm1mem p]
  · have hload : 2 * (m.size_ + 1) < m.capacity_ := by omega
    obtain ⟨n1, n2, n3, n4⟩ :=
      insertNew_spec ⟨hcap2, hblen, hsz, hnd, hload0, hseg⟩ habs hload
    have hstep : insert_it (m.size_ + 2) m e = (insertNew m e, some e) :=
      insert_it_step ⟨hcap2, hblen, hsz, hnd, hload0, hseg⟩ habs hload
    refine ⟨?_, ?_, ?_, ?_, by rw [hstep]⟩
    · rw [insert, hstep]
      exact n1
    · rw [insert, hstep]
      exact n2
    · rw [insert, hstep, if_neg htr]
      exact n3
    · intro p
      rw [insert, hstep]
      exact n4 p

/-- `insert` preserves the invariant on every well-formed state. -/
theorem insert_inv {m : HM} (hinv : HInv m) (e : Int × Int) :
    HInv (insert m e) := by
  cases hf : find m e.1 with
  | some p => rw [(insert_present_spec hf).1]; exact hinv
  | none => exact (insert_absent_spec hinv ((find_spec hinv e.1).1 hf)).1

/-! ## Surgery for `erase`: unlinking the node at one index -/

theorem take_take_append {α : Type} {c j : Nat} {l Z : List α} (hj : j ≤ c)
    (hc : c ≤ l.length) : (l.take c ++ Z).take j = l.take j := by
  rw [List.take_append_of_le_length (by rw [List.length_take]; omega),
    List.take_take, min_eq_left hj]

theorem drop_take_append_le {α : Type} {c j : Nat} {l Z : List α} (hj : j ≤ c)
    (hc : c ≤ l.length) : (l.take c ++ Z).drop j = (l.drop j).take (c - j) ++ Z := by
  rw [List.drop_append_of_le_length (by rw [List.length_take]; omega), List.drop_take]

theorem drop_take_append_ge {α : Type} {c j : Nat} {l Z : List α} (hj : c ≤ j)
    (hc : c ≤ l.length) : (l.take c ++ Z).drop j = Z.drop (j - c) := by
  rw [List.drop_append_eq_append_drop,
    List.drop_eq_nil_of_le (by rw [List.length_take]; omega),
    List.nil_append, List.length_take]
  congr 2
  omega

theorem drop_of_get? {α : Type} {l : List α} {n : Nat} {x : α}
    (h : l.get? n = some x) : l.drop n = x :: l.drop (n + 1) := by
  obtain ⟨hlt, hget⟩ := List.get?_eq_some.mp h
  rw [List.drop_eq_get_cons hlt, hget]

theorem lt_length_of_get? {α : Type} {l : List α} {n : Nat} {x : α}
    (h : l.get? n = some x) : n < l.length :=
  (List.get?_eq_some.mp h).1

theorem eraseSlice_sublist {α : Type} (t : Nat) (l : List α) :
    (l.take t ++ l.drop (t + 1)).Sublist l := by
  conv_rhs => rw [← List.take_append_drop t l]
  refine List.Sublist.append (List.Sublist.refl _) ?_
  have h1 : l.drop (t + 1) = (l.drop t).drop 1 := by
    rw [List.drop_drop]
  rw [h1]
  exact List.drop_sublist 1 _

/-- Inside a bucket segment every element hashes to the bucket. -/
theorem hash_at_seg {cap h bh t : Nat} {l seg rest : List (Int × Int)}
    (hd : l.drop bh = seg ++ rest)
    (hsh : ∀ p ∈ seg, local_hash cap p.1 = h)
    (ht1 : bh ≤ t) (ht2 : t - bh < seg.length) :
    ∀ x, l.get? t = some x → local_hash cap x.1 = h := by
  intro x hx
  have h1 : (l.drop bh).get? (t - bh) = some x := by
    rw [List.get?_drop]
    rw [show bh + (t - bh) = t by omega]
    exact hx
  rw [hd, List.get?_append ht2] at h1
  exact hsh x (List.get?_mem h1)

/-- A non-null border points at a real element of its own bucket. -/
theorem get?_of_segOK_some {cap g i : Nat} {l seg2 rest2 : List (Int × Int)}
    (hd2 : l.drop i = seg2 ++ rest2) (hs2 : seg2 ≠ [])
    (hsh2 : ∀ p ∈ seg2, local_hash cap p.1 = g) :
    ∃ q, l.get? i = some q ∧ local_hash cap q.1 = g := by
  cases hseg : seg2 with
  | nil => exact absurd hseg hs2
  | cons q t =>
      refine ⟨q, ?_, hsh2 q (by rw [hseg]; exact List.mem_cons_self _ _)⟩
      have h1 : (l.drop i).get? 0 = some q := by
        rw [hd2, hseg]
        rfl
      rw [List.get?_drop] at h1
      simpa using h1

/-- The search loop of `erase`: a found index lies inside the segment and
holds the key. -/
theorem eraseWalk_spec (cap : Nat) (k : Int) (h : Nat) :
    ∀ (seg rest : List (Int × Int)) (i : Nat),
    (∀ p ∈ seg, local_hash cap p.1 = h) →
    (∀ p ∈ rest, ¬ local_hash cap p.1 = h) →
    ∀ j, eraseWalk cap k h i (seg ++ rest) = some j →
      i ≤ j ∧ j - i < seg.length ∧ ∃ w, seg.get? (j - i) = some (k, w) := by
  intro seg
  induction seg with
  | nil =>
      intro rest i _ hrest j hj
      cases rest with
      | nil => cases hj
      | cons q r2 =>
          obtain ⟨a, w⟩ := q
          rw [List.nil_append, eraseWalk,
            if_neg (hrest (a, w) (List.mem_cons_self _ _))] at hj
          cases hj
  | cons q s2 ih =>
      intro rest i hseg hrest j hj
      obtain ⟨a, w⟩ := q
      rw [List.cons_append, eraseWalk,
        if_pos (hseg (a, w) (List.mem_cons_self _ _))] at hj
      by_cases hak : a = k
      · rw [if_pos hak] at hj
        rw [Option.some.injEq] at hj
        subst hj
        subst hak
        exact ⟨le_refl i, by simp, w, by simp⟩
      · rw [if_neg hak] at hj
        obtain ⟨h1, h2, w2, h3⟩ :=
          ih rest (i + 1) (fun p hp => hseg p (List.mem_cons_of_mem _ hp)) hrest j hj
        refine ⟨by omega, by simp only [List.length_cons]; omega, w2, ?_⟩
        have h4 : j - i = (j - (i + 1)) + 1 := by omega
        rw [h4, List.get?_cons_succ]
        exact h3

/-- Unlinking the node at `t` — a position inside the `h` bucket's
segment — keeps every *other* bucket segmented, with stored indices above
`t` renumbered down by one. -/
theorem segOK_eraseSlice_other {cap : Nat} {l : List (Int × Int)} {g h bh t : Nat}
    {seg rest : List (Int × Int)} {o : Option Nat} (hg : g ≠ h)
    (hd : l.drop bh = seg ++ rest) (hs : seg ≠ [])
    (hsh : ∀ p ∈ seg, local_hash cap p.1 = h)
    (ht1 : bh ≤ t) (ht2 : t - bh < seg.length) (htl : t < l.length)
    (hold : segOK cap l g o) :
    segOK cap (l.take t ++ l.drop (t + 1)) g
      (Option.map (fun i => if t < i then i - 1 else i) o) := by
  cases o with
  | none =>
      intro p hp
      rcases List.mem_append.mp hp with hp2 | hp2
      · exact hold p (List.mem_of_mem_take hp2)
      · exact hold p (List.mem_of_mem_drop hp2)
  | some i =>
      obtain ⟨seg2, rest2, hd2, hs2, hsh2, htk2, hrs2⟩ := hold
      obtain ⟨q, hq, hqg⟩ := get?_of_segOK_some hd2 hs2 hsh2
      have hil : i < l.length := lt_length_of_get? hq
      have hout : i < bh ∨ bh + seg.length ≤ i := by
        by_contra hcon
        push_neg at hcon
        have hh := hash_at_seg hd hsh hcon.1 (by omega) q hq
        rw [hqg] at hh
        exact hg hh
      have hit : i ≠ t := by
        intro hcon
        subst hcon
        have hh := hash_at_seg hd hsh ht1 ht2 q hq
        rw [hqg] at hh
        exact hg hh
      simp only [Option.map_some']
      by_cases hti : t < i
      · rw [if_pos hti]
        refine ⟨seg2, rest2, ?_, hs2, hsh2, ?_, hrs2⟩
        · rw [drop_take_append_ge (by omega) (by omega), List.drop_drop]
          rw [show t + 1 + (i - 1 - t) = i by omega]
          exact hd2
        · intro p hp
          rw [List.take_append_eq_append_take] at hp
          rcases List.mem_append.mp hp with hp2 | hp2
          · have h1 : p ∈ l.take t := List.mem_of_mem_take hp2
            have h4 : l.take t = (l.take i).take t := by
              rw [List.take_take, min_eq_left (by omega)]
            rw [h4] at h1
            exact htk2 p (List.mem_of_mem_take h1)
          · have hlen : (l.take t).length = t := by
              rw [List.length_take]
              omega
            rw [hlen] at hp2
            have h6 : (l.drop (t + 1)).take (i - 1 - t) = (l.take i).drop (t + 1) := by
              rw [List.drop_take]
              congr 1
              omega
            rw [h6] at hp2
            exact htk2 p (List.mem_of_mem_drop hp2)
      · rw [if_neg hti]
        have hilt : i < bh := by
          rcases hout with hlt | hge
          · exact hlt
          · omega
        have hF : seg2.length ≤ bh - i :=
          seg_sep hg hd hs hsh hd2 hsh2 (le_of_lt hilt)
        refine ⟨seg2, rest2.take (t - i - seg2.length) ++
          rest2.drop (t + 1 - i - seg2.length), ?_, hs2, hsh2, ?_, ?_⟩
        · rw [drop_take_append_le (by omega) (by omega), hd2,
            List.take_append_eq_append_take, List.take_all_of_le (by omega)]
          have hZ : l.drop (t + 1) = rest2.drop (t + 1 - i - seg2.length) := by
            have h0 : l.drop (t + 1) = (l.drop i).drop (t + 1 - i) := by
              rw [List.drop_drop]
              congr 1
              omega
            rw [h0, hd2, List.drop_append_eq_append_drop,
              List.drop_eq_nil_of_le (by omega), List.nil_append]
          rw [hZ, List.append_assoc]
        · rw [take_take_append (by omega) (by omega)]
          exact htk2
        · intro p hp
          rcases List.mem_append.mp hp with hp2 | hp2
          · exact hrs2 p (List.mem_of_mem_take hp2)
          · exact hrs2 p (List.mem_of_mem_drop hp2)

/-- `erase` preserves the invariant on every well-formed state. -/
theorem erase_inv {m : HM} (hinv : HInv m) (k : Int) : HInv (erase m k) := by
  obtain ⟨hcap2, hblen, hsz, hnd, hload0, hseg⟩ := hinv
  have hcappos : 0 < m.capacity_ := by omega
  have hhlt : local_hash m.capacity_ k < m.capacity_ := Nat.mod_lt _ hcappos
  cases hb : m.borders_.getD (local_hash m.capacity_ k) none with
  | none =>
      have hred : erase m k = m := by
        simp only [erase, hb]
      rw [hred]
      exact ⟨hcap2, hblen, hsz, hnd, hload0, hseg⟩
  | some b =>
      have hsg := hseg (local_hash m.capacity_ k)
      rw [hb] at hsg
      obtain ⟨seg, rest, hd, hs, hsh, htk, hrs⟩ := hsg
      cases hgb : m.data_.get? b with
      | none =>
          have hred : erase m k = m := by
            simp only [erase, hb, hgb]
          rw [hred]
          exact ⟨hcap2, hblen, hsz, hnd, hload0, hseg⟩
      | some q =>
          obtain ⟨a, w⟩ := q
          have hdb : m.data_.drop b = (a, w) :: m.data_.drop (b + 1) := drop_of_get? hgb
          have hbl : b < m.data_.length := lt_length_of_get? hgb
          obtain ⟨s0, st, hsegc⟩ : ∃ s0 st, seg = s0 :: st := by
            cases hsegc : seg with
            | nil => exact absurd hsegc hs
            | cons s0 st => exact ⟨s0, st, rfl⟩
          have h0 : s0 :: (st ++ rest) = (a, w) :: m.data_.drop (b + 1) := by
            rw [← List.cons_append, ← hsegc, ← hd]
            exact hdb
          rw [List.cons.injEq] at h0
          have hs0 : s0 = (a, w) := h0.1
          have htail : m.data_.drop (b + 1) = st ++ rest := h0.2.symm
          have hspos : 0 < seg.length := by
            rw [hsegc]
            simp
          by_cases hak : a = k
          · -- the bucket head holds the key: unlink it, move the border
            cases hnx : m.data_.get? (b + 1) with
            | none =>
                have hdrop1 : m.data_.drop (b + 1) = [] :=
                  List.drop_eq_nil_of_le (List.get?_eq_none.mp hnx)
                have hred : erase m k = ⟨m.size_ - 1, m.capacity_,
                    (m.borders_.map (Option.map fun j => if b < j then j - 1 else j)).set
                      (local_hash m.capacity_ k) none,
                    m.data_.take b ++ m.data_.drop (b + 1)⟩ := by
                  simp only [erase, hb, hgb, if_pos hak, hnx]
                rw [hred]
                refine ⟨hcap2, ?_, ?_, ?_, by try dsimp only; omega, ?_⟩
                · simp only [List.length_set, List.length_map]
                  exact hblen
                · simp only [List.length_append, List.length_take, List.length_drop]
                  try dsimp only
                  omega
                · exact hnd.sublist ((eraseSlice_sublist b m.data_).map Prod.fst)
                · intro g
                  by_cases hg : g = local_hash m.capacity_ k
                  · subst hg
                    rw [getD_set_self (by simp only [List.length_map]; omega)]
                    intro p hp
                    rcases List.mem_append.mp hp with hp2 | hp2
                    · exact htk p hp2
                    · rw [hdrop1] at hp2
                      cases hp2
                  · rw [getD_set_ne (fun hcon => hg hcon.symm), getD_map_opt]
                    exact segOK_eraseSlice_other hg hd hs hsh (le_refl b)
                      (by omega) hbl (hseg g)
            | some q2 =>
                have hq2d : m.data_.drop (b + 1) = q2 :: m.data_.drop (b + 2) :=
                  drop_of_get? hnx
                cases st with
                | nil =>
                    have htail2 : m.data_.drop (b + 1) = rest := by
                      simpa using htail
                    have hrest : rest = q2 :: m.data_.drop (b + 2) := by
                      rw [← htail2]
                      exact hq2d
                    have hq2r : ¬ local_hash m.capacity_ q2.1 = local_hash m.capacity_ k :=
                      hrs q2 (by rw [hrest]; exact List.mem_cons_self _ _)
                    have hred : erase m k = ⟨m.size_ - 1, m.capacity_,
                        (m.borders_.map (Option.map fun j => if b < j then j - 1 else j)).set
                          (local_hash m.capacity_ k) none,
                        m.data_.take b ++ m.data_.drop (b + 1)⟩ := by
                      simp only [erase, hb, hgb, if_pos hak, hnx, if_neg hq2r]
                    rw [hred]
                    refine ⟨hcap2, ?_, ?_, ?_, by try dsimp only; omega, ?_⟩
                    · simp only [List.length_set, List.length_map]
                      exact hblen
                    · simp only [List.length_append, List.length_take, List.length_drop]
                      try dsimp only
                      omega
                    · exact hnd.sublist ((eraseSlice_sublist b m.data_).map Prod.fst)
                    · intro g
                      by_cases hg : g = local_hash m.capacity_ k
                      · subst hg
                        rw [getD_set_self (by simp only [List.length_map]; omega)]
                        intro p hp
                        rcases List.mem_append.mp hp with hp2 | hp2
                        · exact htk p hp2
                        · rw [htail2] at hp2
                          exact hrs p hp2
                      · rw [getD_set_ne (fun hcon => hg hcon.symm), getD_map_opt]
                        exact segOK_eraseSlice_other hg hd hs hsh (le_refl b)
                          (by omega) hbl (hseg g)
                | cons s1 st2 =>
                    have hq2h : local_hash m.capacity_ q2.1 = local_hash m.capacity_ k := by
                      refine hash_at_seg hd hsh (by omega) ?_ q2 hnx
                      rw [hsegc]
                      simp only [List.length_cons]
                      omega
                    have hred : erase m k = ⟨m.size_ - 1, m.capacity_,
                        (m.borders_.map (Option.map fun j => if b < j then j - 1 else j)).set
                          (local_hash m.capacity_ k) (some b),
                        m.data_.take b ++ m.data_.drop (b + 1)⟩ := by
                      simp only [erase, hb, hgb, if_pos hak, hnx, if_pos hq2h]
                    rw [hred]
                    refine ⟨hcap2, ?_, ?_, ?_, by try dsimp only; omega, ?_⟩
                    · simp only [List.length_set, List.length_map]
                      exact hblen
                    · simp only [List.length_append, List.length_take, List.length_drop]
                      try dsimp only
                      omega
                    · exact hnd.sublist ((eraseSlice_sublist b m.data_).map Prod.fst)
                    · intro g
                      by_cases hg : g = local_hash m.capacity_ k
                      · subst hg
                        rw [getD_set_self (by simp only [List.length_map]; omega)]
                        refine ⟨s1 :: st2, rest, ?_, List.cons_ne_nil _ _, ?_, ?_, hrs⟩
                        · rw [drop_take_append_ge (le_refl b) (le_of_lt hbl),
                            Nat.sub_self, List.drop_zero]
                          exact htail
                        · intro p hp
                          refine hsh p ?_
                          rw [hsegc]
                          exact List.mem_cons_of_mem _ hp
                        · rw [take_take_append (le_refl b) (le_of_lt hbl)]
                          exact htk
                      · rw [getD_set_ne (fun hcon => hg hcon.symm), getD_map_opt]
                        exact segOK_eraseSlice_other hg hd hs hsh (le_refl b)
                          (by omega) hbl (hseg g)
          · -- the key sits deeper in the segment: unlink it, borders stay
            cases hew : eraseWalk m.capacity_ k (local_hash m.capacity_ k) b
                (m.data_.drop b) with
            | none =>
                have hred : erase m k = m := by
                  simp only [erase, hb, hgb, if_neg hak, hew]
                rw [hred]
                exact ⟨hcap2, hblen, hsz, hnd, hload0, hseg⟩
            | some j =>
                have hew2 : eraseWalk m.capacity_ k (local_hash m.capacity_ k) b
                    (seg ++ rest) = some j := by
                  rw [← hd]
                  exact hew
                obtain ⟨hbj, hjs, w2, hgw⟩ := eraseWalk_spec m.capacity_ k
                  (local_hash m.capacity_ k) seg rest b hsh hrs j hew2
                have hlen : m.data_.length - b = seg.length + rest.length := by
                  have h1 := congrArg List.length hd
                  rw [List.length_drop, List.length_append] at h1
                  exact h1
                have hjl : j < m.data_.length := by omega
                have hbj2 : b < j := by
                  rcases Nat.lt_or_ge b j with h1 | h1
                  · exact h1
                  · exfalso
                    have hj0 : j - b = 0 := by omega
                    rw [hj0, hsegc] at hgw
                    simp only [List.get?_cons_zero, Option.some.injEq] at hgw
                    rw [hs0, Prod.mk.injEq] at hgw
                    exact hak hgw.1
                have hred : erase m k = ⟨m.size_ - 1, m.capacity_,
                    m.borders_.map (Option.map fun i => if j < i then i - 1 else i),
                    m.data_.take j ++ m.data_.drop (j + 1)⟩ := by
                  simp only [erase, hb, hgb, if_neg hak, hew]
                rw [hred]
                refine ⟨hcap2, ?_, ?_, ?_, by try dsimp only; omega, ?_⟩
                · simp only [List.length_map]
                  exact hblen
                · simp only [List.length_append, List.length_take, List.length_drop]
                  try dsimp only
                  omega
                · exact hnd.sublist ((eraseSlice_sublist j m.data_).map Prod.fst)
                · intro g
                  by_cases hg : g = local_hash m.capacity_ k
                  · subst hg
                    rw [getD_map_opt, hb]
                    simp only [Option.map_some']
                    rw [if_neg (by omega)]
                    have hdj1 : m.data_.drop (j + 1) = seg.drop (j - b + 1) ++ rest := by
                      have hh0 : m.data_.drop (j + 1) = (m.data_.drop b).drop (j + 1 - b) := by
                        rw [List.drop_drop]
                        congr 1
                        omega
                      rw [hh0, hd, List.drop_append_of_le_length (by omega)]
                      congr 2
                      omega
                    refine ⟨seg.take (j - b) ++ seg.drop (j - b + 1), rest, ?_, ?_, ?_, ?_, hrs⟩
                    · rw [drop_take_append_le (le_of_lt hbj2) (le_of_lt hjl), hd,
                        List.take_append_of_le_length (by omega), hdj1,
                        List.append_assoc]
                    · refine List.ne_nil_of_length_pos ?_
                      rw [List.length_append, List.length_take]
                      omega
                    · intro p hp
                      rcases List.mem_append.mp hp with hp2 | hp2
                      · exact hsh p (List.mem_of_mem_take hp2)
                      · exact hsh p (List.mem_of_mem_drop hp2)
                    · rw [take_take_append (le_of_lt hbj2) (le_of_lt hjl)]
                      exact htk
                  · rw [getD_map_opt]
                    exact segOK_eraseSlice_other hg hd hs hsh hbj hjs hjl (hseg g)

/-- The border-nulling loop of `clear`: every bucket that still stores an
index either gets nulled (its elements were walked over) or kept with no
element left hashing there. -/
theorem clearBorders_spec (cap : Nat) : ∀ (data : List (Int × Int))
    (brd : List (Option Nat)) (g : Nat),
    (data.foldl (fun b p => b.set (local_hash cap p.1) none) brd).getD g none = none ∨
    ((data.foldl (fun b p => b.set (local_hash cap p.1) none) brd).getD g none =
        brd.getD g none ∧ ∀ p ∈ data, local_hash cap p.1 ≠ g) := by
  intro data
  induction data with
  | nil => intro brd g; exact Or.inr ⟨rfl, fun p hp => absurd hp (List.not_mem_nil p)⟩
  | cons p t ih =>
      intro brd g
      rw [List.foldl_cons]
      rcases ih (brd.set (local_hash cap p.1) none) g with h1 | ⟨h1, h2⟩
      · exact Or.inl h1
      · by_cases hg : local_hash cap p.1 = g
        · refine Or.inl ?_
          rw [h1, hg]
          by_cases hlt : g < brd.length
          · exact getD_set_self hlt
          · rw [List.getD_eq_get?, List.get?_eq_none.mpr (by rw [List.length_set]; omega)]
            rfl
        · refine Or.inr ⟨?_, ?_⟩
          · rw [h1, getD_set_ne hg]
          · intro q hq
            rcases List.mem_cons.mp hq with rfl | hq2
            · exact hg
            · exact h2 q hq2

/-- `clear` preserves the invariant. -/
theorem clear_inv {m : HM} (hinv : HInv m) : HInv (clear m) := by
  obtain ⟨hcap2, hblen, hsz, hnd, hload0, hseg⟩ := hinv
  have hred : clear m = ⟨0, m.capacity_,
      m.data_.foldl (fun brd p => brd.set (local_hash m.capacity_ p.1) none) m.borders_,
      []⟩ := rfl
  rw [hred]
  refine ⟨hcap2, ?_, rfl, by simp, by dsimp only; omega, ?_⟩
  · show (m.data_.foldl (fun b p => b.set (local_hash m.capacity_ p.1) none)
      m.borders_).length = m.capacity_
    have hlen : ∀ (data : List (Int × Int)) (brd : List (Option Nat)),
        (data.foldl (fun b p => b.set (local_hash m.capacity_ p.1) none) brd).length =
          brd.length := by
      intro data
      induction data with
      | nil => intro brd; rfl
      | cons p t ih =>
          intro brd
          rw [List.foldl_cons, ih, List.length_set]
    rw [hlen]
    exact hblen
  · intro g
    show segOK m.capacity_ [] g _
    rcases clearBorders_spec m.capacity_ m.data_ m.borders_ g with h1 | ⟨h1, h2⟩
    · rw [h1]
      intro p hp
      cases hp
    · rw [h1]
      have hsg := hseg g
      cases hbg : m.borders_.getD g none with
      | none =>
          intro p hp
          cases hp
      | some b =>
          rw [hbg] at hsg
          obtain ⟨seg2, rest2, hd2, hs2, hsh2, _, _⟩ := hsg
          obtain ⟨q, hq, hqg⟩ := get?_of_segOK_some hd2 hs2 hsh2
          exact absurd hqg (h2 q (List.get?_mem hq))

/-- Every public operation preserves the invariant. -/
theorem applyOpH_inv {m : HM} (hinv : HInv m) (o : OpH) : HInv (applyOpH m o) := by
  cases o with
  | insH k v => exact insert_inv hinv (k, v)
  | delH k => exact erase_inv hinv k
  | brk k => exact insert_inv hinv (k, 0)
  | clr => exact clear_inv hinv

theorem emptyHM_inv : HInv emptyHM := by
  refine ⟨by decide, ?_, rfl, by simp [emptyHM], by decide, ?_⟩
  · show (List.replicate kInitCapacity_ (none : Option Nat)).length = kInitCapacity_
    exact List.length_replicate _ _
  intro g
  show segOK kInitCapacity_ [] g ((List.replicate kInitCapacity_ none).getD g none)
  rw [getD_replicate_none]
  intro p hp
  cases hp

theorem foldl_inv_H : ∀ (ops : List OpH) (m : HM), HInv m →
    HInv (ops.foldl applyOpH m) := by
  intro ops
  induction ops with
  | nil => intro m h; exact h
  | cons o rest ih =>
      intro m h
      exact ih (applyOpH m o) (applyOpH_inv h o)

/-- Every state reachable through the public interface is well formed. -/
theorem runOpsH_inv (ops : List OpH) : HInv (runOpsH ops) :=
  foldl_inv_H ops emptyHM emptyHM_inv

/-! ## The claims about `HashMap` -/

/-- C8: on every reachable map, `at(k)` fails with the not-found error
exactly when `k` is absent — and returns the stored value when present —
while `operator[]` on an absent key auto-vivifies: it inserts a
default-constructed (zero) value for `k`, returns a reference to it, and
grows the size by one. -/
theorem C8_at_error_bracket_vivifies (ops : List OpH) (k : Int) :
    ((∀ p ∈ (runOpsH ops).data_, p.1 ≠ k) →
       atHM (runOpsH ops) k = Except.error "") ∧
    (∀ v0 : Int, (k, v0) ∈ (runOpsH ops).data_ →
       atHM (runOpsH ops) k = Except.ok v0) ∧
    ((∀ p ∈ (runOpsH ops).data_, p.1 ≠ k) →
       (bracket (runOpsH ops) k).2 = some 0 ∧
       (bracket (runOpsH ops) k).1.size_ = (runOpsH ops).size_ + 1 ∧
       (k, 0) ∈ (bracket (runOpsH ops) k).1.data_ ∧
       atHM (bracket (runOpsH ops) k).1 k = Except.ok 0) := by
  have hinv := runOpsH_inv ops
  refine ⟨?_, ?_, ?_⟩
  · intro habs
    rw [atHM, find_eq_none hinv habs]
  · intro v0 hm
    rw [atHM, find_eq_of_mem hinv hm]
  · intro habs
    obtain ⟨i1, i2, i3, i4, i5⟩ :=
      @insert_absent_spec (runOpsH ops) (k, 0) hinv habs
    have hbr1 : (bracket (runOpsH ops) k).1 = insert (runOpsH ops) (k, 0) := rfl
    have hbr2 : (bracket (runOpsH ops) k).2 =
        ((insert_it ((runOpsH ops).size_ + 2) (runOpsH ops) (k, 0)).2).map Prod.snd :=
      rfl
    have hmem : (k, 0) ∈ (insert (runOpsH ops) (k, 0)).data_ :=
      (i4 (k, 0)).mpr (Or.inl rfl)
    refine ⟨?_, ?_, ?_, ?_⟩
    · rw [hbr2, i5]
      rfl
    · rw [hbr1]
      exact i2
    · rw [hbr1]
      exact hmem
    · rw [hbr1, atHM, find_eq_of_mem i1 hmem]

/-- C9: inserting a fresh key doubles the bucket-table capacity exactly
when the incoming load factor reaches one half — the `need_rehash` test
`(size_ + 1) * 2 >= capacity_` — and after the insert (rehash included)
every previously stored pair is still logically present: `find` returns
it and `at` reads back its mapped value. -/
theorem C9_rehash_preserves (ops : List OpH) (k v : Int)
    (habs : ∀ p ∈ (runOpsH ops).data_, p.1 ≠ k) :
    ((insert (runOpsH ops) (k, v)).capacity_ =
       if 2 * ((runOpsH ops).size_ + 1) ≥ (runOpsH ops).capacity_
       then 2 * (runOpsH ops).capacity_ else (runOpsH ops).capacity_) ∧
    (∀ p ∈ (runOpsH ops).data_,
       find (insert (runOpsH ops) (k, v)) p.1 = some p ∧
       atHM (insert (runOpsH ops) (k, v)) p.1 = Except.ok p.2) := by
  have hinv := runOpsH_inv ops
  obtain ⟨i1, i2, i3, i4, i5⟩ :=
    @insert_absent_spec (runOpsH ops) (k, v) hinv habs
  refine ⟨i3, ?_⟩
  intro p hp
  obtain ⟨p1, p2⟩ := p
  have hmem := (i4 (p1, p2)).mpr (Or.inr hp)
  exact ⟨find_eq_of_mem i1 hmem, by rw [atHM, find_eq_of_mem i1 hmem]⟩

theorem C9_rehash_preserves_witness :
    (∀ p ∈ (runOpsH []).data_, p.1 ≠ 7) ∧
    (((insert (runOpsH []) (7, 3)).capacity_ =
        if 2 * ((runOpsH []).size_ + 1) ≥ (runOpsH []).capacity_
        then 2 * (runOpsH []).capacity_ else (runOpsH []).capacity_) ∧
      (∀ p ∈ (runOpsH []).data_,
        find (insert (runOpsH []) (7, 3)) p.1 = some p ∧
        atHM (insert (runOpsH []) (7, 3)) p.1 = Except.ok p.2)) :=
  ⟨by decide, C9_rehash_preserves [] 7 3 (by decide)⟩

/-- C10: `insert` on a key that is already stored returns the found
iterator and changes nothing: the whole state is unchanged, so the size
is unchanged and `at` still reads the original mapped value, even when
the offered value differs. -/
theorem C10_insert_keeps_existing (ops : List OpH) (k v v0 : Int)
    (hm : (k, v0) ∈ (runOpsH ops).data_) :
    insert (runOpsH ops) (k, v) = runOpsH ops ∧
    (insert (runOpsH ops) (k, v)).size_ = (runOpsH ops).size_ ∧
    atHM (insert (runOpsH ops) (k, v)) k = Except.ok v0 := by
  have hinv := runOpsH_inv ops
  have hf : find (runOpsH ops) k = some (k, v0) := find_eq_of_mem hinv hm
  have heq := (@insert_present_spec (runOpsH ops) (k, v) (k, v0) hf).1
  refine ⟨heq, by rw [heq], ?_⟩
  rw [heq, atHM, hf]

theorem C10_insert_keeps_existing_witness :
    (2, 9) ∈ (runOpsH [OpH.insH 2 9]).data_ ∧
    (insert (runOpsH [OpH.insH 2 9]) (2, 99) = runOpsH [OpH.insH 2 9] ∧
      (insert (runOpsH [OpH.insH 2 9]) (2, 99)).size_ = (runOpsH [OpH.insH 2 9]).size_ ∧
      atHM (insert (runOpsH [OpH.insH 2 9]) (2, 99)) 2 = Except.ok 9) :=
  ⟨by decide, C10_insert_keeps_existing [OpH.insH 2 9] 2 99 9 (by decide)⟩

end HMap
